import Mathlib

/-!
# The `encode` processor of `lib/processor/encode.go` and `ReplaceEnvVariables`

A shallow embedding of the Encode processor: the base64 codec it selects by
scheme name, the stage built by `NewEncode`, and `ProcessMessage`, which copies
the incoming batch, runs the codec over the targeted parts and reports either
one output batch or an acknowledgement; and of `ReplaceEnvVariables` of
`internal/config/env_vars.go`, which replaces `${NAME}` and `${NAME:default}`
in a configuration text through two regular expressions.

`ProcessMessage` is embedded twice: on the contents of a batch, and on part
objects held by address in a memory, where two batches can share a part; the
second is shown to compute what the first computes.

Bytes are `Fin 256`, a byte slice is a list of them, Go's `int` indices are
`Int`, counters are `Nat`, and a Go `(value, error)` pair is an `Except`.
-/

namespace Benthos

/-- One byte. -/
abbrev Byte := Fin 256

/-- A Go byte slice. -/
abbrev Bytes := List Byte

/-- The bytes of an ASCII string literal. -/
def ascii (s : String) : Bytes := s.toList.map (fun ch => Fin.ofNat ch.toNat)

/-! ## `encoding/base64`: the standard encoding used by `base64Encode` -/

/-- The alphabet of `base64.StdEncoding` (the constant `encodeStd` of the Go library). -/
def encodeStd : String :=
  "ABCDEFGHIJKLMNOPQRSTUVWXYZabcdefghijklmnopqrstuvwxyz0123456789+/"

/-- The padding character of `base64.StdEncoding`, the byte of `=`. -/
def StdPadding : Byte := 61

/-- The table lookup `enc.encode[s]`: the alphabet character of a six-bit value. -/
def encodeChar (s : Nat) : Byte := Fin.ofNat (encodeStd.toList.getD s 'A').toNat

/-- The body of the main loop of `Encoding.Encode`: three source bytes are
joined into a 24-bit value and cut into four six-bit values
(`val>>18&0x3F`, `val>>12&0x3F`, `val>>6&0x3F`, `val&0x3F`). -/
def encodeQuantum (a b c : Byte) : Bytes :=
  let val := a.val * 65536 + b.val * 256 + c.val
  [encodeChar (val / 262144 % 64), encodeChar (val / 4096 % 64),
   encodeChar (val / 64 % 64), encodeChar (val % 64)]

/-- The method `Encoding.Encode` of `base64.StdEncoding`: whole groups of three bytes
through `encodeQuantum`, then the remaining one or two bytes as a padded
block. -/
def StdEncode : Bytes → Bytes
  | a :: b :: c :: rest => encodeQuantum a b c ++ StdEncode rest
  | [a, b] =>
    let val := a.val * 65536 + b.val * 256
    [encodeChar (val / 262144 % 64), encodeChar (val / 4096 % 64),
     encodeChar (val / 64 % 64), StdPadding]
  | [a] =>
    let val := a.val * 65536
    [encodeChar (val / 262144 % 64), encodeChar (val / 4096 % 64), StdPadding, StdPadding]
  | [] => []

/-- The streaming encoder returned by `base64.NewEncoder`: the bytes written so far
that do not yet fill a group of three. -/
structure encoder where
  buf : Bytes
deriving DecidableEq, Repr

/-- The call `base64.NewEncoder(base64.StdEncoding, &buf)`: nothing pending. -/
def NewEncoder : encoder := ⟨[]⟩

/-- The method `encoder.Write`: the pending bytes followed by `p` are encoded as far as whole
groups of three go and appended to the buffer `w`; the fringe of fewer than
three bytes stays pending. -/
def encoder.Write (e : encoder) (w : Bytes) (p : Bytes) : Bytes × encoder :=
  let all := e.buf ++ p
  let nn := all.length / 3 * 3
  (w ++ StdEncode (all.take nn), ⟨all.drop nn⟩)

/-- The method `encoder.Close`: a pending fringe is flushed to `w` as a padded block. -/
def encoder.Close (e : encoder) (w : Bytes) : Bytes :=
  if e.buf.length > 0 then w ++ StdEncode e.buf else w

/-- The map `decodeMap` of `base64.StdEncoding`: the six-bit value of an alphabet
character, nothing for any other byte. -/
def decodeChar (ch : Byte) : Option Nat :=
  let i := (encodeStd.toList.map (fun x => x.toNat)).indexOf ch.val
  if i < 64 then some i else none

/-- Four alphabet characters give three bytes (the unpadded case of
`decodeQuantum`): the six-bit values are joined into a 24-bit value that is
cut into bytes. -/
def decodeFull (c0 c1 c2 c3 : Byte) : Option Bytes :=
  match decodeChar c0, decodeChar c1, decodeChar c2, decodeChar c3 with
  | some s0, some s1, some s2, some s3 =>
    let val := s0 * 262144 + s1 * 4096 + s2 * 64 + s3
    some [Fin.ofNat (val / 65536), Fin.ofNat (val / 256), Fin.ofNat val]
  | _, _, _, _ => none

/-- The last group of the input, where padding is accepted: `xx==` gives one
byte, `xxx=` two bytes, four alphabet characters three bytes. -/
def decodeLast (c0 c1 c2 c3 : Byte) : Option Bytes :=
  if c3 = StdPadding then
    if c2 = StdPadding then
      match decodeChar c0, decodeChar c1 with
      | some s0, some s1 => some [Fin.ofNat ((s0 * 262144 + s1 * 4096) / 65536)]
      | _, _ => none
    else
      match decodeChar c0, decodeChar c1, decodeChar c2 with
      | some s0, some s1, some s2 =>
        let val := s0 * 262144 + s1 * 4096 + s2 * 64
        some [Fin.ofNat (val / 65536), Fin.ofNat (val / 256)]
      | _, _, _ => none
  else decodeFull c0 c1 c2 c3

/-- Decoding of input from which line breaks have been removed, group of four
by group of four; padding only in the last group, and input that stops inside
a group is corrupt. -/
def decodeQuanta : Bytes → Option Bytes
  | [] => some []
  | c0 :: c1 :: c2 :: c3 :: rest =>
    match rest with
    | [] => decodeLast c0 c1 c2 c3
    | _ :: _ =>
      match decodeFull c0 c1 c2 c3, decodeQuanta rest with
      | some head, some tail => some (head ++ tail)
      | _, _ => none
  | _ => none

/-- The standard-alphabet padded base64 decoder (`base64.StdEncoding.Decode`):
carriage returns and line feeds are skipped, the rest is decoded group by
group. -/
def StdDecode (src : Bytes) : Option Bytes :=
  decodeQuanta (src.filter (fun ch => ch ≠ 10 ∧ ch ≠ 13))

/-! ## The batch and its parts (`lib/types`, `lib/message`) -/

/-- Modelled from the spec: the types `types.Message` and `types.Part`, which `encode.go`
imports from `lib/types`. A batch is "an ordered sequence of Parts", a part "an
opaque ordered byte sequence", "addressed by zero-based index". -/
structure Message where
  parts : List Bytes
deriving DecidableEq, Repr

/-- Modelled from the spec: the method `Message.Len`, the number of parts of the batch. -/
def Message.Len (m : Message) : Nat := m.parts.length

/-- Modelled from the spec: the method `Message.Copy`, "a new Batch with independently mutable
Parts but equal-by-value content"; with value semantics the copy is the same
value and later writes to it build a new value. -/
def Message.Copy (m : Message) : Message := m

/-- The part handle that `Message.Get` hands out: either the part held at a
position of the batch, or a part that belongs to no batch. A position beyond
the end of the batch reads as empty and takes no write. -/
inductive Slot where
  | held (k : Nat)
  | detached (content : Bytes)
deriving DecidableEq, Repr

/-- What the batch implementation does when `Get` is called with an index
outside `0 .. Len-1`. Neither `encode.go` nor the specification settles it, so
it is a parameter: for the batch and the index it names the part handed out, as the
signature `Get(int) Part` has a part and no error for its result. Counting a
negative index from the end of the batch and handing out a fresh empty part
are both instances (`wrapOutside`, `emptyOutside`). -/
abbrev Outside := Message → Int → Slot

/-- Modelled from the spec: the method `Message.Get(index)`. Parts are "addressed by zero-based index":
an index within `0 .. Len-1` yields the part held there; every other index is
left to the parameter `impl`. -/
def Message.Get (impl : Outside) (m : Message) (index : Int) : Slot :=
  if 0 ≤ index ∧ index < m.Len then Slot.held index.toNat else impl m index

/-- Modelled from the spec: the method `Part.Get`, the bytes of a part handed out by batch `m`. -/
def Part.Get (m : Message) : Slot → Bytes
  | Slot.held k => m.parts.getD k []
  | Slot.detached content => content

/-- Modelled from the spec: the method `Part.Set`, which replaces the bytes of a part in place: the batch
holding the part changes at that position, a part of no batch changes no
batch. -/
def Part.Set (m : Message) (s : Slot) (b : Bytes) : Message :=
  match s with
  | Slot.held k => ⟨m.parts.set k b⟩
  | Slot.detached _ => m

/-- Modelled from the spec: the type `types.Response` of `lib/types`, of which the stage only
ever builds the "positive acknowledgment". -/
inductive Response where
  | Ack
deriving DecidableEq, Repr

/-- Modelled from the spec: the call `response.NewAck()` of `lib/response`, "a positive
acknowledgment". -/
def NewAck : Response := Response.Ack

/-! ## Configuration, codec selection and construction -/

/-- The struct `EncodeConfig`: the scheme name and the configured part indices. -/
structure EncodeConfig where
  Scheme : String
  Parts : List Int
deriving DecidableEq, Repr

/-- The function `NewEncodeConfig`: the default configuration. -/
def NewEncodeConfig : EncodeConfig := { Scheme := "base64", Parts := [] }

/-- The type `encodeFunc`: a codec takes bytes to bytes or fails with an error. -/
abbrev encodeFunc := Bytes → Except String Bytes

/-- The function `base64Encode`: a fresh buffer, a streaming encoder over it, one `Write` of
the whole input, `Close`, and the buffer's bytes with a nil error. -/
def base64Encode (b : Bytes) : Except String Bytes :=
  let buf : Bytes := []
  let e := NewEncoder
  let (buf, e) := e.Write buf b
  let buf := e.Close buf
  Except.ok buf

/-- The function `strToEncoder`: the codec of a scheme name, or an error naming the scheme. -/
def strToEncoder (str : String) : Except String encodeFunc :=
  if str = "base64" then Except.ok base64Encode
  else Except.error ("encode scheme not recognised: " ++ str)

/-- Modelled from the spec: the six counters of `lib/metrics` that the stage obtains from
`stats.GetCounter`, named after the fields of `Encode`: "count", "success",
"error", "skipped", "sent" and "parts.sent". `Incr(n)`, "the only operation
used", adds `n`. -/
structure Stats where
  mCount : Nat
  mSucc : Nat
  mErr : Nat
  mSkipped : Nat
  mSent : Nat
  mSentParts : Nat
deriving DecidableEq, Repr

/-- The struct `Encode`: the configuration and the resolved codec. The counters and the
debug log it writes to are threaded through `ProcessMessage` as state. -/
structure Encode where
  conf : EncodeConfig
  fn : encodeFunc

/-- The function `NewEncode`: resolves the scheme; an unresolved scheme returns the error and no
stage. -/
def NewEncode (conf : EncodeConfig) : Except String Encode :=
  match strToEncoder conf.Scheme with
  | Except.error err => Except.error err
  | Except.ok cor => Except.ok { conf := conf, fn := cor }

/-! ## `ProcessMessage` -/

/-- The state one call of `ProcessMessage` works on: the incoming batch `msg`,
the working copy `newMsg`, the counters and the debug log. -/
structure Run where
  msg : Message
  newMsg : Message
  stats : Stats
  log : List String
deriving DecidableEq, Repr

/-- The closure `proc` of `ProcessMessage`: reads the part from `msg`, applies the codec,
and on success counts it and sets the part of `newMsg` at the same index; on
failure logs and counts the error. -/
def Encode.proc (impl : Outside) (c : Encode) (st : Run) (index : Int) : Run :=
  let part := Part.Get st.msg (st.msg.Get impl index)
  match c.fn part with
  | Except.ok newPart =>
    { st with
      stats := { st.stats with mSucc := st.stats.mSucc + 1 }
      newMsg := Part.Set st.newMsg (st.newMsg.Get impl index) newPart }
  | Except.error err =>
    { st with
      log := st.log ++ ["Failed to encode message part: " ++ err ++ "\n"]
      stats := { st.stats with mErr := st.stats.mErr + 1 } }

/-- The indices `ProcessMessage` runs `proc` over: `0 .. msg.Len()-1` when the
configured list is empty, the configured list otherwise. -/
def Encode.targets (c : Encode) (msg : Message) : List Int :=
  if c.conf.Parts.length = 0 then (List.range msg.Len).map Int.ofNat else c.conf.Parts

/-- What a call of `ProcessMessage` leaves behind: the returned batches and
response, the counters and log after the call, and the incoming batch as its
caller then sees it. -/
structure Outcome where
  msgs : List Message
  res : Option Response
  stats : Stats
  log : List String
  msg : Message
deriving DecidableEq, Repr

/-- The method `Encode.ProcessMessage`. -/
def Encode.ProcessMessage (impl : Outside) (c : Encode) (stats : Stats) (log : List String)
    (msg : Message) : Outcome :=
  let st : Run :=
    { msg := msg, newMsg := msg.Copy, stats := { stats with mCount := stats.mCount + 1 },
      log := log }
  let st := (c.targets msg).foldl (c.proc impl) st
  if st.newMsg.Len = 0 then
    { msgs := [], res := some NewAck,
      stats := { st.stats with mSkipped := st.stats.mSkipped + 1 },
      log := st.log, msg := st.msg }
  else
    { msgs := [st.newMsg], res := none,
      stats := { st.stats with mSent := st.stats.mSent + 1,
                               mSentParts := st.stats.mSentParts + st.newMsg.Len },
      log := st.log, msg := st.msg }

/-- All counters at zero. -/
def Stats.zero : Stats := ⟨0, 0, 0, 0, 0, 0⟩

/-- A batch implementation whose `Get` hands out an empty part of no batch for
every index outside the batch. -/
def emptyOutside : Outside := fun _ _ => Slot.detached []

/-- A batch implementation whose `Get` counts a negative index from the end of
the batch and hands out an empty part of no batch beyond either end. -/
def wrapOutside : Outside := fun m index =>
  if index < 0 ∧ 0 ≤ (m.Len : Int) + index then Slot.held ((m.Len : Int) + index).toNat
  else Slot.detached []

/-- The stage that `NewEncode` builds from the scheme "base64" and a parts list. -/
def base64Stage (parts : List Int) : Encode :=
  { conf := { Scheme := "base64", Parts := parts }, fn := base64Encode }


/-! ## Auxiliary notions for the statements -/

/-- The bytes a part of the working copy holds after `proc` ran the codec on
`b`: the codec's result when it succeeds, the bytes `old` it held before when
it fails. -/
def written (fn : encodeFunc) (b old : Bytes) : Bytes :=
  match fn b with
  | Except.ok y => y
  | Except.error _ => old

/-- An index within `0 .. n-1`. -/
abbrev inRange (n : Nat) (index : Int) : Prop := 0 ≤ index ∧ index < n

/-- The index is served without touching the batch: it lies within the batch,
or `Get` answers it with a part of no batch whatever the contents of a batch
of that length. -/
def tame (impl : Outside) (n : Nat) (i : Int) : Prop :=
  inRange n i ∨ ∀ m : Message, m.Len = n → ∃ b, impl m i = Slot.detached b

/-- The state of the call after the loop over the target indices. -/
def Encode.looped (impl : Outside) (c : Encode) (stats : Stats) (log : List String)
    (msg : Message) : Run :=
  (c.targets msg).foldl (c.proc impl)
    { msg := msg, newMsg := msg.Copy, stats := { stats with mCount := stats.mCount + 1 },
      log := log }

/-- The loop as the specification words it: left to right over the list, each
step reads "the part's current bytes from the copy", applies the codec and on
success writes the result "back into the same index of the copy". -/
def foldOverCopy (fn : encodeFunc) (input : List Bytes) (is : List Int) : List Bytes :=
  is.foldl
    (fun copy i => copy.set i.toNat (written fn (copy.getD i.toNat []) (copy.getD i.toNat [])))
    input

/-- The same loop with the codec's argument read from the incoming batch: left
to right over the list, each step applies the codec to the bytes the input
holds at the index and on success writes the result into the copy at that
index. -/
def foldOverInput (fn : encodeFunc) (input : List Bytes) (is : List Int) : List Bytes :=
  is.foldl
    (fun copy i => copy.set i.toNat (written fn (input.getD i.toNat []) (copy.getD i.toNat [])))
    input

/-! ## `internal/config/env_vars.go`: the two patterns and `ReplaceEnvVariables` -/

/-- The process environment as `os.LookupEnv` reads it: the value of a variable that is
set (possibly to the empty string), nothing for one that is unset. -/
abbrev Env := Bytes → Option Bytes

/-- The regular expressions that the two patterns are built from: one byte of a class
(a literal is a class of one), concatenation, alternation that prefers its
left side, greedy one-or-more and greedy zero-or-one. All literals and class
bounds of the two patterns are ASCII, so matching byte by byte finds the same
match boundaries as the library's matching rune by rune. -/
inductive Re where
  | byte (p : Byte → Bool)
  | seq (a b : Re)
  | alt (a b : Re)
  | plus (a : Re)
  | opt (a : Re)

/-- Greedy repetition of one matching step: after every way the step matches, first the
ways that repeat once more, then stopping there. At most `n` repetitions. -/
def Re.iter (step : Bytes → List Bytes) : Nat → Bytes → List Bytes
  | 0, _ => []
  | n + 1, s => (step s).flatMap (fun s' => Re.iter step n s' ++ [s'])

/-- All ways the expression matches a prefix of `s`, each given by what is left of `s`
after the match, in the order a backtracking search tries them (the semantics
of Go's `regexp`: the first of them is the match). A repetition runs at most
once per byte of `s`, which is every repetition that consumes input. -/
def Re.ends : Re → Bytes → List Bytes
  | Re.byte p, s =>
    match s with
    | c :: rest => if p c then [rest] else []
    | [] => []
  | Re.seq a b, s => (a.ends s).flatMap b.ends
  | Re.alt a b, s => a.ends s ++ b.ends s
  | Re.plus a, s => Re.iter a.ends s.length s
  | Re.opt a, s => a.ends s ++ [s]

/-- The match of the expression that starts at the head of `s`, given by what is left
of `s` after it; nothing when there is no match there. -/
def Re.find (re : Re) (s : Bytes) : Option Bytes := (re.ends s).head?

/-- A literal byte. -/
def lit (c : Byte) : Re := Re.byte (fun x => decide (x = c))

/-- The class `[0-9A-Za-z_.]`. -/
def nameClass (c : Byte) : Bool :=
  decide ((48 ≤ c.val ∧ c.val ≤ 57) ∨ (65 ≤ c.val ∧ c.val ≤ 90) ∨ (97 ≤ c.val ∧ c.val ≤ 122)
    ∨ c.val = 95 ∨ c.val = 46)

/-- The class `[^}]`. -/
def notBrace (c : Byte) : Bool := decide (c ≠ 125)

/-- The common part `(:((\${[^}]+})|[^}])+)?` of the two patterns: a colon and a default made
of nested `${...}` groups and bytes other than the closing brace. -/
def defaultPart : Re :=
  Re.opt (Re.seq (lit 58)
    (Re.plus (Re.alt
      (Re.seq (lit 36) (Re.seq (lit 123) (Re.seq (Re.plus (Re.byte notBrace)) (lit 125))))
      (Re.byte notBrace))))

/-- The pattern `envRegex`, written `\${[0-9A-Za-z_.]+(:((\${[^}]+})|[^}])+)?}` in the source. -/
def envRegex : Re :=
  Re.seq (lit 36) (Re.seq (lit 123) (Re.seq (Re.plus (Re.byte nameClass))
    (Re.seq defaultPart (lit 125))))

/-- The pattern `escapedEnvRegex`, written `\${({[0-9A-Za-z_.]+(:((\${[^}]+})|[^}])+)?})}` in
the source. Its group 1 spans the match without the leading `${` and the final
closing brace. -/
def escapedEnvRegex : Re :=
  Re.seq (lit 36) (Re.seq (lit 123) (Re.seq (lit 123) (Re.seq (Re.plus (Re.byte nameClass))
    (Re.seq defaultPart (Re.seq (lit 125) (lit 125))))))

/-- The scan of `Regexp.ReplaceAllFunc`: from left to right, the match that starts at
the current byte is replaced by what `repl` returns for it and the scan goes
on behind the match; a byte where no match starts is copied. `repl` returning
nothing is a panic of the callback, which ends the call without a result. The
first argument bounds the number of steps. -/
def replaceLoop (re : Re) (repl : Bytes → Option Bytes) : Nat → Bytes → Option Bytes
  | 0, s => some s
  | n + 1, s =>
    match s with
    | [] => some []
    | c :: rest =>
      match re.find (c :: rest) with
      | some tail =>
        if tail.length < (c :: rest).length then
          match repl ((c :: rest).take ((c :: rest).length - tail.length)),
            replaceLoop re repl n tail with
          | some r, some out => some (r ++ out)
          | _, _ => none
        else (replaceLoop re repl n rest).map (fun out => c :: out)
      | none => (replaceLoop re repl n rest).map (fun out => c :: out)

/-- The method `Regexp.ReplaceAllFunc` (and `ReplaceAll` with an expanded template): the scan
with one step available per byte of the input. -/
def ReplaceAllFunc (re : Re) (src : Bytes) (repl : Bytes → Option Bytes) : Option Bytes :=
  replaceLoop re repl src.length src

/-- The call `strings.ReplaceAll(value, "\n", "\\n")`: every line feed becomes a backslash and
the letter n. -/
def escapeNewlines (value : Bytes) : Bytes :=
  value.flatMap (fun c => if c = 10 then [92, 110] else [c])

/-- The call `bytes.IndexByte(content, c)`: the first position of `c`, nothing for -1. -/
def IndexByte (content : Bytes) (c : Byte) : Option Nat :=
  if content.indexOf c < content.length then some (content.indexOf c) else none

/-- The callback that `ReplaceEnvVariables` hands to `envRegex.ReplaceAllFunc`. Without a
colon the variable named between `${` and the closing brace is looked up, and
an unset variable in strict mode panics; with a colon the variable named
before it is looked up and an empty value gives way to the default behind it.
Line feeds of the chosen value are escaped. -/
def envReplace (env : Env) (preventEmptyEnvVars : Bool) (content : Bytes) : Option Bytes :=
  if content.length > 3 then
    match IndexByte content 58 with
    | none =>
      match env ((content.take (content.length - 1)).drop 2) with
      | some value => some (escapeNewlines value)
      | none => if preventEmptyEnvVars then none else some (escapeNewlines [])
    | some colonIndex =>
      let targetVar := (content.take colonIndex).drop 2
      let defaultVal := (content.take (content.length - 1)).drop (colonIndex + 1)
      let value := (env targetVar).getD []
      let value := if value = [] then defaultVal else value
      some (escapeNewlines value)
  else some []

/-- The template `$$$1` expanded for a match of `escapedEnvRegex`: a dollar sign and
group 1, the match without its first two bytes and its last byte. -/
def expandEscaped (content : Bytes) : Bytes :=
  36 :: (content.take (content.length - 1)).drop 2

/-- The function `ReplaceEnvVariables`: the placeholders are replaced through `envReplace`,
then the doubled-brace forms in the result are rewritten by `$$$1`. Nothing is
returned when the callback panics. -/
def ReplaceEnvVariables (env : Env) (inBytes : Bytes) (preventEmptyEnvVars : Bool) :
    Option Bytes :=
  match ReplaceAllFunc envRegex inBytes (envReplace env preventEmptyEnvVars) with
  | none => none
  | some replaced =>
    ReplaceAllFunc escapedEnvRegex replaced (fun content => some (expandEscaped content))

/-- An environment given by a list of names and values. -/
def envOf (vars : List (Bytes × Bytes)) : Env :=
  fun name => (vars.find? (fun kv => kv.1 = name)).map (fun kv => kv.2)

/-! ## Auxiliary notions for the statements on `ReplaceEnvVariables` -/

/-- The text holds no dollar sign that is directly followed by an opening brace. -/
def noDB : Bytes → Bool
  | [] => true
  | c :: rest => !(decide (c = 36) && decide (rest.head? = some 123)) && noDB rest

/-- The shortest match the expression has, in bytes. -/
def Re.minLen : Re → Nat
  | Re.byte _ => 1
  | Re.seq a b => a.minLen + b.minLen
  | Re.alt a b => min a.minLen b.minLen
  | Re.plus a => a.minLen
  | Re.opt _ => 0

/-- The matches that the scan of `ReplaceAllFunc` hands to its callback, from left to
right. -/
def scanLoop (re : Re) : Nat → Bytes → List Bytes
  | 0, _ => []
  | n + 1, s =>
    match s with
    | [] => []
    | c :: rest =>
      match re.find (c :: rest) with
      | some tail =>
        if tail.length < (c :: rest).length then
          (c :: rest).take ((c :: rest).length - tail.length) :: scanLoop re n tail
        else scanLoop re n rest
      | none => scanLoop re n rest

/-- The matches of the expression in `src` that `ReplaceAllFunc` replaces. -/
def FindAll (re : Re) (src : Bytes) : List Bytes := scanLoop re src.length src

/-- The value that the callback selects for a match: the value of the variable, or the
default behind the colon when there is a colon and the value is empty or the
variable unset. -/
def selectedValue (env : Env) (content : Bytes) : Bytes :=
  match IndexByte content 58 with
  | none => (env ((content.take (content.length - 1)).drop 2)).getD []
  | some colonIndex =>
    if (env ((content.take colonIndex).drop 2)).getD [] = [] then
      (content.take (content.length - 1)).drop (colonIndex + 1)
    else (env ((content.take colonIndex).drop 2)).getD []

/-- The text `${NAME}`: a placeholder without a default. -/
def withoutDefault (name : Bytes) : Bytes := [36, 123] ++ name ++ [125]

/-- The text `${NAME:d}`: a placeholder with the default `d`. -/
def withDefault (name d : Bytes) : Bytes := [36, 123] ++ name ++ [58] ++ d ++ [125]

/-- The text `${{NAME:d}}`: the doubled-brace form. -/
def doubled (name d : Bytes) : Bytes := [36, 123, 123] ++ name ++ [58] ++ d ++ [125, 125]

/-- The escaping in the words of the specification: "any newline characters appearing
inside a substituted value are escaped to a literal two-character backslash-n
sequence". -/
def backslashN : Bytes → Bytes
  | [] => []
  | c :: rest => if c = 10 then 92 :: 110 :: backslashN rest else c :: backslashN rest

/-! ## The batch as part objects in memory -/

/-- Modelled from the spec: the part objects of all batches, by address. A part is "mutable in
place (`Set`)" and a batch holds its parts by reference, so in this memory two
batches can hold the same part. -/
structure Memory where
  cells : List Bytes
deriving DecidableEq, Repr

/-- Modelled from the spec: a batch as a caller holds it, "an ordered sequence of Parts": the
addresses of its part objects. -/
structure Batch where
  refs : List Nat
deriving DecidableEq, Repr

/-- The contents of a batch: the bytes that its part objects hold in memory. -/
def Batch.view (mem : Memory) (b : Batch) : Message :=
  ⟨b.refs.map (fun a => mem.cells.getD a [])⟩

/-- Modelled from the spec: the method `Message.Copy` on part objects, "a new Batch with
independently mutable Parts but equal-by-value content" in which "no part is
shared by mutable reference between original and copy": one new part object
per part, holding the same bytes. -/
def Batch.Copy (mem : Memory) (b : Batch) : Memory × Batch :=
  (⟨mem.cells ++ (b.view mem).parts⟩,
   ⟨(List.range b.refs.length).map (fun k => mem.cells.length + k)⟩)

/-- Modelled from the spec: the method `Part.Set` on the part object that `Get` handed out for
batch `b`: the object's bytes are replaced in memory, for whoever holds it. -/
def Batch.Set (mem : Memory) (b : Batch) (s : Slot) (bytes : Bytes) : Memory :=
  match s with
  | Slot.held k =>
    match b.refs[k]? with
    | some a => ⟨mem.cells.set a bytes⟩
    | none => mem
  | Slot.detached _ => mem

/-- The state of one call of `ProcessMessage` on part objects: the memory, the incoming
batch, the working copy, the counters and the debug log. -/
structure MemRun where
  mem : Memory
  msg : Batch
  newMsg : Batch
  stats : Stats
  log : List String
deriving DecidableEq, Repr

/-- The closure `proc` of `ProcessMessage` on part objects: `msg.Get(index).Get()` reads the
part object of the incoming batch, `newMsg.Get(index).Set(newPart)` writes the
part object of the working copy. -/
def Encode.procMem (impl : Outside) (c : Encode) (st : MemRun) (index : Int) : MemRun :=
  let part := Part.Get (st.msg.view st.mem) ((st.msg.view st.mem).Get impl index)
  match c.fn part with
  | Except.ok newPart =>
    { st with
      stats := { st.stats with mSucc := st.stats.mSucc + 1 }
      mem := Batch.Set st.mem st.newMsg ((st.newMsg.view st.mem).Get impl index) newPart }
  | Except.error err =>
    { st with
      log := st.log ++ ["Failed to encode message part: " ++ err ++ "\n"]
      stats := { st.stats with mErr := st.stats.mErr + 1 } }

/-- What a call of `ProcessMessage` on part objects leaves behind: the returned batches
and response, the counters and log, the memory, and the incoming batch. -/
structure MemOutcome where
  msgs : List Batch
  res : Option Response
  stats : Stats
  log : List String
  mem : Memory
  msg : Batch
deriving DecidableEq, Repr

/-- The state of the call on part objects after `msg.Copy()` and the loop over the
target indices. -/
def Encode.loopedMem (impl : Outside) (c : Encode) (stats : Stats) (log : List String)
    (mem : Memory) (msg : Batch) : MemRun :=
  (c.targets (msg.view mem)).foldl (c.procMem impl)
    { mem := (msg.Copy mem).1, msg := msg, newMsg := (msg.Copy mem).2,
      stats := { stats with mCount := stats.mCount + 1 }, log := log }

/-- The method `Encode.ProcessMessage` on part objects. -/
def Encode.ProcessMessageMem (impl : Outside) (c : Encode) (stats : Stats) (log : List String)
    (mem : Memory) (msg : Batch) : MemOutcome :=
  let st := c.loopedMem impl stats log mem msg
  if (st.newMsg.view st.mem).Len = 0 then
    { msgs := [], res := some NewAck,
      stats := { st.stats with mSkipped := st.stats.mSkipped + 1 },
      log := st.log, mem := st.mem, msg := st.msg }
  else
    { msgs := [st.newMsg], res := none,
      stats := { st.stats with mSent := st.stats.mSent + 1,
                               mSentParts := st.stats.mSentParts + (st.newMsg.view st.mem).Len },
      log := st.log, mem := st.mem, msg := st.msg }

/-- The call on part objects `st` is in step with the call on contents `r`: the parts of the
incoming batch lie below address `L`, the parts of the working copy are
distinct objects from `L` on, and the two batches hold in memory what `r`
holds, with the same counters and log. -/
def tracks (L : Nat) (st : MemRun) (r : Run) : Prop :=
  (∀ a ∈ st.msg.refs, a < L) ∧
  (∀ a ∈ st.newMsg.refs, L ≤ a ∧ a < st.mem.cells.length) ∧
  st.newMsg.refs.Nodup ∧
  st.msg.view st.mem = r.msg ∧ st.newMsg.view st.mem = r.newMsg ∧
  st.stats = r.stats ∧ st.log = r.log

/-! ## Facts about the codec -/

/-- Induction over a byte slice three bytes at a time. -/
theorem bytes_by_three {P : Bytes → Prop} (h0 : P []) (h1 : ∀ a, P [a]) (h2 : ∀ a b, P [a, b])
    (h3 : ∀ a b c rest, P rest → P (a :: b :: c :: rest)) : ∀ l, P l
  | [] => h0
  | [a] => h1 a
  | [a, b] => h2 a b
  | a :: b :: c :: rest => h3 a b c rest (bytes_by_three h0 h1 h2 h3 rest)

/-- The decode table inverts the alphabet, checked on all 64 six-bit values. -/
theorem decodeChar_encodeChar_fin : ∀ s : Fin 64, decodeChar (encodeChar s.val) = some s.val := by
  decide

/-- The decode table inverts the alphabet. -/
theorem decodeChar_encodeChar (s : Nat) (h : s < 64) : decodeChar (encodeChar s) = some s :=
  decodeChar_encodeChar_fin ⟨s, h⟩

/-- No alphabet character is the padding character or a line break, checked on all 64
values. -/
theorem encodeChar_plain_fin :
    ∀ s : Fin 64, encodeChar s.val ≠ StdPadding ∧ encodeChar s.val ≠ 10 ∧ encodeChar s.val ≠ 13 := by
  decide

/-- No alphabet character is the padding character or a line break. -/
theorem encodeChar_plain (s : Nat) (h : s < 64) :
    encodeChar s ≠ StdPadding ∧ encodeChar s ≠ 10 ∧ encodeChar s ≠ 13 :=
  encodeChar_plain_fin ⟨s, h⟩

/-- Encoding the whole groups and then the fringe is encoding the whole input. -/
theorem StdEncode_split (b : Bytes) :
    StdEncode (b.take (b.length / 3 * 3)) ++ StdEncode (b.drop (b.length / 3 * 3)) = StdEncode b := by
  induction b using bytes_by_three with
  | h0 => simp [StdEncode]
  | h1 a => simp [StdEncode]
  | h2 a b => simp [StdEncode]
  | h3 a b c rest ih =>
    have e : (a :: b :: c :: rest).length / 3 * 3 = rest.length / 3 * 3 + 3 := by
      simp only [List.length_cons]; omega
    rw [e]
    simp only [List.take_succ_cons, List.drop_succ_cons, StdEncode, List.append_assoc, ih]

/-- One `Write` and a `Close` on a fresh encoder leave `Encoding.Encode` of the input in the
buffer. -/
theorem base64Encode_eq (b : Bytes) : base64Encode b = Except.ok (StdEncode b) := by
  have h := StdEncode_split b
  simp only [base64Encode, NewEncoder, encoder.Write, encoder.Close, List.nil_append]
  by_cases hl : (List.drop (b.length / 3 * 3) b).length > 0
  · simp only [hl, if_true, h]
  · simp only [hl, if_false]
    have hnil : List.drop (b.length / 3 * 3) b = [] := by
      apply List.eq_nil_of_length_eq_zero; omega
    rw [hnil] at h
    simpa [StdEncode] using h

/-- Four output bytes for every started group of three input bytes. -/
theorem StdEncode_length (b : Bytes) : (StdEncode b).length = (b.length + 2) / 3 * 4 := by
  induction b using bytes_by_three with
  | h0 => simp [StdEncode]
  | h1 a => simp [StdEncode]
  | h2 a b => simp [StdEncode]
  | h3 a b c rest ih =>
    simp only [StdEncode, encodeQuantum, List.length_append, List.length_cons, List.length_nil, ih]
    omega

/-- The encoder emits no line break. -/
theorem StdEncode_plain (b : Bytes) : ∀ ch ∈ StdEncode b, ch ≠ 10 ∧ ch ≠ 13 := by
  induction b using bytes_by_three with
  | h0 => simp [StdEncode]
  | h1 a =>
    intro ch hch
    simp only [StdEncode, List.mem_cons, List.mem_singleton, List.not_mem_nil, or_false] at hch
    rcases hch with h | h | h | h <;> subst h
    · exact (encodeChar_plain _ (Nat.mod_lt _ (by decide))).2
    · exact (encodeChar_plain _ (Nat.mod_lt _ (by decide))).2
    · decide
    · decide
  | h2 a b =>
    intro ch hch
    simp only [StdEncode, List.mem_cons, List.mem_singleton, List.not_mem_nil, or_false] at hch
    rcases hch with h | h | h | h <;> subst h
    · exact (encodeChar_plain _ (Nat.mod_lt _ (by decide))).2
    · exact (encodeChar_plain _ (Nat.mod_lt _ (by decide))).2
    · exact (encodeChar_plain _ (Nat.mod_lt _ (by decide))).2
    · decide
  | h3 a b c rest ih =>
    intro ch hch
    simp only [StdEncode, encodeQuantum, List.mem_append, List.mem_cons, List.mem_singleton,
      List.not_mem_nil, or_false] at hch
    rcases hch with (h | h | h | h) | h
    · subst h; exact (encodeChar_plain _ (Nat.mod_lt _ (by decide))).2
    · subst h; exact (encodeChar_plain _ (Nat.mod_lt _ (by decide))).2
    · subst h; exact (encodeChar_plain _ (Nat.mod_lt _ (by decide))).2
    · subst h; exact (encodeChar_plain _ (Nat.mod_lt _ (by decide))).2
    · exact ih ch h

/-- One encoded group decodes to its three bytes. -/
theorem decodeFull_encodeQuantum (a b c : Byte) :
    ∀ q0 q1 q2 q3, encodeQuantum a b c = [q0, q1, q2, q3] → decodeFull q0 q1 q2 q3 = some [a, b, c] := by
  intro q0 q1 q2 q3 h
  simp only [encodeQuantum, List.cons.injEq, and_true] at h
  obtain ⟨h0, h1, h2, h3⟩ := h
  subst h0 h1 h2 h3
  simp only [decodeFull, decodeChar_encodeChar _ (Nat.mod_lt _ (by decide : 64 > 0))]
  have ha := a.isLt
  have hb := b.isLt
  have hc := c.isLt
  simp only [Option.some.injEq, List.cons.injEq, and_true]
  refine ⟨?_, ?_, ?_⟩ <;> (apply Fin.ext; simp only [Fin.ofNat, Fin.val_mk]; omega)


/-- Group-wise decoding inverts the encoder. -/
theorem decodeQuanta_StdEncode (b : Bytes) : decodeQuanta (StdEncode b) = some b := by
  induction b using bytes_by_three with
  | h0 => simp [StdEncode, decodeQuanta]
  | h1 a =>
    have ha := a.isLt
    simp only [StdEncode, decodeQuanta, decodeLast, if_true,
      decodeChar_encodeChar _ (Nat.mod_lt _ (by decide : 64 > 0)), Option.some.injEq,
      List.cons.injEq, and_true]
    apply Fin.ext; simp only [Fin.ofNat, Fin.val_mk]; omega
  | h2 a b =>
    have ha := a.isLt
    have hb := b.isLt
    have hne := (encodeChar_plain ((a.val * 65536 + b.val * 256) / 64 % 64)
      (Nat.mod_lt _ (by decide))).1
    simp only [StdEncode, decodeQuanta, decodeLast, if_true, hne, if_false,
      decodeChar_encodeChar _ (Nat.mod_lt _ (by decide : 64 > 0)), Option.some.injEq,
      List.cons.injEq, and_true]
    refine ⟨?_, ?_⟩ <;> (apply Fin.ext; simp only [Fin.ofNat, Fin.val_mk]; omega)
  | h3 a b c rest ih =>
    have hq := decodeFull_encodeQuantum a b c
    simp only [StdEncode]
    generalize hE : encodeQuantum a b c = q at hq
    have hq3 : (encodeChar ((a.val * 65536 + b.val * 256 + c.val) % 64)) ≠ StdPadding :=
      (encodeChar_plain _ (Nat.mod_lt _ (by decide))).1
    simp only [encodeQuantum] at hE
    subst hE
    have hq := hq _ _ _ _ rfl
    cases hr : StdEncode rest with
    | nil =>
      have hlen := StdEncode_length rest
      rw [hr] at hlen
      have : rest = [] := by
        apply List.eq_nil_of_length_eq_zero
        simp only [List.length_nil] at hlen
        omega
      subst this
      simp only [List.cons_append, List.nil_append, decodeQuanta, decodeLast, hq3, if_false, hq,
        List.append_eq]
    | cons x xs =>
      rw [hr] at ih
      simp only [List.cons_append, List.nil_append, decodeQuanta, hq, ih, List.append_eq]

/-- The decoder inverts the encoder. -/
theorem StdDecode_StdEncode (b : Bytes) : StdDecode (StdEncode b) = some b := by
  have hf : (StdEncode b).filter (fun ch => ch ≠ 10 ∧ ch ≠ 13) = StdEncode b := by
    apply List.filter_eq_self.mpr
    intro ch hch
    have := StdEncode_plain b ch hch
    simp [this.1, this.2]
  rw [StdDecode, hf, decodeQuanta_StdEncode]


/-! ## Facts about `proc` and the loop of `ProcessMessage` -/

/-- Setting a part never changes the part count of a batch. -/
theorem Part.Set_Len (m : Message) (s : Slot) (b : Bytes) : (Part.Set m s b).Len = m.Len := by
  cases s <;> simp [Part.Set, Message.Len]

/-- The success branch of `proc`. -/
theorem proc_ok (impl : Outside) (c : Encode) (st : Run) (i : Int) (y : Bytes)
    (h : c.fn (Part.Get st.msg (st.msg.Get impl i)) = Except.ok y) :
    c.proc impl st i =
      { st with
        stats := { st.stats with mSucc := st.stats.mSucc + 1 }
        newMsg := Part.Set st.newMsg (st.newMsg.Get impl i) y } := by
  simp only [Encode.proc, h]

/-- The failure branch of `proc`. -/
theorem proc_error (impl : Outside) (c : Encode) (st : Run) (i : Int) (err : String)
    (h : c.fn (Part.Get st.msg (st.msg.Get impl i)) = Except.error err) :
    c.proc impl st i =
      { st with
        log := st.log ++ ["Failed to encode message part: " ++ err ++ "\n"]
        stats := { st.stats with mErr := st.stats.mErr + 1 } } := by
  simp only [Encode.proc, h]

/-- The step `proc` never writes to the incoming batch. -/
theorem proc_msg (impl : Outside) (c : Encode) (st : Run) (i : Int) :
    (c.proc impl st i).msg = st.msg := by
  cases h : c.fn (Part.Get st.msg (st.msg.Get impl i)) with
  | ok y => rw [proc_ok impl c st i y h]
  | error err => rw [proc_error impl c st i err h]

/-- The step `proc` keeps the part count of the working copy. -/
theorem proc_Len (impl : Outside) (c : Encode) (st : Run) (i : Int) :
    (c.proc impl st i).newMsg.Len = st.newMsg.Len := by
  cases h : c.fn (Part.Get st.msg (st.msg.Get impl i)) with
  | ok y => rw [proc_ok impl c st i y h]; exact Part.Set_Len _ _ _
  | error err => rw [proc_error impl c st i err h]

/-- The step `proc` moves exactly one of "success" and "error", by one, and no other counter. -/
theorem proc_stats (impl : Outside) (c : Encode) (st : Run) (i : Int) :
    (c.proc impl st i).stats.mCount = st.stats.mCount ∧
    (c.proc impl st i).stats.mSkipped = st.stats.mSkipped ∧
    (c.proc impl st i).stats.mSent = st.stats.mSent ∧
    (c.proc impl st i).stats.mSentParts = st.stats.mSentParts ∧
    (c.proc impl st i).stats.mSucc + (c.proc impl st i).stats.mErr
      = st.stats.mSucc + st.stats.mErr + 1 := by
  cases h : c.fn (Part.Get st.msg (st.msg.Get impl i)) with
  | ok y => rw [proc_ok impl c st i y h]; simp only [true_and]; omega
  | error err => rw [proc_error impl c st i err h]; simp only [true_and]; omega

/-- With the base64 codec every step is a success and logs nothing. -/
theorem proc_base64 (impl : Outside) (parts : List Int) (st : Run) (i : Int) :
    ((base64Stage parts).proc impl st i).stats.mSucc = st.stats.mSucc + 1 ∧
    ((base64Stage parts).proc impl st i).stats.mErr = st.stats.mErr ∧
    ((base64Stage parts).proc impl st i).log = st.log := by
  simp [Encode.proc, base64Stage, base64Encode_eq]

/-- What the loop over any list of indices leaves alone, and how many steps it counts. -/
theorem fold_frame (impl : Outside) (c : Encode) (is : List Int) :
    ∀ st : Run,
      (is.foldl (c.proc impl) st).msg = st.msg ∧
      (is.foldl (c.proc impl) st).newMsg.Len = st.newMsg.Len ∧
      (is.foldl (c.proc impl) st).stats.mCount = st.stats.mCount ∧
      (is.foldl (c.proc impl) st).stats.mSkipped = st.stats.mSkipped ∧
      (is.foldl (c.proc impl) st).stats.mSent = st.stats.mSent ∧
      (is.foldl (c.proc impl) st).stats.mSentParts = st.stats.mSentParts ∧
      (is.foldl (c.proc impl) st).stats.mSucc + (is.foldl (c.proc impl) st).stats.mErr
        = st.stats.mSucc + st.stats.mErr + is.length := by
  induction is with
  | nil => intro st; simp
  | cons i rest ih =>
    intro st
    have h := ih (c.proc impl st i)
    have hs := proc_stats impl c st i
    simp only [List.foldl_cons, List.length_cons]
    refine ⟨by rw [h.1, proc_msg], by rw [h.2.1, proc_Len], by rw [h.2.2.1, hs.1],
      by rw [h.2.2.2.1, hs.2.1], by rw [h.2.2.2.2.1, hs.2.2.1], by rw [h.2.2.2.2.2.1, hs.2.2.2.1], ?_⟩
    rw [h.2.2.2.2.2.2]; omega

/-- With the base64 codec the loop counts one success per listed index. -/
theorem fold_base64 (impl : Outside) (parts : List Int) (is : List Int) :
    ∀ st : Run,
      (is.foldl ((base64Stage parts).proc impl) st).stats.mSucc = st.stats.mSucc + is.length ∧
      (is.foldl ((base64Stage parts).proc impl) st).stats.mErr = st.stats.mErr ∧
      (is.foldl ((base64Stage parts).proc impl) st).log = st.log := by
  induction is with
  | nil => intro st; simp
  | cons i rest ih =>
    intro st
    have h := ih ((base64Stage parts).proc impl st i)
    have hs := proc_base64 impl parts st i
    simp only [List.foldl_cons, List.length_cons]
    refine ⟨by rw [h.1, hs.1]; omega, by rw [h.2.1, hs.2.1], by rw [h.2.2, hs.2.2]⟩

/-- The working copy after one step, part by part. -/
theorem proc_getD (impl : Outside) (c : Encode) (st : Run) (i : Int) (n : Nat)
    (hm : st.msg.Len = n) (hn : st.newMsg.Len = n) (hi : tame impl n i) (k : Nat) (hk : k < n) :
    (c.proc impl st i).newMsg.parts.getD k [] =
      if (k : Int) = i then written c.fn (st.msg.parts.getD k []) (st.newMsg.parts.getD k [])
      else st.newMsg.parts.getD k [] := by
  by_cases hr : inRange n i
  · have hr1 : 0 ≤ i ∧ i < (st.msg.Len : Int) := by rw [hm]; exact hr
    have hr2 : 0 ≤ i ∧ i < (st.newMsg.Len : Int) := by rw [hn]; exact hr
    have hlt : i.toNat < st.newMsg.parts.length := by
      have := hr.2; simp only [Message.Len] at hn; omega
    have hg1 : st.msg.Get impl i = Slot.held i.toNat := by simp only [Message.Get, hr1, and_self, if_true]
    have hg2 : st.newMsg.Get impl i = Slot.held i.toNat := by
      simp only [Message.Get, hr2, and_self, if_true]
    cases h : c.fn (Part.Get st.msg (st.msg.Get impl i)) with
    | ok y =>
      rw [proc_ok impl c st i y h, hg2]
      rw [hg1] at h
      simp only [Part.Get] at h
      by_cases hki : (k : Int) = i
      · have hk2 : i.toNat = k := by omega
        rw [hk2] at h hlt
        simp only [List.getD_eq_getElem?_getD] at h
        simp only [Part.Set, hki, if_true, hk2, written, h, List.getD_eq_getElem?_getD,
          List.getElem?_set, hlt, Option.getD_some]
      · have hk2 : i.toNat ≠ k := by
          have := hr.1; omega
        simp only [Part.Set, hki, if_false, List.getD_eq_getElem?_getD, List.getElem?_set, hk2]
    | error err =>
      rw [proc_error impl c st i err h]
      rw [hg1] at h
      simp only [Part.Get] at h
      by_cases hki : (k : Int) = i
      · have hk2 : i.toNat = k := by omega
        rw [hk2] at h
        simp only [hki, if_true, written, h]
      · simp only [hki, if_false]
  · have hd := hi.resolve_left hr
    have hr2 : ¬ (0 ≤ i ∧ i < (st.newMsg.Len : Int)) := by rw [hn]; exact hr
    have hki : ¬ (k : Int) = i := by
      intro h; apply hr; unfold inRange; omega
    obtain ⟨b2, hb2⟩ := hd st.newMsg hn
    have hg2 : st.newMsg.Get impl i = Slot.detached b2 := by
      simp only [Message.Get, hr2, if_false, hb2]
    cases h : c.fn (Part.Get st.msg (st.msg.Get impl i)) with
    | ok y => rw [proc_ok impl c st i y h, hg2]; simp only [Part.Set, hki, if_false]
    | error err => rw [proc_error impl c st i err h]; simp only [hki, if_false]

/-- The working copy after the loop, part by part. -/
theorem fold_getD (impl : Outside) (c : Encode) (n : Nat) (is : List Int)
    (his : ∀ i ∈ is, tame impl n i) :
    ∀ st : Run, st.msg.Len = n → st.newMsg.Len = n → ∀ k, k < n →
      (is.foldl (c.proc impl) st).newMsg.parts.getD k [] =
        if (k : Int) ∈ is then written c.fn (st.msg.parts.getD k []) (st.newMsg.parts.getD k [])
        else st.newMsg.parts.getD k [] := by
  induction is with
  | nil => intro st _ _ k _; simp
  | cons i rest ih =>
    intro st hm hn k hk
    have h1 := proc_getD impl c st i n hm hn (his i (List.mem_cons_self _ _)) k hk
    have h := ih (fun j hj => his j (List.mem_cons_of_mem _ hj)) (c.proc impl st i)
      (by rw [proc_msg]; exact hm) (by rw [proc_Len]; exact hn) k hk
    simp only [List.foldl_cons]
    rw [h, proc_msg, h1]
    by_cases hki : (k : Int) = i
    · simp only [hki, if_true, List.mem_cons, true_or]
      cases hc : c.fn (st.msg.parts.getD k []) <;> simp only [written, hc, ite_self]
    · simp only [hki, if_false, List.mem_cons, false_or]


/-- The working copy has the part count of the input when the loop is done. -/
theorem looped_Len (impl : Outside) (c : Encode) (stats : Stats) (log : List String)
    (msg : Message) : (c.looped impl stats log msg).newMsg.Len = msg.Len :=
  (fold_frame impl c (c.targets msg) _).2.1

/-- The acknowledging exit of `ProcessMessage`, taken by a batch without parts. -/
theorem ProcessMessage_skipped (impl : Outside) (c : Encode) (stats : Stats) (log : List String)
    (msg : Message) (h : msg.Len = 0) :
    c.ProcessMessage impl stats log msg =
      { msgs := [], res := some NewAck,
        stats := { (c.looped impl stats log msg).stats with
                   mSkipped := (c.looped impl stats log msg).stats.mSkipped + 1 },
        log := (c.looped impl stats log msg).log, msg := (c.looped impl stats log msg).msg } := by
  have hl := looped_Len impl c stats log msg
  rw [h] at hl
  simp only [Encode.looped] at hl
  simp only [Encode.ProcessMessage, Encode.looped, hl, if_true]

/-- The sending exit of `ProcessMessage`, taken by a batch with parts. -/
theorem ProcessMessage_sent (impl : Outside) (c : Encode) (stats : Stats) (log : List String)
    (msg : Message) (h : msg.Len ≠ 0) :
    c.ProcessMessage impl stats log msg =
      { msgs := [(c.looped impl stats log msg).newMsg], res := none,
        stats := { (c.looped impl stats log msg).stats with
                   mSent := (c.looped impl stats log msg).stats.mSent + 1,
                   mSentParts := (c.looped impl stats log msg).stats.mSentParts
                     + (c.looped impl stats log msg).newMsg.Len },
        log := (c.looped impl stats log msg).log, msg := (c.looped impl stats log msg).msg } := by
  have hl := looped_Len impl c stats log msg
  have hne : ¬ (c.looped impl stats log msg).newMsg.Len = 0 := by rw [hl]; exact h
  simp only [Encode.looped] at hne
  simp only [Encode.ProcessMessage, Encode.looped, hne, if_false]

/-- A stage that `NewEncode` returned is the base64 stage over the configured list. -/
theorem NewEncode_ok (conf : EncodeConfig) (c : Encode) (h : NewEncode conf = Except.ok c) :
    conf.Scheme = "base64" ∧ c = base64Stage conf.Parts := by
  unfold NewEncode strToEncoder at h
  by_cases hs : conf.Scheme = "base64"
  · simp only [hs, if_true, Except.ok.injEq] at h
    refine ⟨hs, ?_⟩
    rw [← h]
    cases conf
    simp only [base64Stage] at *
    rw [hs]
  · simp only [hs, if_false] at h
    cases h

/-- An empty configured list targets every index of the batch. -/
theorem targets_all (c : Encode) (msg : Message) (h : c.conf.Parts = []) :
    c.targets msg = (List.range msg.Len).map Int.ofNat := by
  simp [Encode.targets, h]

/-- A non-empty configured list is taken as it is. -/
theorem targets_listed (c : Encode) (msg : Message) (h : c.conf.Parts ≠ []) :
    c.targets msg = c.conf.Parts := by
  have : c.conf.Parts.length ≠ 0 := by
    intro h0; exact h (List.eq_nil_of_length_eq_zero h0)
  simp [Encode.targets, this]

/-- The output parts of a call, part by part. -/
theorem looped_getD (impl : Outside) (c : Encode) (stats : Stats) (log : List String)
    (msg : Message) (ht : ∀ i ∈ c.targets msg, tame impl msg.Len i) (k : Nat) (hk : k < msg.Len) :
    (c.looped impl stats log msg).newMsg.parts.getD k [] =
      if (k : Int) ∈ c.targets msg then written c.fn (msg.parts.getD k []) (msg.parts.getD k [])
      else msg.parts.getD k [] :=
  fold_getD impl c msg.Len (c.targets msg) ht _ rfl rfl k hk

/-- The base64 codec always writes its encoding. -/
theorem written_base64 (b old : Bytes) : written base64Encode b old = StdEncode b := by
  simp [written, base64Encode_eq]

/-- The function `NewEncode` succeeds on the scheme "base64". -/
theorem NewEncode_base64 (conf : EncodeConfig) (hs : conf.Scheme = "base64") :
    NewEncode conf = Except.ok (base64Stage conf.Parts) := by
  cases conf
  simp only at hs
  subst hs
  rfl

/-! ## The claims -/

/-- C1: a stage built by `NewEncode` from the scheme "base64" and an empty parts list turns
every non-empty batch into exactly one output batch, with no acknowledgement,
that has as many parts as the input and whose part at every index is the
standard base64 encoding of the input's part at that index. -/
theorem C1_base64_all_parts (impl : Outside) (conf : EncodeConfig) (stats : Stats)
    (log : List String) (B : Message)
    (hs : conf.Scheme = "base64") (hp : conf.Parts = []) (hB : B.Len ≠ 0) :
    ∃ c, NewEncode conf = Except.ok c ∧
    ∃ out, (c.ProcessMessage impl stats log B).msgs = [out] ∧
      (c.ProcessMessage impl stats log B).res = none ∧
      out.Len = B.Len ∧
      out.parts = B.parts.map StdEncode ∧
      ∀ i, i < B.Len → base64Encode (B.parts.getD i []) = Except.ok (out.parts.getD i []) := by
  refine ⟨base64Stage conf.Parts, NewEncode_base64 conf hs, ?_⟩
  rw [hp]
  have htg : (base64Stage []).targets B = (List.range B.Len).map Int.ofNat :=
    targets_all _ _ rfl
  have hL := looped_Len impl (base64Stage []) stats log B
  have hparts : ((base64Stage []).looped impl stats log B).newMsg.parts = B.parts.map StdEncode := by
    apply List.ext_getElem
    · simpa [Message.Len] using hL
    · intro k h1 h2
      have hk : k < B.Len := by simpa [Message.Len] using h2
      have hg := looped_getD impl (base64Stage []) stats log B (by
        intro i hi
        rw [htg] at hi
        left
        simp only [List.mem_map, List.mem_range] at hi
        obtain ⟨a, ha, rfl⟩ := hi
        exact ⟨Int.ofNat_nonneg a, Int.ofNat_lt.mpr ha⟩) k hk
      have hmem : (k : Int) ∈ (base64Stage []).targets B := by
        rw [htg]
        simp only [List.mem_map, List.mem_range]
        exact ⟨k, hk, rfl⟩
      rw [if_pos hmem] at hg
      rw [show (base64Stage []).fn = base64Encode from rfl, written_base64] at hg
      rw [List.getD_eq_getElem _ _ h1] at hg
      rw [hg, List.getElem_map, List.getD_eq_getElem _ _ hk]
  refine ⟨((base64Stage []).looped impl stats log B).newMsg, ?_, ?_, hL, hparts, ?_⟩
  · rw [ProcessMessage_sent impl _ stats log B hB]
  · rw [ProcessMessage_sent impl _ stats log B hB]
  · intro i hi
    rw [hparts, base64Encode_eq]
    have : i < B.parts.length := hi
    simp [List.getD_eq_getElem?_getD, List.getElem?_map, List.getElem?_eq_getElem this]

/-- The scenario of C1: the batch "abc", "", "xyz" through the default base64 stage gives the
one batch "YWJj", "", "eHl6". -/
theorem C1_base64_all_parts_witness :
    (NewEncodeConfig.Scheme = "base64" ∧ NewEncodeConfig.Parts = [] ∧
      (Message.mk [ascii "abc", [], ascii "xyz"]).Len ≠ 0) ∧
    ∃ c, NewEncode NewEncodeConfig = Except.ok c ∧
    ∃ out, (c.ProcessMessage emptyOutside Stats.zero [] ⟨[ascii "abc", [], ascii "xyz"]⟩).msgs
        = [out] ∧
      (c.ProcessMessage emptyOutside Stats.zero [] ⟨[ascii "abc", [], ascii "xyz"]⟩).res = none ∧
      out.parts = [ascii "YWJj", [], ascii "eHl6"] := by
  refine ⟨⟨rfl, rfl, by decide⟩, ?_⟩
  obtain ⟨c, hc, out, h1, h2, _, h4, _⟩ :=
    C1_base64_all_parts emptyOutside NewEncodeConfig Stats.zero []
      ⟨[ascii "abc", [], ascii "xyz"]⟩ rfl rfl (by decide)
  exact ⟨c, hc, out, h1, h2, h4.trans (by decide)⟩

/-- C2: with a non-empty configured list of in-range indices, the one output batch has as
many parts as the input; a part whose index is in the list holds what the
codec returned for the input's part at that index, and a part whose index is
not in the list holds the input's bytes unchanged. (The indices need not be
distinct for this.) -/
theorem C2_listed_parts_only (impl : Outside) (c : Encode) (stats : Stats) (log : List String)
    (B : Message) (hne : c.conf.Parts ≠ [])
    (hin : ∀ i ∈ c.conf.Parts, inRange B.Len i) :
    ∃ out, (c.ProcessMessage impl stats log B).msgs = [out] ∧
      out.Len = B.Len ∧
      ∀ k, k < B.Len →
        ((k : Int) ∈ c.conf.Parts →
          ∀ y, c.fn (B.parts.getD k []) = Except.ok y → out.parts.getD k [] = y) ∧
        ((k : Int) ∉ c.conf.Parts → out.parts.getD k [] = B.parts.getD k []) := by
  have htg := targets_listed c B hne
  have hB : B.Len ≠ 0 := by
    obtain ⟨i, rest, hi⟩ := List.exists_cons_of_ne_nil hne
    have := hin i (by rw [hi]; exact List.mem_cons_self _ _)
    unfold inRange at this
    omega
  refine ⟨(c.looped impl stats log B).newMsg, ?_, looped_Len impl c stats log B, ?_⟩
  · rw [ProcessMessage_sent impl _ stats log B hB]
  · intro k hk
    have hg := looped_getD impl c stats log B (by
      intro i hi; rw [htg] at hi; exact Or.inl (hin i hi)) k hk
    rw [htg] at hg
    constructor
    · intro hmem y hy
      rw [hg, if_pos hmem, written, hy]
    · intro hmem
      rw [hg, if_neg hmem]

/-- The scenario of C2: the list 0, 2 on the batch "abc", "", "xyz". -/
theorem C2_listed_parts_only_witness :
    ((base64Stage [0, 2]).conf.Parts ≠ [] ∧
      ∀ i ∈ (base64Stage [0, 2]).conf.Parts,
        inRange (Message.mk [ascii "abc", ascii "def", ascii "xyz"]).Len i) ∧
    ∃ out, ((base64Stage [0, 2]).ProcessMessage emptyOutside Stats.zero []
        ⟨[ascii "abc", ascii "def", ascii "xyz"]⟩).msgs = [out] ∧
      out.Len = (Message.mk [ascii "abc", ascii "def", ascii "xyz"]).Len ∧
      ∀ k, k < (Message.mk [ascii "abc", ascii "def", ascii "xyz"]).Len →
        ((k : Int) ∈ (base64Stage [0, 2]).conf.Parts →
          ∀ y, (base64Stage [0, 2]).fn ([ascii "abc", ascii "def", ascii "xyz"].getD k [])
              = Except.ok y → out.parts.getD k [] = y) ∧
        ((k : Int) ∉ (base64Stage [0, 2]).conf.Parts →
          out.parts.getD k [] = [ascii "abc", ascii "def", ascii "xyz"].getD k []) :=
  ⟨⟨by decide, by decide⟩,
   C2_listed_parts_only emptyOutside (base64Stage [0, 2]) Stats.zero []
    ⟨[ascii "abc", ascii "def", ascii "xyz"]⟩ (by decide) (by decide)⟩

/-- C3: a batch with zero parts, whatever the stage, gives no output batch and the positive
acknowledgement; "skipped" grows by exactly 1 and "sent" and "parts.sent" stay
as they were. -/
theorem C3_empty_batch_acknowledged (impl : Outside) (c : Encode) (stats : Stats)
    (log : List String) (B : Message) (h0 : B.Len = 0) :
    (c.ProcessMessage impl stats log B).msgs = [] ∧
    (c.ProcessMessage impl stats log B).res = some NewAck ∧
    (c.ProcessMessage impl stats log B).stats.mSkipped = stats.mSkipped + 1 ∧
    (c.ProcessMessage impl stats log B).stats.mSent = stats.mSent ∧
    (c.ProcessMessage impl stats log B).stats.mSentParts = stats.mSentParts := by
  have hf := fold_frame impl c (c.targets B)
    { msg := B, newMsg := B.Copy, stats := { stats with mCount := stats.mCount + 1 }, log := log }
  rw [ProcessMessage_skipped impl c stats log B h0]
  refine ⟨rfl, rfl, ?_, ?_, ?_⟩
  · show (c.looped impl stats log B).stats.mSkipped + 1 = _
    rw [Encode.looped, hf.2.2.2.1]
  · show (c.looped impl stats log B).stats.mSent = _
    rw [Encode.looped, hf.2.2.2.2.1]
  · show (c.looped impl stats log B).stats.mSentParts = _
    rw [Encode.looped, hf.2.2.2.2.2.1]

/-- An instance of C3: the empty batch through a stage whose list names index 0. -/
theorem C3_empty_batch_acknowledged_witness :
    (Message.mk []).Len = 0 ∧
    ((base64Stage [0]).ProcessMessage wrapOutside Stats.zero [] ⟨[]⟩).msgs = [] ∧
    ((base64Stage [0]).ProcessMessage wrapOutside Stats.zero [] ⟨[]⟩).res = some NewAck ∧
    ((base64Stage [0]).ProcessMessage wrapOutside Stats.zero [] ⟨[]⟩).stats.mSkipped
      = Stats.zero.mSkipped + 1 ∧
    ((base64Stage [0]).ProcessMessage wrapOutside Stats.zero [] ⟨[]⟩).stats.mSent
      = Stats.zero.mSent ∧
    ((base64Stage [0]).ProcessMessage wrapOutside Stats.zero [] ⟨[]⟩).stats.mSentParts
      = Stats.zero.mSentParts :=
  ⟨rfl, C3_empty_batch_acknowledged wrapOutside (base64Stage [0]) Stats.zero [] ⟨[]⟩ rfl⟩

/-- C4: every call populates exactly one of the two results: either one output batch and no
acknowledgement (when the batch has parts), or no output batch and the
acknowledgement (when it has none). -/
theorem C4_exactly_one_result (impl : Outside) (c : Encode) (stats : Stats) (log : List String)
    (B : Message) :
    ((∃ out, (c.ProcessMessage impl stats log B).msgs = [out]) ∧
        (c.ProcessMessage impl stats log B).res = none ∧ B.Len ≠ 0) ∨
    ((c.ProcessMessage impl stats log B).msgs = [] ∧
        (c.ProcessMessage impl stats log B).res = some NewAck ∧ B.Len = 0) := by
  by_cases h0 : B.Len = 0
  · right
    rw [ProcessMessage_skipped impl c stats log B h0]
    exact ⟨rfl, rfl, h0⟩
  · left
    rw [ProcessMessage_sent impl c stats log B h0]
    exact ⟨⟨_, rfl⟩, rfl, h0⟩

/-- C5: for a batch of n >= 1 parts, whatever the stage, one call adds exactly 1 to "count",
exactly 1 to "sent" and exactly n to "parts.sent", n being the part count of
the output copy as well as of the input, and leaves "skipped" as it was. -/
theorem C5_counters_on_send (impl : Outside) (c : Encode) (stats : Stats) (log : List String)
    (B : Message) (hn : 1 ≤ B.Len) :
    (c.ProcessMessage impl stats log B).stats.mCount = stats.mCount + 1 ∧
    (c.ProcessMessage impl stats log B).stats.mSent = stats.mSent + 1 ∧
    (c.ProcessMessage impl stats log B).stats.mSentParts = stats.mSentParts + B.Len ∧
    (c.ProcessMessage impl stats log B).stats.mSkipped = stats.mSkipped ∧
    ∃ out, (c.ProcessMessage impl stats log B).msgs = [out] ∧ out.Len = B.Len := by
  have hf := fold_frame impl c (c.targets B)
    { msg := B, newMsg := B.Copy, stats := { stats with mCount := stats.mCount + 1 }, log := log }
  have hL := looped_Len impl c stats log B
  rw [ProcessMessage_sent impl c stats log B (by omega)]
  refine ⟨?_, ?_, ?_, ?_, _, rfl, hL⟩
  · show (c.looped impl stats log B).stats.mCount = _
    rw [Encode.looped, hf.2.2.1]
  · show (c.looped impl stats log B).stats.mSent + 1 = _
    rw [Encode.looped, hf.2.2.2.2.1]
  · show (c.looped impl stats log B).stats.mSentParts + (c.looped impl stats log B).newMsg.Len = _
    rw [hL, Encode.looped, hf.2.2.2.2.2.1]
  · show (c.looped impl stats log B).stats.mSkipped = _
    rw [Encode.looped, hf.2.2.2.1]

/-- The scenario of C5: the batch "abc", "", "xyz" adds 1 to "count" and "sent" and 3 to
"parts.sent". -/
theorem C5_counters_on_send_witness :
    1 ≤ (Message.mk [ascii "abc", [], ascii "xyz"]).Len ∧
    ((base64Stage []).ProcessMessage emptyOutside Stats.zero []
      ⟨[ascii "abc", [], ascii "xyz"]⟩).stats.mCount = Stats.zero.mCount + 1 ∧
    ((base64Stage []).ProcessMessage emptyOutside Stats.zero []
      ⟨[ascii "abc", [], ascii "xyz"]⟩).stats.mSent = Stats.zero.mSent + 1 ∧
    ((base64Stage []).ProcessMessage emptyOutside Stats.zero []
      ⟨[ascii "abc", [], ascii "xyz"]⟩).stats.mSentParts
        = Stats.zero.mSentParts + (Message.mk [ascii "abc", [], ascii "xyz"]).Len ∧
    ((base64Stage []).ProcessMessage emptyOutside Stats.zero []
      ⟨[ascii "abc", [], ascii "xyz"]⟩).stats.mSkipped = Stats.zero.mSkipped ∧
    ∃ out, ((base64Stage []).ProcessMessage emptyOutside Stats.zero []
      ⟨[ascii "abc", [], ascii "xyz"]⟩).msgs = [out] ∧
      out.Len = (Message.mk [ascii "abc", [], ascii "xyz"]).Len :=
  ⟨by decide, C5_counters_on_send emptyOutside (base64Stage []) Stats.zero []
    ⟨[ascii "abc", [], ascii "xyz"]⟩ (by decide)⟩

/-- Writing back what a position holds changes nothing. -/
theorem set_getD_self (l : List Bytes) (k : Nat) (d : Bytes) : l.set k (l.getD k d) = l := by
  induction l generalizing k with
  | nil => rfl
  | cons a rest ih =>
    cases k with
    | zero => rfl
    | succ j =>
      have h := ih j
      simp only [List.getD_eq_getElem?_getD, List.getElem?_cons_succ, List.set_cons_succ] at h ⊢
      rw [h]

/-- One step on an in-range index as a list update. -/
theorem proc_parts (impl : Outside) (c : Encode) (st : Run) (i : Int) (n : Nat)
    (hm : st.msg.Len = n) (hn : st.newMsg.Len = n) (hr : inRange n i) :
    (c.proc impl st i).newMsg.parts =
      st.newMsg.parts.set i.toNat
        (written c.fn (st.msg.parts.getD i.toNat []) (st.newMsg.parts.getD i.toNat [])) := by
  have hr1 : 0 ≤ i ∧ i < (st.msg.Len : Int) := by rw [hm]; exact hr
  have hr2 : 0 ≤ i ∧ i < (st.newMsg.Len : Int) := by rw [hn]; exact hr
  have hlt : i.toNat < st.newMsg.parts.length := by
    have := hr.2; simp only [Message.Len] at hn; omega
  have hg1 : st.msg.Get impl i = Slot.held i.toNat := by
    simp only [Message.Get, hr1, and_self, if_true]
  have hg2 : st.newMsg.Get impl i = Slot.held i.toNat := by
    simp only [Message.Get, hr2, and_self, if_true]
  cases h : c.fn (Part.Get st.msg (st.msg.Get impl i)) with
  | ok y =>
    rw [proc_ok impl c st i y h, hg2]
    rw [hg1] at h
    simp only [Part.Get] at h
    simp only [Part.Set, written, h]
  | error err =>
    rw [proc_error impl c st i err h]
    rw [hg1] at h
    simp only [Part.Get] at h
    simp only [written, h, set_getD_self]

/-- The loop over in-range indices as a fold of list updates. -/
theorem fold_parts (impl : Outside) (c : Encode) (B : Message) (is : List Int)
    (his : ∀ i ∈ is, inRange B.Len i) :
    ∀ st : Run, st.msg = B → st.newMsg.Len = B.Len →
      (is.foldl (c.proc impl) st).newMsg.parts =
        is.foldl
          (fun copy i =>
            copy.set i.toNat (written c.fn (B.parts.getD i.toNat []) (copy.getD i.toNat [])))
          st.newMsg.parts := by
  induction is with
  | nil => intro st _ _; rfl
  | cons i rest ih =>
    intro st hm hn
    have h1 := proc_parts impl c st i B.Len (by rw [hm]) hn (his i (List.mem_cons_self _ _))
    have h := ih (fun j hj => his j (List.mem_cons_of_mem _ hj)) (c.proc impl st i)
      (by rw [proc_msg]; exact hm) (by rw [proc_Len]; exact hn)
    simp only [List.foldl_cons]
    rw [h, h1, hm]

/-- A base64 stage counts every target index as a success, whatever `Get` does outside the
batch. -/
theorem ProcessMessage_base64_stats (impl : Outside) (ps : List Int) (stats : Stats)
    (log : List String) (B : Message) :
    ((base64Stage ps).ProcessMessage impl stats log B).stats.mSucc
      = stats.mSucc + ((base64Stage ps).targets B).length ∧
    ((base64Stage ps).ProcessMessage impl stats log B).stats.mErr = stats.mErr := by
  have hf := fold_base64 impl ps ((base64Stage ps).targets B)
    { msg := B, newMsg := B.Copy, stats := { stats with mCount := stats.mCount + 1 }, log := log }
  by_cases h0 : B.Len = 0
  · rw [ProcessMessage_skipped impl _ stats log B h0]
    exact ⟨hf.1, hf.2.1⟩
  · rw [ProcessMessage_sent impl _ stats log B h0]
    exact ⟨hf.1, hf.2.1⟩

/-- C6, as stated, fails: with the list 0, 0 on the one-part batch "abc" the output part is
"YWJj", the encoding of the input part, where the fold that reads the working
copy gives "WVdKag==", the encoding of the encoding. -/
theorem C6_reads_copy_counterexample :
    ((base64Stage [0, 0]).ProcessMessage emptyOutside Stats.zero [] ⟨[ascii "abc"]⟩).msgs
      = [⟨[ascii "YWJj"]⟩] ∧
    base64Encode (ascii "abc") = Except.ok (ascii "YWJj") ∧
    base64Encode (ascii "YWJj") = Except.ok (ascii "WVdKag==") ∧
    foldOverCopy base64Encode [ascii "abc"] [0, 0] = [ascii "WVdKag=="] ∧
    ((base64Stage [0, 0]).ProcessMessage emptyOutside Stats.zero [] ⟨[ascii "abc"]⟩).msgs
      ≠ [⟨foldOverCopy base64Encode [ascii "abc"] [0, 0]⟩] :=
  ⟨by decide, rfl, rfl, by decide, by decide⟩

/-- C6, amended: with a non-empty configured list of in-range indices the list is handled
left to right with duplicates preserved (every occurrence is counted once, as
a success or as an error), and at each step the bytes given to the codec are
the bytes of that part in the incoming batch, not in the working copy; so the
output equals the fold over the list that replaces copy[i] by
codec(input[i]), and a listed part holds the codec's result for the input part
however often its index is listed. -/
theorem C6_reads_input (impl : Outside) (c : Encode) (stats : Stats) (log : List String)
    (B : Message) (hne : c.conf.Parts ≠ [])
    (hin : ∀ i ∈ c.conf.Parts, inRange B.Len i) :
    ∃ out, (c.ProcessMessage impl stats log B).msgs = [out] ∧
      out.parts = foldOverInput c.fn B.parts c.conf.Parts ∧
      (∀ k, k < B.Len → (k : Int) ∈ c.conf.Parts →
        ∀ y, c.fn (B.parts.getD k []) = Except.ok y → out.parts.getD k [] = y) ∧
      (c.ProcessMessage impl stats log B).stats.mSucc
          + (c.ProcessMessage impl stats log B).stats.mErr
        = stats.mSucc + stats.mErr + c.conf.Parts.length := by
  have htg := targets_listed c B hne
  have hB : B.Len ≠ 0 := by
    obtain ⟨i, rest, hi⟩ := List.exists_cons_of_ne_nil hne
    have := hin i (by rw [hi]; exact List.mem_cons_self _ _)
    unfold inRange at this
    omega
  have hf := fold_frame impl c (c.targets B)
    { msg := B, newMsg := B.Copy, stats := { stats with mCount := stats.mCount + 1 }, log := log }
  have hp := fold_parts impl c B c.conf.Parts hin
    { msg := B, newMsg := B.Copy, stats := { stats with mCount := stats.mCount + 1 }, log := log }
    rfl rfl
  refine ⟨(c.looped impl stats log B).newMsg, ?_, ?_, ?_, ?_⟩
  · rw [ProcessMessage_sent impl _ stats log B hB]
  · rw [Encode.looped, htg, hp]
    rfl
  · intro k hk hmem y hy
    have hg := looped_getD impl c stats log B (by
      intro i hi; rw [htg] at hi; exact Or.inl (hin i hi)) k hk
    rw [htg] at hg
    rw [hg, if_pos hmem, written, hy]
  · rw [ProcessMessage_sent impl _ stats log B hB]
    show (c.looped impl stats log B).stats.mSucc + (c.looped impl stats log B).stats.mErr = _
    rw [Encode.looped, hf.2.2.2.2.2.2, htg]

/-- The scenario of C6: the list 0, 0 on the batch "abc" gives "YWJj", the base64 encoding of
the input part, and counts two successes. -/
theorem C6_reads_input_witness :
    ((base64Stage [0, 0]).conf.Parts ≠ [] ∧
      ∀ i ∈ (base64Stage [0, 0]).conf.Parts, inRange (Message.mk [ascii "abc"]).Len i) ∧
    ∃ out, ((base64Stage [0, 0]).ProcessMessage emptyOutside Stats.zero []
        ⟨[ascii "abc"]⟩).msgs = [out] ∧
      out.parts = [ascii "YWJj"] ∧
      ((base64Stage [0, 0]).ProcessMessage emptyOutside Stats.zero [] ⟨[ascii "abc"]⟩).stats.mSucc
          + ((base64Stage [0, 0]).ProcessMessage emptyOutside Stats.zero []
              ⟨[ascii "abc"]⟩).stats.mErr
        = Stats.zero.mSucc + Stats.zero.mErr + (base64Stage [0, 0]).conf.Parts.length := by
  refine ⟨⟨by decide, by decide⟩, ?_⟩
  obtain ⟨out, h1, h2, _, h3⟩ :=
    C6_reads_input emptyOutside (base64Stage [0, 0]) Stats.zero [] ⟨[ascii "abc"]⟩
      (by decide) (by decide)
  exact ⟨out, h1, h2.trans (by decide), h3⟩

/-- C7, as stated, fails: with the list holding the index 5 on the one-part batch "abc", no
behaviour of the batch's `Get` outside the batch makes the call add 1 to
"error" and nothing to "success". -/
theorem C7_out_of_range_counterexample :
    ¬ ∃ impl : Outside,
      ((base64Stage [5]).ProcessMessage impl Stats.zero [] ⟨[ascii "abc"]⟩).stats.mErr
          = Stats.zero.mErr + 1 ∧
      ((base64Stage [5]).ProcessMessage impl Stats.zero [] ⟨[ascii "abc"]⟩).stats.mSucc
          = Stats.zero.mSucc := by
  rintro ⟨impl, h1, _⟩
  have h := (ProcessMessage_base64_stats impl [5] Stats.zero [] ⟨[ascii "abc"]⟩).2
  rw [h] at h1
  exact absurd h1 (by decide)

/-- C7, amended: `ProcessMessage` applies no range check. An index out of range goes to the
batch's `Get` like any other and the codec runs on the bytes of the part that
`Get` hands out; for a stage built by `NewEncode` every listed index, in range
or not, is therefore counted as a success and "error" does not move. When
`Get` answers the listed out-of-range indices with a part of no batch, those
steps change no part of the output batch and the other listed indices are
still processed: the output holds the encoding at the listed in-range
positions and the input bytes everywhere else. -/
theorem C7_out_of_range_unguarded (impl : Outside) (conf : EncodeConfig) (c : Encode)
    (stats : Stats) (log : List String) (B : Message)
    (hc : NewEncode conf = Except.ok c) (hne : conf.Parts ≠ [])
    (ht : ∀ i ∈ conf.Parts, tame impl B.Len i) :
    (c.ProcessMessage impl stats log B).stats.mSucc = stats.mSucc + conf.Parts.length ∧
    (c.ProcessMessage impl stats log B).stats.mErr = stats.mErr ∧
    (B.Len ≠ 0 →
      ∃ out, (c.ProcessMessage impl stats log B).msgs = [out] ∧ out.Len = B.Len ∧
        ∀ k, k < B.Len →
          out.parts.getD k [] =
            if (k : Int) ∈ conf.Parts then StdEncode (B.parts.getD k []) else B.parts.getD k []) := by
  obtain ⟨_, hc⟩ := NewEncode_ok conf c hc
  subst hc
  have htg : (base64Stage conf.Parts).targets B = conf.Parts := targets_listed _ B hne
  have hs := ProcessMessage_base64_stats impl conf.Parts stats log B
  rw [htg] at hs
  refine ⟨hs.1, hs.2, ?_⟩
  intro hB
  refine ⟨((base64Stage conf.Parts).looped impl stats log B).newMsg, ?_, looped_Len _ _ _ _ _, ?_⟩
  · rw [ProcessMessage_sent impl _ stats log B hB]
  · intro k hk
    have hg := looped_getD impl (base64Stage conf.Parts) stats log B (by
      intro i hi; rw [htg] at hi; exact ht i hi) k hk
    rw [htg, show (base64Stage conf.Parts).fn = base64Encode from rfl, written_base64] at hg
    exact hg

/-- The scenario of C7: the list 5, 0 on the one-part batch "abc", with a `Get` that hands out
an empty part of no batch outside the batch: two successes, no error, and the
part at index 0 is still encoded. -/
theorem C7_out_of_range_unguarded_witness :
    (NewEncode ⟨"base64", [5, 0]⟩ = Except.ok (base64Stage [5, 0]) ∧
      ([5, 0] : List Int) ≠ [] ∧
      ∀ i ∈ ([5, 0] : List Int), tame emptyOutside (Message.mk [ascii "abc"]).Len i) ∧
    ((base64Stage [5, 0]).ProcessMessage emptyOutside Stats.zero [] ⟨[ascii "abc"]⟩).stats.mSucc
      = Stats.zero.mSucc + ([5, 0] : List Int).length ∧
    ((base64Stage [5, 0]).ProcessMessage emptyOutside Stats.zero [] ⟨[ascii "abc"]⟩).stats.mErr
      = Stats.zero.mErr ∧
    ((Message.mk [ascii "abc"]).Len ≠ 0 →
      ∃ out, ((base64Stage [5, 0]).ProcessMessage emptyOutside Stats.zero []
          ⟨[ascii "abc"]⟩).msgs = [out] ∧ out.Len = (Message.mk [ascii "abc"]).Len ∧
        ∀ k, k < (Message.mk [ascii "abc"]).Len →
          out.parts.getD k [] =
            if (k : Int) ∈ ([5, 0] : List Int) then StdEncode ([ascii "abc"].getD k [])
            else [ascii "abc"].getD k []) :=
  ⟨⟨rfl, by decide, fun _ _ => Or.inr (fun _ _ => ⟨[], rfl⟩)⟩,
   C7_out_of_range_unguarded emptyOutside ⟨"base64", [5, 0]⟩ (base64Stage [5, 0]) Stats.zero []
    ⟨[ascii "abc"]⟩ rfl (by decide) (fun _ _ => Or.inr (fun _ _ => ⟨[], rfl⟩))⟩

/-- C8: `strToEncoder` succeeds exactly on the string "base64" and then returns
`base64Encode`; on every other string it returns no codec and the error
"encode scheme not recognised: " followed by that string. `NewEncode` returns
an error and no stage exactly when `strToEncoder` fails on the configured
scheme, with the same error, and a stage holding the codec otherwise. -/
theorem C8_scheme_resolution (s : String) (conf : EncodeConfig) :
    ((∃ f, strToEncoder s = Except.ok f) ↔ s = "base64") ∧
    (s = "base64" → strToEncoder s = Except.ok base64Encode) ∧
    (s ≠ "base64" →
      strToEncoder s = Except.error ("encode scheme not recognised: " ++ s) ∧
      ∃ pre, strToEncoder s = Except.error (pre ++ s)) ∧
    (∀ err, NewEncode conf = Except.error err ↔ strToEncoder conf.Scheme = Except.error err) ∧
    ((∃ err, NewEncode conf = Except.error err) ↔ conf.Scheme ≠ "base64") ∧
    (∀ c, NewEncode conf = Except.ok c ↔
      strToEncoder conf.Scheme = Except.ok c.fn ∧ c.conf = conf) := by
  have hsome : ∀ t : String, t = "base64" → strToEncoder t = Except.ok base64Encode := by
    intro t ht; simp only [strToEncoder, ht, if_true]
  have hnone : ∀ t : String, t ≠ "base64" →
      strToEncoder t = Except.error ("encode scheme not recognised: " ++ t) := by
    intro t ht; simp only [strToEncoder, ht, if_false]
  refine ⟨?_, hsome s, ?_, ?_, ?_, ?_⟩
  · constructor
    · rintro ⟨f, hf⟩
      by_contra hne
      rw [hnone s hne] at hf
      cases hf
    · intro h
      exact ⟨base64Encode, hsome s h⟩
  · intro hne
    exact ⟨hnone s hne, _, hnone s hne⟩
  · intro err
    by_cases h : conf.Scheme = "base64"
    · simp only [NewEncode, hsome _ h]
      constructor <;> intro h' <;> cases h'
    · simp only [NewEncode, hnone _ h, Except.error.injEq]
  · by_cases h : conf.Scheme = "base64"
    · simp only [NewEncode, hsome _ h, h, ne_eq, not_true_eq_false, iff_false, not_exists]
      intro err h'
      cases h'
    · simp only [NewEncode, hnone _ h, h, ne_eq, not_false_eq_true, iff_true]
      exact ⟨_, rfl⟩
  · intro c
    by_cases h : conf.Scheme = "base64"
    · simp only [NewEncode, hsome _ h, Except.ok.injEq]
      constructor
      · intro h'
        subst h'
        exact ⟨rfl, rfl⟩
      · rintro ⟨h1, h2⟩
        cases c
        simp only at h1 h2
        subst h1 h2
        rfl
    · simp only [NewEncode, hnone _ h]
      constructor
      · intro h'; cases h'
      · rintro ⟨h', _⟩; cases h'

/-- Instances of C8: "base64" resolves, and "BASE64" is rejected with an error that names it, by
`strToEncoder` and by `NewEncode` alike. -/
theorem C8_scheme_resolution_witness :
    strToEncoder "base64" = Except.ok base64Encode ∧
    strToEncoder "BASE64" = Except.error "encode scheme not recognised: BASE64" ∧
    (∃ err, NewEncode ⟨"BASE64", []⟩ = Except.error err) := by
  have h := C8_scheme_resolution "BASE64" ⟨"BASE64", []⟩
  have h2 := C8_scheme_resolution "base64" NewEncodeConfig
  exact ⟨h2.2.1 rfl, (h.2.2.1 (by decide)).1, h.2.2.2.2.1.mpr (by decide)⟩

/-- C9: for an input of n bytes `base64Encode` returns ceil(n/3)*4 bytes, none of which is a
line feed or a carriage return. -/
theorem C9_base64_length (b : Bytes) :
    ∃ out, base64Encode b = Except.ok out ∧
      out.length = ⌈(b.length : ℚ) / 3⌉₊ * 4 ∧
      out.length = (b.length + 2) / 3 * 4 ∧
      ∀ ch ∈ out, ch ≠ 10 ∧ ch ≠ 13 := by
  have hceil : ⌈(b.length : ℚ) / 3⌉₊ = (b.length + 2) / 3 := by
    have h3 : (0 : ℚ) < 3 := by norm_num
    by_cases hb : b.length = 0
    · rw [hb]; simp
    · obtain ⟨m, hm⟩ : ∃ m, (b.length + 2) / 3 = m + 1 := ⟨(b.length + 2) / 3 - 1, by omega⟩
      rw [hm, Nat.ceil_eq_iff (Nat.succ_ne_zero m)]
      constructor
      · rw [lt_div_iff₀ h3]
        have hn : m * 3 < b.length := by omega
        exact_mod_cast hn
      · rw [div_le_iff₀ h3]
        have hn : b.length ≤ (m + 1) * 3 := by omega
        exact_mod_cast hn
  refine ⟨StdEncode b, base64Encode_eq b, ?_, StdEncode_length b, StdEncode_plain b⟩
  rw [hceil, StdEncode_length]

/-- C10: decoding the output of `base64Encode` with the standard padded decoder succeeds and
gives back the input, so `base64Encode` is injective. -/
theorem C10_base64_round_trip (b : Bytes) :
    (∃ out, base64Encode b = Except.ok out ∧ StdDecode out = some b) ∧
    Function.Injective base64Encode := by
  refine ⟨⟨StdEncode b, base64Encode_eq b, StdDecode_StdEncode b⟩, ?_⟩
  intro x y hxy
  rw [base64Encode_eq, base64Encode_eq, Except.ok.injEq] at hxy
  have h := StdDecode_StdEncode x
  rw [hxy, StdDecode_StdEncode y, Option.some.injEq] at h
  exact h.symm

/-! ## Facts about the matcher -/

/-- The first match of a concatenation is the first way its second part matches behind the first
way its first part matches, when there is one. -/
theorem head?_flatMap_some {α β : Type} (l : List α) (f : α → List β) (x : α) (y : β)
    (hl : l.head? = some x) (hf : (f x).head? = some y) : (l.flatMap f).head? = some y := by
  cases l with
  | nil => cases hl
  | cons a t =>
    simp only [List.head?_cons, Option.some.injEq] at hl
    subst hl
    cases hfa : f a with
    | nil => rw [hfa] at hf; cases hf
    | cons b u =>
      rw [hfa] at hf
      simp only [List.head?_cons, Option.some.injEq] at hf
      subst hf
      simp [List.flatMap_cons, hfa]

/-- What a literal byte matches. -/
theorem ends_lit (c : Byte) (s : Bytes) :
    (lit c).ends s = match s with
      | x :: t => if x = c then [t] else []
      | [] => [] := by
  cases s <;> simp [lit, Re.ends]

/-- A pattern that begins with a literal byte matches only behind that byte. -/
theorem ends_lit_seq (c : Byte) (r : Re) (x : Byte) (t : Bytes) :
    (Re.seq (lit c) r).ends (x :: t) = if x = c then r.ends t else [] := by
  by_cases h : x = c <;> simp [Re.ends, lit, h]

/-- A pattern that begins with a literal byte matches nothing in the empty text. -/
theorem ends_lit_seq_nil (c : Byte) (r : Re) : (Re.seq (lit c) r).ends [] = [] := by
  simp [Re.ends, lit]

/-- What a repetition leaves is a suffix of its input when what its step leaves is one. -/
theorem iter_suffix (step : Bytes → List Bytes)
    (hstep : ∀ s r, r ∈ step s → r <:+ s) :
    ∀ n s r, r ∈ Re.iter step n s → r <:+ s := by
  intro n
  induction n with
  | zero => intro s r h; simp [Re.iter] at h
  | succ n ih =>
    intro s r h
    simp only [Re.iter, List.mem_flatMap, List.mem_append, List.mem_singleton] at h
    obtain ⟨m, hm, hr | hr⟩ := h
    · exact (ih m r hr).trans (hstep s m hm)
    · rw [hr]; exact hstep s m hm

/-- What a match leaves is a suffix of the input. -/
theorem ends_suffix (re : Re) : ∀ s r, r ∈ re.ends s → r <:+ s := by
  induction re with
  | byte p =>
    intro s r h
    cases s with
    | nil => simp [Re.ends] at h
    | cons c t =>
      by_cases hp : p c
      · simp only [Re.ends, hp, if_true, List.mem_singleton] at h
        rw [h]; exact List.suffix_cons c t
      · simp [Re.ends, hp] at h
  | seq a b iha ihb =>
    intro s r h
    simp only [Re.ends, List.mem_flatMap] at h
    obtain ⟨m, hm, hr⟩ := h
    exact (ihb m r hr).trans (iha s m hm)
  | alt a b iha ihb =>
    intro s r h
    simp only [Re.ends, List.mem_append] at h
    rcases h with h | h
    · exact iha s r h
    · exact ihb s r h
  | plus a iha =>
    intro s r h
    exact iter_suffix a.ends iha s.length s r h
  | opt a iha =>
    intro s r h
    simp only [Re.ends, List.mem_append, List.mem_singleton] at h
    rcases h with h | h
    · exact iha s r h
    · rw [h]

/-- A repetition consumes at least what one step consumes. -/
theorem iter_minLen (step : Bytes → List Bytes) (k : Nat)
    (hstep : ∀ s r, r ∈ step s → r.length + k ≤ s.length) :
    ∀ n s r, r ∈ Re.iter step n s → r.length + k ≤ s.length := by
  intro n
  induction n with
  | zero => intro s r h; simp [Re.iter] at h
  | succ n ih =>
    intro s r h
    simp only [Re.iter, List.mem_flatMap, List.mem_append, List.mem_singleton] at h
    obtain ⟨m, hm, hr | hr⟩ := h
    · have h1 := ih m r hr
      have h2 := hstep s m hm
      omega
    · rw [hr]; exact hstep s m hm

/-- Every match is at least `minLen` bytes long. -/
theorem ends_minLen (re : Re) : ∀ s r, r ∈ re.ends s → r.length + re.minLen ≤ s.length := by
  induction re with
  | byte p =>
    intro s r h
    cases s with
    | nil => simp [Re.ends] at h
    | cons c t =>
      by_cases hp : p c
      · simp only [Re.ends, hp, if_true, List.mem_singleton] at h
        rw [h]; simp [Re.minLen]
      · simp [Re.ends, hp] at h
  | seq a b iha ihb =>
    intro s r h
    simp only [Re.ends, List.mem_flatMap] at h
    obtain ⟨m, hm, hr⟩ := h
    have h1 := iha s m hm
    have h2 := ihb m r hr
    simp only [Re.minLen]
    omega
  | alt a b iha ihb =>
    intro s r h
    simp only [Re.ends, List.mem_append] at h
    simp only [Re.minLen]
    rcases h with h | h
    · have := iha s r h; omega
    · have := ihb s r h; omega
  | plus a iha =>
    intro s r h
    exact iter_minLen a.ends a.minLen iha s.length s r h
  | opt a iha =>
    intro s r h
    simp only [Re.ends, List.mem_append, List.mem_singleton] at h
    simp only [Re.minLen, Nat.add_zero]
    rcases h with h | h
    · have := iha s r h; omega
    · rw [h]

/-- Two list-valued functions that agree on the members of a list give the same
`flatMap` over it. -/
theorem flatMap_agree {α β : Type} (l : List α) (f g : α → List β)
    (h : ∀ x ∈ l, f x = g x) : l.flatMap f = l.flatMap g := by
  induction l with
  | nil => rfl
  | cons a t ih =>
    rw [List.flatMap_cons, List.flatMap_cons, h a (List.mem_cons_self _ _),
      ih (fun x hx => h x (List.mem_cons_of_mem _ hx))]

/-- A repetition whose step consumes input has run out of input before it runs out of
repetitions: any bound from the length of the input on gives the same
matches. -/
theorem iter_fuel (step : Bytes → List Bytes)
    (hstep : ∀ s r, r ∈ step s → r.length < s.length) :
    ∀ n m s, s.length ≤ n → s.length ≤ m → Re.iter step n s = Re.iter step m s := by
  have hnil : step [] = [] := by
    cases h : step [] with
    | nil => rfl
    | cons r t =>
      have := hstep [] r (by rw [h]; exact List.mem_cons_self _ _)
      simp at this
  intro n
  induction n with
  | zero =>
    intro m s hn _
    have hs : s = [] := List.eq_nil_of_length_eq_zero (by omega)
    subst hs
    cases m with
    | zero => rfl
    | succ m => simp [Re.iter, hnil]
  | succ n ih =>
    intro m s hn hm
    cases m with
    | zero =>
      have hs : s = [] := List.eq_nil_of_length_eq_zero (by omega)
      subst hs
      simp [Re.iter, hnil]
    | succ m =>
      simp only [Re.iter]
      apply flatMap_agree
      intro r hr
      have := hstep s r hr
      rw [ih m r (by omega) (by omega)]

/-- The match that is found is one of the ways the pattern matches. -/
theorem find_mem (re : Re) (s tail : Bytes) (h : re.find s = some tail) : tail ∈ re.ends s := by
  unfold Re.find at h
  exact List.mem_of_mem_head? h

/-- A match of `envRegex` has at least four bytes, so `len(content) > 3` holds in the callback. -/
theorem envRegex_minLen : envRegex.minLen = 4 := by decide

/-- A match of `escapedEnvRegex` has at least six bytes. -/
theorem escapedEnvRegex_minLen : escapedEnvRegex.minLen = 6 := by decide

/-! ## Facts about the scan of `ReplaceAllFunc` -/

/-- The scan never needs more steps than the input has bytes: any bound from the length of
the input on gives the same result. -/
theorem replaceLoop_fuel (re : Re) (repl : Bytes → Option Bytes) :
    ∀ n m s, s.length ≤ n → s.length ≤ m →
      replaceLoop re repl n s = replaceLoop re repl m s := by
  intro n
  induction n with
  | zero =>
    intro m s hn _
    have hs : s = [] := List.eq_nil_of_length_eq_zero (by omega)
    subst hs
    cases m <;> rfl
  | succ n ih =>
    intro m s hn hm
    cases s with
    | nil => cases m <;> rfl
    | cons c rest =>
      cases m with
      | zero => simp at hm
      | succ m =>
        simp only [List.length_cons] at hn hm
        simp only [replaceLoop]
        have hrest := ih m rest (by omega) (by omega)
        cases hf : re.find (c :: rest) with
        | none => simp only [hrest]
        | some tail =>
          by_cases hl : tail.length < (c :: rest).length
          · simp only [List.length_cons] at hl
            have htail := ih m tail (by omega) (by omega)
            simp only [List.length_cons, hl, if_true, htail]
          · simp only [hl, if_false, hrest]

/-- The scan of the empty text. -/
theorem ReplaceAllFunc_nil (re : Re) (repl : Bytes → Option Bytes) :
    ReplaceAllFunc re [] repl = some [] := rfl

/-- A byte where no match starts is copied. -/
theorem ReplaceAllFunc_skip (re : Re) (repl : Bytes → Option Bytes) (c : Byte) (rest : Bytes)
    (h : re.find (c :: rest) = none) :
    ReplaceAllFunc re (c :: rest) repl = (ReplaceAllFunc re rest repl).map (fun out => c :: out) := by
  simp only [ReplaceAllFunc, List.length_cons, replaceLoop, h]

/-- A match at the head of the text is replaced and the scan goes on behind it. -/
theorem ReplaceAllFunc_match (re : Re) (repl : Bytes → Option Bytes) (content tail : Bytes)
    (hne : content ≠ []) (h : re.find (content ++ tail) = some tail) :
    ReplaceAllFunc re (content ++ tail) repl =
      match repl content, ReplaceAllFunc re tail repl with
      | some r, some out => some (r ++ out)
      | _, _ => none := by
  obtain ⟨c, rest, hc⟩ := List.exists_cons_of_ne_nil hne
  subst hc
  have hl : tail.length < (c :: rest ++ tail).length := by
    simp only [List.length_append, List.length_cons]; omega
  have htake : (c :: (rest ++ tail)).take ((c :: (rest ++ tail)).length - tail.length)
      = c :: rest := by
    have : (c :: (rest ++ tail)).length - tail.length = (c :: rest).length := by
      simp only [List.length_append, List.length_cons]; omega
    rw [this]
    exact List.take_left' rfl
  have hfuel := replaceLoop_fuel re repl (rest ++ tail).length tail.length tail
    (by simp only [List.length_append]; omega) (Nat.le_refl _)
  simp only [List.cons_append] at h hl
  simp only [ReplaceAllFunc, List.cons_append, List.length_cons, replaceLoop, h]
  simp only [List.length_cons] at hl htake
  simp only [hl, if_true, htake, List.append_eq, hfuel]

/-- The scan ends without a result exactly when the callback panics on one of its matches. -/
theorem replaceLoop_none_iff (re : Re) (repl : Bytes → Option Bytes) :
    ∀ n s, replaceLoop re repl n s = none ↔ ∃ content ∈ scanLoop re n s, repl content = none := by
  intro n
  induction n with
  | zero => intro s; simp [replaceLoop, scanLoop]
  | succ n ih =>
    intro s
    cases s with
    | nil => simp [replaceLoop, scanLoop]
    | cons c rest =>
      simp only [replaceLoop, scanLoop]
      cases hf : re.find (c :: rest) with
      | none =>
        simp only [Option.map_eq_none']
        exact ih rest
      | some tail =>
        by_cases hl : tail.length < (c :: rest).length
        · simp only [hl, if_true, List.mem_cons, exists_eq_or_imp]
          have iht := ih tail
          cases hr : repl (List.take ((c :: rest).length - tail.length) (c :: rest)) with
          | none => simp
          | some r =>
            cases ho : replaceLoop re repl n tail with
            | none =>
              constructor
              · intro _; exact Or.inr (iht.mp ho)
              · intro _; rfl
            | some out =>
              constructor
              · intro h; cases h
              · intro h
                rcases h with h | h
                · cases h
                · have := iht.mpr h
                  rw [ho] at this
                  cases this
        · simp only [hl, if_false, Option.map_eq_none']
          exact ih rest

/-- A property of bytes that the input has and the callback keeps is a property of the output. -/
theorem replaceLoop_keeps (re : Re) (repl : Bytes → Option Bytes) (P : Byte → Prop)
    (hrepl : ∀ content r, (∀ c ∈ content, P c) → repl content = some r → ∀ c ∈ r, P c) :
    ∀ n s out, (∀ c ∈ s, P c) → replaceLoop re repl n s = some out → ∀ c ∈ out, P c := by
  intro n
  induction n with
  | zero =>
    intro s out hs h
    simp only [replaceLoop, Option.some.injEq] at h
    rw [← h]; exact hs
  | succ n ih =>
    intro s out hs h
    cases s with
    | nil =>
      simp only [replaceLoop, Option.some.injEq] at h
      rw [← h]; exact hs
    | cons c rest =>
      have hrest : ∀ x ∈ rest, P x := fun x hx => hs x (List.mem_cons_of_mem _ hx)
      have hskip : ∀ o, (replaceLoop re repl n rest).map (fun out => c :: out) = some o →
          ∀ x ∈ o, P x := by
        intro o ho
        cases hr : replaceLoop re repl n rest with
        | none => rw [hr] at ho; cases ho
        | some o' =>
          rw [hr] at ho
          simp only [Option.map_some', Option.some.injEq] at ho
          rw [← ho]
          intro x hx
          rcases List.mem_cons.mp hx with hx | hx
          · rw [hx]; exact hs c (List.mem_cons_self _ _)
          · exact ih rest o' hrest hr x hx
      simp only [replaceLoop] at h
      cases hf : re.find (c :: rest) with
      | none =>
        rw [hf] at h
        exact hskip out h
      | some tail =>
        rw [hf] at h
        by_cases hl : tail.length < (c :: rest).length
        · simp only [hl, if_true] at h
          have htail : ∀ x ∈ tail, P x := by
            intro x hx
            exact hs x ((ends_suffix re _ _ (find_mem re _ _ hf)).subset hx)
          cases hr : repl (List.take ((c :: rest).length - tail.length) (c :: rest)) with
          | none => rw [hr] at h; cases h
          | some r =>
            cases ho : replaceLoop re repl n tail with
            | none => rw [hr, ho] at h; cases h
            | some o' =>
              rw [hr, ho] at h
              simp only [Option.some.injEq] at h
              rw [← h]
              intro x hx
              rcases List.mem_append.mp hx with hx | hx
              · exact hrepl _ r (fun y hy => hs y (List.mem_of_mem_take hy)) hr x hx
              · exact ih tail o' htail ho x hx
        · simp only [hl, if_false] at h
          exact hskip out h

/-! ## Text without `${` -/

/-- The check for `${` one byte at a time. -/
theorem noDB_cons (c : Byte) (rest : Bytes) :
    noDB (c :: rest) = true ↔ ¬ (c = 36 ∧ rest.head? = some 123) ∧ noDB rest = true := by
  simp only [noDB, Bool.and_eq_true, Bool.not_eq_true', Bool.and_eq_false_imp,
    decide_eq_true_eq, decide_eq_false_iff_not, not_and]

/-- The check `noDB` says that the two bytes `${` do not occur in the text. -/
theorem noDB_iff_absent (s : Bytes) : noDB s = true ↔ ¬ ([36, 123] : Bytes) <:+: s := by
  induction s with
  | nil => simp [noDB]
  | cons c rest ih =>
    rw [noDB_cons, ih, List.infix_cons_iff]
    have hp : ([36, 123] : Bytes) <+: c :: rest ↔ (c = 36 ∧ rest.head? = some 123) := by
      constructor
      · rintro ⟨t, ht⟩
        simp only [List.cons_append, List.nil_append, List.cons.injEq] at ht
        obtain ⟨h1, h2⟩ := ht
        exact ⟨h1.symm, by rw [← h2]; rfl⟩
      · rintro ⟨h1, h2⟩
        cases rest with
        | nil => cases h2
        | cons b t =>
          simp only [List.head?_cons, Option.some.injEq] at h2
          subst h1 h2
          exact ⟨t, rfl⟩
    rw [hp]
    tauto

/-- A part of a text without `${` is without `${`. -/
theorem noDB_of_part (x s : Bytes) (hx : x <:+: s) (h : noDB s = true) : noDB x = true := by
  rw [noDB_iff_absent] at h ⊢
  intro h2
  exact h (h2.trans hx)

/-- The front of a text without `${` is without `${`. -/
theorem noDB_append_left (x y : Bytes) (h : noDB (x ++ y) = true) : noDB x = true :=
  noDB_of_part x _ (List.prefix_append x y).isInfix h

/-- The back of a text without `${` is without `${`. -/
theorem noDB_append_right (x y : Bytes) (h : noDB (x ++ y) = true) : noDB y = true :=
  noDB_of_part y _ (List.suffix_append x y).isInfix h

/-- Escaping line feeds does not bring an opening brace to the front. -/
theorem head?_escape (d y : Bytes) (h : (escapeNewlines d ++ y).head? = some 123) :
    (d ++ y).head? = some 123 := by
  cases d with
  | nil => simpa [escapeNewlines] using h
  | cons c t =>
    by_cases hc : c = 10
    · subst hc
      simp [escapeNewlines] at h
    · simpa [escapeNewlines, hc] using h

/-- Escaping the line feeds at the front of a text without `${` brings in no `${`. -/
theorem noDB_escape_right (d y : Bytes) (h : noDB (d ++ y) = true) :
    noDB (escapeNewlines d ++ y) = true := by
  induction d with
  | nil => simpa [escapeNewlines] using h
  | cons c t ih =>
    rw [List.cons_append, noDB_cons] at h
    have iht := ih h.2
    by_cases hc : c = 10
    · subst hc
      have e : escapeNewlines (10 :: t) ++ y = 92 :: 110 :: (escapeNewlines t ++ y) := by
        simp [escapeNewlines]
      rw [e, noDB_cons, noDB_cons]
      refine ⟨fun hh => absurd hh.1 (by decide), fun hh => absurd hh.1 (by decide), iht⟩
    · have e : escapeNewlines (c :: t) ++ y = c :: (escapeNewlines t ++ y) := by
        simp [escapeNewlines, hc]
      rw [e, noDB_cons]
      exact ⟨fun hh => h.1 ⟨hh.1, head?_escape t y hh.2⟩, iht⟩

/-- Escaping the line feeds in the middle of a text without `${` brings in no `${`. -/
theorem noDB_escape (x d y : Bytes) (h : noDB (x ++ d ++ y) = true) :
    noDB (x ++ escapeNewlines d ++ y) = true := by
  induction x with
  | nil => simpa using noDB_escape_right d y (by simpa using h)
  | cons c t ih =>
    simp only [List.cons_append, List.append_assoc] at h ⊢
    rw [noDB_cons] at h ⊢
    refine ⟨fun hh => h.1 ⟨hh.1, ?_⟩, by simpa using ih (by simpa using h.2)⟩
    cases t with
    | nil => simpa using head?_escape d y (by simpa using hh.2)
    | cons b u => simpa using hh.2

/-- A pattern that begins with `${` finds no match where the text does not begin with `${`. -/
theorem find_dollarBrace (r : Re) (c : Byte) (t : Bytes)
    (h : ¬ (c = 36 ∧ t.head? = some 123)) :
    (Re.seq (lit 36) (Re.seq (lit 123) r)).find (c :: t) = none := by
  unfold Re.find
  rw [ends_lit_seq]
  by_cases hc : c = 36
  · rw [if_pos hc]
    cases t with
    | nil => rw [ends_lit_seq_nil]; rfl
    | cons b u =>
      rw [ends_lit_seq]
      have hb : b ≠ 123 := by
        intro hb; exact h ⟨hc, by rw [hb]; rfl⟩
      rw [if_neg hb]; rfl
  · rw [if_neg hc]; rfl

/-- The scan copies a front without `${` when no opening brace follows it. -/
theorem ReplaceAllFunc_plain (r : Re) (repl : Bytes → Option Bytes) (pre s : Bytes)
    (hpre : noDB pre = true) (hseam : s.head? ≠ some 123) :
    ReplaceAllFunc (Re.seq (lit 36) (Re.seq (lit 123) r)) (pre ++ s) repl =
      (ReplaceAllFunc (Re.seq (lit 36) (Re.seq (lit 123) r)) s repl).map (fun out => pre ++ out) := by
  induction pre with
  | nil => simp
  | cons c t ih =>
    rw [noDB_cons] at hpre
    have hnone : (Re.seq (lit 36) (Re.seq (lit 123) r)).find (c :: (t ++ s)) = none := by
      apply find_dollarBrace
      intro hh
      cases t with
      | nil => exact hseam (by simpa using hh.2)
      | cons b u => exact hpre.1 ⟨hh.1, by simpa using hh.2⟩
    rw [List.cons_append, ReplaceAllFunc_skip _ _ _ _ hnone, ih hpre.2]
    cases ReplaceAllFunc (Re.seq (lit 36) (Re.seq (lit 123) r)) s repl <;> simp

/-- The scan copies a text without `${`. -/
theorem ReplaceAllFunc_noDB (r : Re) (repl : Bytes → Option Bytes) (s : Bytes)
    (h : noDB s = true) :
    ReplaceAllFunc (Re.seq (lit 36) (Re.seq (lit 123) r)) s repl = some s := by
  have := ReplaceAllFunc_plain r repl s [] h (by simp)
  simpa [ReplaceAllFunc_nil] using this

/-! ## What the two patterns match -/

/-- A repetition whose step does not match does not match. -/
theorem iter_nil (step : Bytes → List Bytes) (s : Bytes) (h : step s = []) :
    ∀ n, Re.iter step n s = [] := by
  intro n
  cases n with
  | zero => rfl
  | succ n => simp [Re.iter, h]

/-- A repetition whose step takes exactly one byte all along `d` and stops behind it prefers the
match of the whole of `d`. -/
theorem iter_run (step : Bytes → List Bytes) (Q : Bytes → Prop) (rest : Bytes)
    (hstep : ∀ c d, Q (c :: d) → step (c :: d ++ rest) = [d ++ rest] ∧ (d ≠ [] → Q d))
    (hstop : step rest = []) :
    ∀ d, d ≠ [] → Q d → ∀ n, d.length ≤ n → (Re.iter step n (d ++ rest)).head? = some rest := by
  intro d
  induction d with
  | nil => intro h; exact absurd rfl h
  | cons c t ih =>
    intro _ hQ n hn
    cases n with
    | zero => simp at hn
    | succ n =>
      obtain ⟨h1, h2⟩ := hstep c t hQ
      simp only [Re.iter, h1, List.flatMap_cons, List.flatMap_nil, List.append_nil]
      by_cases ht : t = []
      · subst ht
        simp [iter_nil step rest hstop n]
      · have := ih ht (h2 ht) n (by simp only [List.length_cons] at hn; omega)
        rw [List.head?_append, this]
        rfl

/-- A pattern that begins with `${` has no match where the text does not begin with `${`. -/
theorem ends_dollarBrace (r : Re) (c : Byte) (t : Bytes)
    (h : ¬ (c = 36 ∧ t.head? = some 123)) :
    (Re.seq (lit 36) (Re.seq (lit 123) r)).ends (c :: t) = [] := by
  rw [ends_lit_seq]
  by_cases hc : c = 36
  · rw [if_pos hc]
    cases t with
    | nil => rw [ends_lit_seq_nil]
    | cons b u =>
      rw [ends_lit_seq]
      have hb : b ≠ 123 := by
        intro hb; exact h ⟨hc, by rw [hb]; rfl⟩
      rw [if_neg hb]
  · rw [if_neg hc]

/-- The name loop runs over the whole name when a byte outside the class follows. -/
theorem name_run (name rest : Bytes) (hne : name ≠ [])
    (hname : ∀ c ∈ name, nameClass c = true)
    (hrest : ∀ c t, rest = c :: t → nameClass c = false) :
    ((Re.plus (Re.byte nameClass)).ends (name ++ rest)).head? = some rest := by
  simp only [Re.ends]
  refine iter_run _ (fun d => ∀ c ∈ d, nameClass c = true) rest ?_ ?_ name hne hname _
    (by simp only [List.length_append]; omega)
  · intro c d hQ
    refine ⟨?_, fun _ x hx => hQ x (List.mem_cons_of_mem _ hx)⟩
    simp only [List.cons_append, Re.ends, hQ c (List.mem_cons_self _ _), if_true]
  · cases rest with
    | nil => rfl
    | cons c t => simp only [Re.ends, hrest c t rfl, Bool.false_eq_true, if_false]

/-- The default loop runs up to the first closing brace when the default holds no
closing brace and no `${`. -/
theorem default_run (d post : Bytes) (hne : d ≠ [])
    (hbrace : ∀ c ∈ d, c ≠ 125) (hdb : noDB d = true) :
    ((Re.plus (Re.alt
      (Re.seq (lit 36) (Re.seq (lit 123) (Re.seq (Re.plus (Re.byte notBrace)) (lit 125))))
      (Re.byte notBrace))).ends (d ++ 125 :: post)).head? = some (125 :: post) := by
  rw [Re.ends]
  refine iter_run _ (fun d => (∀ c ∈ d, c ≠ 125) ∧ noDB d = true) (125 :: post) ?_ ?_ d hne
    ⟨hbrace, hdb⟩ _ (by simp only [List.length_append]; omega)
  · intro c t hQ
    obtain ⟨hb, hn⟩ := hQ
    rw [noDB_cons] at hn
    refine ⟨?_, fun _ => ⟨fun x hx => hb x (List.mem_cons_of_mem _ hx), hn.2⟩⟩
    have h1 : ¬ (c = 36 ∧ (t ++ 125 :: post).head? = some 123) := by
      intro hh
      cases t with
      | nil => simp at hh
      | cons b u => exact hn.1 ⟨hh.1, by simpa using hh.2⟩
    have hc : notBrace c = true := by
      simp only [notBrace, decide_eq_true_eq]
      exact hb c (List.mem_cons_self _ _)
    rw [Re.ends, List.cons_append, ends_dollarBrace _ c _ h1]
    simp only [Re.ends, hc, if_true, List.nil_append]
  · rw [Re.ends, ends_dollarBrace _ 125 post (by intro hh; exact absurd hh.1 (by decide))]
    simp [Re.ends, notBrace]

/-- Behind the opening `${`: a name, a colon and a default are matched up to the closing
part `k` of the pattern. -/
theorem with_default_run (k : Re) (name d post y : Bytes) (hne : name ≠ [])
    (hname : ∀ c ∈ name, nameClass c = true) (hd : d ≠ [])
    (hbrace : ∀ c ∈ d, c ≠ 125) (hdb : noDB d = true)
    (hk : (k.ends (125 :: post)).head? = some y) :
    ((Re.seq (Re.plus (Re.byte nameClass)) (Re.seq defaultPart k)).ends
      (name ++ 58 :: (d ++ 125 :: post))).head? = some y := by
  rw [Re.ends]
  refine head?_flatMap_some _ _ (58 :: (d ++ 125 :: post)) y
    (name_run name _ hne hname (by intro c t h; cases h; decide)) ?_
  rw [Re.ends]
  refine head?_flatMap_some _ _ (125 :: post) y ?_ hk
  rw [defaultPart, Re.ends, ends_lit_seq, if_pos rfl, List.head?_append,
    default_run d post hd hbrace hdb]
  rfl

/-- Behind the opening `${`: a name without a default is matched up to the closing part
`k` of the pattern. -/
theorem without_default_run (k : Re) (name post y : Bytes) (hne : name ≠ [])
    (hname : ∀ c ∈ name, nameClass c = true)
    (hk : (k.ends (125 :: post)).head? = some y) :
    ((Re.seq (Re.plus (Re.byte nameClass)) (Re.seq defaultPart k)).ends
      (name ++ 125 :: post)).head? = some y := by
  rw [Re.ends]
  refine head?_flatMap_some _ _ (125 :: post) y
    (name_run name _ hne hname (by intro c t h; cases h; decide)) ?_
  rw [Re.ends]
  refine head?_flatMap_some _ _ (125 :: post) y ?_ hk
  rw [defaultPart, Re.ends, ends_lit_seq, if_neg (by decide)]
  rfl

/-- The pattern `envRegex` matches exactly the placeholder `${NAME:d}` at the head of a text. -/
theorem envRegex_find_default (name d post : Bytes) (hne : name ≠ [])
    (hname : ∀ c ∈ name, nameClass c = true) (hd : d ≠ [])
    (hbrace : ∀ c ∈ d, c ≠ 125) (hdb : noDB d = true) :
    envRegex.find ((36 :: 123 :: (name ++ 58 :: (d ++ [125]))) ++ post) = some post := by
  have e : (36 :: 123 :: (name ++ 58 :: (d ++ [125]))) ++ post
      = 36 :: 123 :: (name ++ 58 :: (d ++ 125 :: post)) := by simp
  rw [e, Re.find, envRegex, ends_lit_seq, if_pos rfl, ends_lit_seq, if_pos rfl]
  exact with_default_run (lit 125) name d post post hne hname hd hbrace hdb
    (by rw [ends_lit]; rfl)

/-- The pattern `envRegex` matches exactly the placeholder `${NAME}` at the head of a text. -/
theorem envRegex_find_plain (name post : Bytes) (hne : name ≠ [])
    (hname : ∀ c ∈ name, nameClass c = true) :
    envRegex.find ((36 :: 123 :: (name ++ [125])) ++ post) = some post := by
  have e : (36 :: 123 :: (name ++ [125])) ++ post = 36 :: 123 :: (name ++ 125 :: post) := by simp
  rw [e, Re.find, envRegex, ends_lit_seq, if_pos rfl, ends_lit_seq, if_pos rfl]
  exact without_default_run (lit 125) name post post hne hname (by rw [ends_lit]; rfl)

/-- The pattern `escapedEnvRegex` matches exactly the form `${{NAME:d}}` at the head of a text. -/
theorem escapedEnvRegex_find_default (name d post : Bytes) (hne : name ≠ [])
    (hname : ∀ c ∈ name, nameClass c = true) (hd : d ≠ [])
    (hbrace : ∀ c ∈ d, c ≠ 125) (hdb : noDB d = true) :
    escapedEnvRegex.find ((36 :: 123 :: 123 :: (name ++ 58 :: (d ++ [125, 125]))) ++ post)
      = some post := by
  have e : (36 :: 123 :: 123 :: (name ++ 58 :: (d ++ [125, 125]))) ++ post
      = 36 :: 123 :: 123 :: (name ++ 58 :: (d ++ 125 :: (125 :: post))) := by simp
  rw [e, Re.find, escapedEnvRegex, ends_lit_seq, if_pos rfl, ends_lit_seq, if_pos rfl,
    ends_lit_seq, if_pos rfl]
  exact with_default_run (Re.seq (lit 125) (lit 125)) name d (125 :: post) post hne hname hd
    hbrace hdb (by rw [ends_lit_seq, if_pos rfl, ends_lit]; rfl)

/-! ## What the callback returns -/

/-- A name holds no colon. -/
theorem nameClass_not_colon (name : Bytes) (hname : ∀ c ∈ name, nameClass c = true) :
    (58 : Byte) ∉ name := by
  intro h
  exact absurd (hname 58 h) (by decide)

/-- A name holds no dollar sign. -/
theorem nameClass_not_dollar (name : Bytes) (hname : ∀ c ∈ name, nameClass c = true) :
    ∀ c ∈ name, c ≠ 36 := by
  intro c hc h
  subst h
  exact absurd (hname 36 hc) (by decide)

/-- The slice `content[2 : len(content)-1]` of a text in `${` and a closing brace is what stands
between them. -/
theorem inner_of_braced (mid : Bytes) :
    ((36 :: 123 :: (mid ++ [125]) : Bytes).take
      ((36 :: 123 :: (mid ++ [125]) : Bytes).length - 1)).drop 2 = mid := by
  have e : (36 :: 123 :: (mid ++ [125]) : Bytes) = (36 :: 123 :: mid) ++ [125] := by simp
  have hl : ((36 :: 123 :: mid) ++ [125] : Bytes).length - 1 = (36 :: 123 :: mid : Bytes).length := by
    simp
  rw [e, hl, List.take_left]
  rfl

/-- The result -1 of `IndexByte` for a byte that does not occur. -/
theorem IndexByte_none (content : Bytes) (c : Byte) (h : c ∉ content) :
    IndexByte content c = none := by
  simp [IndexByte, List.indexOf_of_not_mem h]

/-- The result of `IndexByte` for the first occurrence of a byte. -/
theorem IndexByte_some (x y : Bytes) (c : Byte) (h : c ∉ x) :
    IndexByte (x ++ c :: y) c = some x.length := by
  have : List.indexOf c (x ++ c :: y) = x.length := by
    rw [List.indexOf_append_of_not_mem h, List.indexOf_cons_self]; rfl
  simp [IndexByte, this]

/-- The callback on a placeholder without a default. -/
theorem envReplace_plain (env : Env) (strict : Bool) (name : Bytes) (hne : name ≠ [])
    (hcolon : (58 : Byte) ∉ name) :
    envReplace env strict (36 :: 123 :: (name ++ [125])) =
      match env name with
      | some value => some (escapeNewlines value)
      | none => if strict then none else some [] := by
  have hlen : (36 :: 123 :: (name ++ [125]) : Bytes).length > 3 := by
    have : 0 < name.length := List.length_pos.mpr hne
    simp only [List.length_cons, List.length_append, List.length_nil]; omega
  have hidx : IndexByte (36 :: 123 :: (name ++ [125])) 58 = none := by
    apply IndexByte_none
    simp only [List.mem_cons, List.mem_append, List.mem_singleton, List.not_mem_nil, or_false]
    intro h
    rcases h with h | h | h | h
    · exact absurd h (by decide)
    · exact absurd h (by decide)
    · exact hcolon h
    · exact absurd h (by decide)
  unfold envReplace
  rw [if_pos hlen, hidx]
  simp only [inner_of_braced]
  cases env name <;> rfl

/-- The callback on a placeholder with a default. -/
theorem envReplace_default (env : Env) (strict : Bool) (name d : Bytes)
    (hcolon : (58 : Byte) ∉ name) :
    envReplace env strict (36 :: 123 :: (name ++ 58 :: (d ++ [125]))) =
      some (escapeNewlines (if (env name).getD [] = [] then d else (env name).getD [])) := by
  have hlen : (36 :: 123 :: (name ++ 58 :: (d ++ [125])) : Bytes).length > 3 := by
    simp only [List.length_cons, List.length_append, List.length_nil]; omega
  have e : (36 :: 123 :: (name ++ 58 :: (d ++ [125])) : Bytes)
      = (36 :: 123 :: name) ++ 58 :: (d ++ [125]) := by simp
  have hidx : IndexByte (36 :: 123 :: (name ++ 58 :: (d ++ [125]))) 58
      = some (36 :: 123 :: name : Bytes).length := by
    rw [e]
    apply IndexByte_some
    simp only [List.mem_cons, not_or]
    exact ⟨by decide, by decide, hcolon⟩
  have ht : ((36 :: 123 :: (name ++ 58 :: (d ++ [125])) : Bytes).take
      (36 :: 123 :: name : Bytes).length).drop 2 = name := by
    rw [e, List.take_left]; rfl
  have hd : ((36 :: 123 :: (name ++ 58 :: (d ++ [125])) : Bytes).take
      ((36 :: 123 :: (name ++ 58 :: (d ++ [125])) : Bytes).length - 1)).drop
        ((36 :: 123 :: name : Bytes).length + 1) = d := by
    have e2 : (36 :: 123 :: (name ++ 58 :: (d ++ [125])) : Bytes)
        = ((36 :: 123 :: name ++ [58]) ++ d) ++ [125] := by simp
    have hl : (((36 :: 123 :: name ++ [58]) ++ d) ++ [125] : Bytes).length - 1
        = ((36 :: 123 :: name ++ [58]) ++ d : Bytes).length := by
      simp only [List.length_cons, List.length_append, List.length_nil]; omega
    have hl2 : (36 :: 123 :: name : Bytes).length + 1 = (36 :: 123 :: name ++ [58] : Bytes).length := by
      simp
    rw [e2, hl, List.take_left, hl2, List.drop_left]
  unfold envReplace
  rw [if_pos hlen, hidx]
  simp only [ht, hd]

/-- The expanded template drops the opening brace behind the dollar sign and the last closing
brace. -/
theorem expandEscaped_braced (mid : Bytes) :
    expandEscaped (36 :: 123 :: (mid ++ [125])) = 36 :: mid := by
  rw [expandEscaped, inner_of_braced]

/-! ## The two passes on a placeholder in plain text -/

/-- A text without a dollar sign is without `${`. -/
theorem noDB_of_no_dollar (x : Bytes) (h : ∀ c ∈ x, c ≠ 36) : noDB x = true := by
  induction x with
  | nil => rfl
  | cons c t ih =>
    rw [noDB_cons]
    exact ⟨fun hh => h c (List.mem_cons_self _ _) hh.1,
      ih (fun y hy => h y (List.mem_cons_of_mem _ hy))⟩

/-- Two texts without `${` join to one without `${` when the second does not begin with an
opening brace. -/
theorem noDB_append (x y : Bytes) (hx : noDB x = true) (hy : noDB y = true)
    (hseam : y.head? ≠ some 123) : noDB (x ++ y) = true := by
  induction x with
  | nil => exact hy
  | cons c t ih =>
    rw [noDB_cons] at hx
    rw [List.cons_append, noDB_cons]
    refine ⟨fun hh => ?_, ih hx.2⟩
    cases t with
    | nil => exact hseam (by simpa using hh.2)
    | cons b u => exact hx.1 ⟨hh.1, by simpa using hh.2⟩

/-- The bytes of `${NAME:d}` one after the other. -/
theorem withDefault_eq (name d : Bytes) :
    withDefault name d = 36 :: 123 :: (name ++ 58 :: (d ++ [125])) := by
  simp [withDefault]

/-- The bytes of `${NAME}` one after the other. -/
theorem withoutDefault_eq (name : Bytes) :
    withoutDefault name = 36 :: 123 :: (name ++ [125]) := by
  simp [withoutDefault]

/-- The bytes of `${{NAME:d}}` one after the other. -/
theorem doubled_eq (name d : Bytes) :
    doubled name d = 36 :: 123 :: 123 :: (name ++ 58 :: (d ++ [125, 125])) := by
  simp [doubled]

/-- One placeholder between plain texts: the scan copies the text in front, replaces the
match and copies the text behind. -/
theorem ReplaceAllFunc_one (r : Re) (repl : Bytes → Option Bytes) (pre content post out : Bytes)
    (hpre : noDB pre = true) (hpost : noDB post = true)
    (hc : ∃ t, content = 36 :: t)
    (hfind : (Re.seq (lit 36) (Re.seq (lit 123) r)).find (content ++ post) = some post)
    (hrepl : repl content = some out) :
    ReplaceAllFunc (Re.seq (lit 36) (Re.seq (lit 123) r)) (pre ++ content ++ post) repl
      = some (pre ++ out ++ post) := by
  obtain ⟨t, ht⟩ := hc
  have hne : content ≠ [] := by rw [ht]; exact List.cons_ne_nil _ _
  rw [List.append_assoc, ReplaceAllFunc_plain r repl pre (content ++ post) hpre
    (by rw [ht]; simp),
    ReplaceAllFunc_match _ repl content post hne hfind, hrepl,
    ReplaceAllFunc_noDB r repl post hpost]
  simp

/-- The pattern `envRegex` does not match at a doubled opening brace. -/
theorem envRegex_find_doubled (t : Bytes) : envRegex.find (36 :: 123 :: 123 :: t) = none := by
  rw [Re.find, envRegex, ends_lit_seq, if_pos rfl, ends_lit_seq, if_pos rfl]
  have h : (Re.plus (Re.byte nameClass)).ends (123 :: t) = [] := by
    rw [Re.ends]
    apply iter_nil
    simp only [Re.ends]
    rfl
  rw [Re.ends, h]
  rfl

/-- Behind its dollar sign the doubled-brace form and a text without `${` hold no `${`. -/
theorem noDB_doubled_tail (name d post : Bytes) (hname : ∀ c ∈ name, nameClass c = true)
    (hd : noDB d = true) (hpost : noDB post = true) :
    noDB (123 :: 123 :: (name ++ 58 :: (d ++ [125, 125])) ++ post) = true := by
  have h1 : noDB (125 :: 125 :: post) = true := by
    rw [noDB_cons, noDB_cons]
    exact ⟨fun hh => absurd hh.1 (by decide), fun hh => absurd hh.1 (by decide), hpost⟩
  have h2 : noDB (d ++ 125 :: 125 :: post) = true :=
    noDB_append d _ hd h1 (by simp)
  have h3 : noDB (58 :: (d ++ 125 :: 125 :: post)) = true := by
    rw [noDB_cons]
    exact ⟨fun hh => absurd hh.1 (by decide), h2⟩
  have h4 : noDB (name ++ 58 :: (d ++ 125 :: 125 :: post)) = true :=
    noDB_append name _ (noDB_of_no_dollar name (nameClass_not_dollar name hname)) h3 (by simp)
  have e : 123 :: 123 :: (name ++ 58 :: (d ++ [125, 125])) ++ post
      = 123 :: 123 :: (name ++ 58 :: (d ++ 125 :: 125 :: post)) := by simp
  rw [e, noDB_cons, noDB_cons]
  exact ⟨fun hh => absurd hh.1 (by decide), fun hh => absurd hh.1 (by decide), h4⟩

/-- A scan without a match copies the text. -/
theorem scanLoop_nil (re : Re) (repl : Bytes → Option Bytes) :
    ∀ n s, scanLoop re n s = [] → replaceLoop re repl n s = some s := by
  intro n
  induction n with
  | zero => intro s _; rfl
  | succ n ih =>
    intro s h
    cases s with
    | nil => rfl
    | cons c rest =>
      simp only [scanLoop] at h
      simp only [replaceLoop]
      cases hf : re.find (c :: rest) with
      | none =>
        rw [hf] at h
        simp only [ih rest h, Option.map_some']
      | some tail =>
        rw [hf] at h
        by_cases hl : tail.length < (c :: rest).length
        · simp only [hl, if_true] at h
          cases h
        · simp only [hl, if_false] at h
          simp only [hl, if_false, ih rest h, Option.map_some']

/-! ## The matches of the scan -/

/-- Every match of the scan is a match of the pattern at the head of some text, cut off where
the match ends. -/
theorem scanLoop_mem (re : Re) :
    ∀ n s content, content ∈ scanLoop re n s →
      ∃ s' tail, re.find s' = some tail ∧ tail.length < s'.length ∧
        content = s'.take (s'.length - tail.length) := by
  intro n
  induction n with
  | zero => intro s content h; simp [scanLoop] at h
  | succ n ih =>
    intro s content h
    cases s with
    | nil => simp [scanLoop] at h
    | cons c rest =>
      simp only [scanLoop] at h
      cases hf : re.find (c :: rest) with
      | none =>
        rw [hf] at h
        exact ih rest content h
      | some tail =>
        rw [hf] at h
        by_cases hl : tail.length < (c :: rest).length
        · simp only [hl, if_true, List.mem_cons] at h
          rcases h with h | h
          · exact ⟨c :: rest, tail, hf, hl, h⟩
          · exact ih tail content h
        · simp only [hl, if_false] at h
          exact ih rest content h

/-- A text is what is in front of a suffix followed by the suffix. -/
theorem take_of_suffix (s tail : Bytes) (h : tail <:+ s) :
    s.take (s.length - tail.length) ++ tail = s := by
  obtain ⟨t, ht⟩ := h
  subst ht
  have : (t ++ tail).length - tail.length = t.length := by
    simp only [List.length_append]; omega
  rw [this, List.take_left]

/-- Every match of `envRegex` is `${`, a non-empty middle and a closing brace. -/
theorem envRegex_shape (s tail : Bytes) (h : envRegex.find s = some tail) :
    ∃ mid, mid ≠ [] ∧ s = 36 :: 123 :: (mid ++ 125 :: tail) := by
  have hm := find_mem _ _ _ h
  cases s with
  | nil => simp [envRegex, ends_lit_seq_nil] at hm
  | cons a s1 =>
    rw [envRegex, ends_lit_seq] at hm
    by_cases ha : a = 36
    · rw [if_pos ha] at hm
      cases s1 with
      | nil => simp [ends_lit_seq_nil] at hm
      | cons b s2 =>
        rw [ends_lit_seq] at hm
        by_cases hb : b = 123
        · rw [if_pos hb] at hm
          simp only [Re.ends, List.mem_flatMap] at hm
          obtain ⟨m1, hm1, m2, hm2, hm3⟩ := hm
          have h1 := ends_minLen (Re.plus (Re.byte nameClass)) s2 m1 (by simpa [Re.ends] using hm1)
          have h1s := ends_suffix (Re.plus (Re.byte nameClass)) s2 m1 (by simpa [Re.ends] using hm1)
          have h2s := ends_suffix defaultPart m1 m2 (by simpa [defaultPart, Re.ends] using hm2)
          have h3 : m2 = 125 :: tail := by
            cases m2 with
            | nil => simp [lit, Re.ends] at hm3
            | cons x t =>
              by_cases hx : x = 125
              · simp only [lit, Re.ends, hx, decide_True, if_true, List.mem_singleton] at hm3
                rw [hx, hm3]
              · simp [lit, Re.ends, hx] at hm3
          obtain ⟨mid, hmid⟩ := h2s.trans h1s
          refine ⟨mid, ?_, ?_⟩
          · intro hnil
            subst hnil
            have hl2 := h2s.length_le
            simp only [List.nil_append] at hmid
            rw [← hmid] at h1
            simp only [Re.minLen] at h1
            omega
          · rw [ha, hb, ← hmid, h3]
        · simp [hb] at hm
    · simp [ha] at hm

/-- Every match that the scan hands to the callback is `${`, a non-empty middle and a closing
brace. -/
theorem envRegex_match (input content : Bytes) (h : content ∈ FindAll envRegex input) :
    ∃ mid, mid ≠ [] ∧ content = 36 :: 123 :: (mid ++ [125]) := by
  obtain ⟨s, tail, hf, hl, hc⟩ := scanLoop_mem envRegex _ _ _ h
  obtain ⟨mid, hmid, hs⟩ := envRegex_shape s tail hf
  refine ⟨mid, hmid, ?_⟩
  have e : s = (36 :: 123 :: (mid ++ [125])) ++ tail := by rw [hs]; simp
  have hlen : s.length - tail.length = (36 :: 123 :: (mid ++ [125]) : Bytes).length := by
    rw [e]; simp only [List.length_append]; omega
  rw [hc, hlen, e, List.take_left]

/-- The function `IndexByte` finds a byte that occurs. -/
theorem IndexByte_mem (content : Bytes) (c : Byte) (h : c ∈ content) :
    ∃ i, IndexByte content c = some i := by
  have := List.indexOf_lt_length.mpr h
  refine ⟨List.indexOf c content, ?_⟩
  simp only [IndexByte, this, if_true]

/-- The escaped value holds no line feed. -/
theorem escapeNewlines_no_newline (value : Bytes) : ∀ c ∈ escapeNewlines value, c ≠ 10 := by
  intro c hc
  simp only [escapeNewlines, List.mem_flatMap] at hc
  obtain ⟨a, _, hca⟩ := hc
  by_cases ha : a = 10
  · simp only [ha, if_true, List.mem_cons, List.mem_singleton, List.not_mem_nil, or_false] at hca
    rcases hca with h | h <;> (rw [h]; decide)
  · simp only [ha, if_false, List.mem_singleton] at hca
    rw [hca]; exact ha

/-- On a match the callback returns the selected value with its line feeds escaped, or panics
in strict mode. -/
theorem envReplace_selected (env : Env) (strict : Bool) (content : Bytes)
    (hlen : content.length > 3) :
    envReplace env strict content = some (escapeNewlines (selectedValue env content)) ∨
    (strict = true ∧ envReplace env strict content = none) := by
  unfold envReplace selectedValue
  rw [if_pos hlen]
  cases hi : IndexByte content 58 with
  | none =>
    cases he : env ((content.take (content.length - 1)).drop 2) with
    | none =>
      cases strict
      · left; simp
      · right; simp
    | some value => left; simp
  | some idx => left; rfl

/-- What the callback returns holds no line feed. -/
theorem envReplace_keeps (env : Env) (strict : Bool) (content r : Bytes)
    (h : envReplace env strict content = some r) : ∀ c ∈ r, c ≠ 10 := by
  by_cases hlen : content.length > 3
  · rcases envReplace_selected env strict content hlen with h1 | ⟨_, h1⟩
    · rw [h1, Option.some.injEq] at h
      rw [← h]
      exact escapeNewlines_no_newline _
    · rw [h1] at h; cases h
  · unfold envReplace at h
    rw [if_neg hlen, Option.some.injEq] at h
    rw [← h]
    intro c hc
    cases hc

/-- The callback does not panic in non-strict mode. -/
theorem envReplace_lenient (env : Env) (content : Bytes) : envReplace env false content ≠ none := by
  by_cases hlen : content.length > 3
  · rcases envReplace_selected env false content hlen with h1 | ⟨h0, _⟩
    · rw [h1]; exact Option.some_ne_none _
    · cases h0
  · unfold envReplace
    rw [if_neg hlen]
    exact Option.some_ne_none _

/-- In strict mode the callback panics on `${mid}` exactly when `mid` holds no colon and names an
unset variable. -/
theorem envReplace_strict_none (env : Env) (mid : Bytes) (hmid : mid ≠ []) :
    envReplace env true (36 :: 123 :: (mid ++ [125])) = none ↔ (58 : Byte) ∉ mid ∧ env mid = none := by
  by_cases hc : (58 : Byte) ∈ mid
  · have hlen : (36 :: 123 :: (mid ++ [125]) : Bytes).length > 3 := by
      have : 0 < mid.length := List.length_pos.mpr hmid
      simp only [List.length_cons, List.length_append, List.length_nil]; omega
    obtain ⟨i, hi⟩ := IndexByte_mem (36 :: 123 :: (mid ++ [125])) 58
      (by simp only [List.mem_cons, List.mem_append]; right; right; left; exact hc)
    constructor
    · intro h
      unfold envReplace at h
      rw [if_pos hlen, hi] at h
      cases h
    · intro h; exact absurd hc h.1
  · rw [envReplace_plain env true mid hmid hc]
    cases he : env mid with
    | none => simp [hc]
    | some v => simp

/-- The doubled-brace pass never panics. -/
theorem pass2_some (src : Bytes) :
    ReplaceAllFunc escapedEnvRegex src (fun content => some (expandEscaped content)) ≠ none := by
  intro h
  obtain ⟨content, _, hc⟩ := (replaceLoop_none_iff _ _ _ _).mp h
  cases hc

/-! ## The escaping, and the shape of a match, in full -/

/-- The call `strings.ReplaceAll(value, "\n", "\\n")` does what the specification says: every
line feed becomes a backslash and the letter n, every other byte stays. -/
theorem escapeNewlines_eq (value : Bytes) : escapeNewlines value = backslashN value := by
  induction value with
  | nil => rfl
  | cons c rest ih =>
    have h : escapeNewlines (c :: rest)
        = (if c = 10 then [92, 110] else [c]) ++ escapeNewlines rest := by
      simp [escapeNewlines]
    rw [h, ih, backslashN]
    by_cases hc : c = 10 <;> simp [hc]

/-- What the name loop consumes is a non-empty run of bytes of the name class. -/
theorem iter_name_mem :
    ∀ n s r, r ∈ Re.iter (Re.byte nameClass).ends n s →
      ∃ name, name ≠ [] ∧ (∀ c ∈ name, nameClass c = true) ∧ s = name ++ r := by
  intro n
  induction n with
  | zero => intro s r h; simp [Re.iter] at h
  | succ n ih =>
    intro s r h
    simp only [Re.iter, List.mem_flatMap, List.mem_append, List.mem_singleton] at h
    obtain ⟨m, hm, hr⟩ := h
    cases s with
    | nil => simp [Re.ends] at hm
    | cons c t =>
      by_cases hc : nameClass c = true
      · simp only [Re.ends, hc, if_true, List.mem_singleton] at hm
        subst hm
        rcases hr with hr | hr
        · obtain ⟨name, _, hname, he⟩ := ih m r hr
          refine ⟨c :: name, List.cons_ne_nil _ _, ?_, by rw [he]; rfl⟩
          intro x hx
          rcases List.mem_cons.mp hx with hx | hx
          · rw [hx]; exact hc
          · exact hname x hx
        · subst hr
          refine ⟨[c], List.cons_ne_nil _ _, ?_, rfl⟩
          intro x hx
          rw [List.mem_singleton.mp hx]; exact hc
      · simp [Re.ends, hc] at hm

/-- The optional default either matches nothing or begins at a colon. -/
theorem defaultPart_mem (m1 m2 : Bytes) (h : m2 ∈ defaultPart.ends m1) :
    m2 = m1 ∨ ∃ t, m1 = 58 :: t := by
  rw [defaultPart, Re.ends, List.mem_append, List.mem_singleton] at h
  rcases h with h | h
  · right
    cases m1 with
    | nil => rw [ends_lit_seq_nil] at h; cases h
    | cons x t =>
      rw [ends_lit_seq] at h
      by_cases hx : x = 58
      · exact ⟨t, by rw [hx]⟩
      · rw [if_neg hx] at h; cases h
  · left; exact h

/-- Every match of `envRegex` is `${`, a name, nothing or a colon and more, and a closing
brace. -/
theorem envRegex_shape_full (s tail : Bytes) (h : envRegex.find s = some tail) :
    ∃ name rest, name ≠ [] ∧ (∀ c ∈ name, nameClass c = true) ∧
      s = 36 :: 123 :: (name ++ rest ++ 125 :: tail) ∧ (rest = [] ∨ ∃ t, rest = 58 :: t) := by
  have hm := find_mem _ _ _ h
  cases s with
  | nil => simp [envRegex, ends_lit_seq_nil] at hm
  | cons a s1 =>
    rw [envRegex, ends_lit_seq] at hm
    by_cases ha : a = 36
    · rw [if_pos ha] at hm
      cases s1 with
      | nil => simp [ends_lit_seq_nil] at hm
      | cons b s2 =>
        rw [ends_lit_seq] at hm
        by_cases hb : b = 123
        · rw [if_pos hb] at hm
          rw [Re.ends, List.mem_flatMap] at hm
          obtain ⟨m1, hm1, hm⟩ := hm
          rw [Re.ends, List.mem_flatMap] at hm
          obtain ⟨m2, hm2, hm3⟩ := hm
          rw [Re.ends] at hm1
          obtain ⟨name, hne, hname, hs2⟩ := iter_name_mem _ _ _ hm1
          have h2s := ends_suffix defaultPart m1 m2 hm2
          have h3 : m2 = 125 :: tail := by
            rw [ends_lit] at hm3
            cases m2 with
            | nil => cases hm3
            | cons x t =>
              by_cases hx : x = 125
              · simp only [hx, if_true, List.mem_singleton] at hm3
                rw [hx, hm3]
              · simp only [hx, if_false] at hm3
                cases hm3
          obtain ⟨rest, hrest⟩ := h2s
          refine ⟨name, rest, hne, hname, ?_, ?_⟩
          · rw [ha, hb, hs2, ← hrest, h3, List.append_assoc]
          · rcases defaultPart_mem m1 m2 hm2 with h4 | ⟨t, h4⟩
            · left
              have : (rest ++ m2).length = m2.length := by rw [hrest, h4]
              simp only [List.length_append] at this
              exact List.eq_nil_of_length_eq_zero (by omega)
            · right
              cases rest with
              | nil =>
                rw [List.nil_append, h3] at hrest
                rw [h4] at hrest
                simp only [List.cons.injEq] at hrest
                exact absurd hrest.1 (by decide)
              | cons x t' =>
                rw [h4] at hrest
                simp only [List.cons_append, List.cons.injEq] at hrest
                exact ⟨t', by rw [hrest.1]⟩
        · simp [hb] at hm
    · simp [ha] at hm

/-- Every match of the scan is a match of the pattern at the head of a suffix of the
text, cut off where the match ends. -/
theorem scanLoop_mem_suffix (re : Re) :
    ∀ n s content, content ∈ scanLoop re n s →
      ∃ s' tail, s' <:+ s ∧ re.find s' = some tail ∧ tail.length < s'.length ∧
        content = s'.take (s'.length - tail.length) := by
  intro n
  induction n with
  | zero => intro s content h; simp [scanLoop] at h
  | succ n ih =>
    intro s content h
    cases s with
    | nil => simp [scanLoop] at h
    | cons c rest =>
      simp only [scanLoop] at h
      have hrest : ∀ content, content ∈ scanLoop re n rest →
          ∃ s' tail, s' <:+ c :: rest ∧ re.find s' = some tail ∧ tail.length < s'.length ∧
            content = s'.take (s'.length - tail.length) := by
        intro content hc
        obtain ⟨s', tail, h1, h2⟩ := ih rest content hc
        exact ⟨s', tail, h1.trans (List.suffix_cons c rest), h2⟩
      cases hf : re.find (c :: rest) with
      | none =>
        rw [hf] at h
        exact hrest content h
      | some tail =>
        rw [hf] at h
        by_cases hl : tail.length < (c :: rest).length
        · simp only [hl, if_true, List.mem_cons] at h
          rcases h with h | h
          · exact ⟨c :: rest, tail, List.suffix_refl _, hf, hl, h⟩
          · obtain ⟨s', t2, h1, h2⟩ := ih tail content h
            exact ⟨s', t2, h1.trans (ends_suffix re _ _ (find_mem re _ _ hf)), h2⟩
        · simp only [hl, if_false] at h
          exact hrest content h

/-- Every match that the scan hands to the callback stands in the input and is `${`, a name,
nothing or a colon and more, and a closing brace. -/
theorem envRegex_match_full (input content : Bytes) (h : content ∈ FindAll envRegex input) :
    ∃ name rest, name ≠ [] ∧ (∀ c ∈ name, nameClass c = true) ∧
      content = 36 :: 123 :: (name ++ rest ++ [125]) ∧ (rest = [] ∨ ∃ t, rest = 58 :: t) ∧
      content <:+: input := by
  obtain ⟨s, tail, hsuf, hf, hl, hc⟩ := scanLoop_mem_suffix envRegex _ _ _ h
  obtain ⟨name, rest, hne, hname, hs, hrest⟩ := envRegex_shape_full s tail hf
  have e : s = (36 :: 123 :: (name ++ rest ++ [125])) ++ tail := by rw [hs]; simp
  have hlen : s.length - tail.length = (36 :: 123 :: (name ++ rest ++ [125]) : Bytes).length := by
    rw [e]; simp only [List.length_append]; omega
  have hcont : content = 36 :: 123 :: (name ++ rest ++ [125]) := by
    rw [hc, hlen, e, List.take_left]
  refine ⟨name, rest, hne, hname, hcont, hrest, ?_⟩
  rw [hcont]
  exact (List.prefix_append _ tail).isInfix.trans (by rw [← e]; exact hsuf.isInfix)

/-! ## Facts about `ProcessMessage` on part objects -/

/-- Setting a part changes no length of the memory. -/
theorem Batch.Set_length (mem : Memory) (b : Batch) (s : Slot) (bytes : Bytes) :
    (Batch.Set mem b s bytes).cells.length = mem.cells.length := by
  cases s with
  | held k =>
    cases h : b.refs[k]? with
    | none => simp only [Batch.Set, h]
    | some a => simp only [Batch.Set, h, List.length_set]
  | detached _ => rfl

/-- Setting a part of a batch leaves every part object alone that the batch does not hold. -/
theorem Batch.Set_getD (mem : Memory) (b : Batch) (s : Slot) (bytes : Bytes) (a : Nat)
    (ha : a ∉ b.refs) :
    (Batch.Set mem b s bytes).cells.getD a [] = mem.cells.getD a [] := by
  cases s with
  | held k =>
    cases h : b.refs[k]? with
    | none => simp only [Batch.Set, h]
    | some r =>
      have hr : r ∈ b.refs := List.getElem?_mem h
      have hne : r ≠ a := by
        intro e; rw [e] at hr; exact ha hr
      simp only [Batch.Set, h, List.getD_eq_getElem?_getD, List.getElem?_set, hne, if_false]
  | detached _ => rfl

/-- The success branch of `proc` on part objects. -/
theorem procMem_ok (impl : Outside) (c : Encode) (st : MemRun) (i : Int) (y : Bytes)
    (h : c.fn (Part.Get (st.msg.view st.mem) ((st.msg.view st.mem).Get impl i)) = Except.ok y) :
    c.procMem impl st i =
      { st with
        stats := { st.stats with mSucc := st.stats.mSucc + 1 }
        mem := Batch.Set st.mem st.newMsg ((st.newMsg.view st.mem).Get impl i) y } := by
  simp only [Encode.procMem, h]

/-- The failure branch of `proc` on part objects. -/
theorem procMem_error (impl : Outside) (c : Encode) (st : MemRun) (i : Int) (err : String)
    (h : c.fn (Part.Get (st.msg.view st.mem) ((st.msg.view st.mem).Get impl i))
      = Except.error err) :
    c.procMem impl st i =
      { st with
        log := st.log ++ ["Failed to encode message part: " ++ err ++ "\n"]
        stats := { st.stats with mErr := st.stats.mErr + 1 } } := by
  simp only [Encode.procMem, h]

/-- One step of the loop on part objects keeps the two batches and the size of the memory
and leaves every part object alone that the working copy does not hold. -/
theorem procMem_frame (impl : Outside) (c : Encode) (st : MemRun) (i : Int) :
    (c.procMem impl st i).msg = st.msg ∧
    (c.procMem impl st i).newMsg = st.newMsg ∧
    (c.procMem impl st i).mem.cells.length = st.mem.cells.length ∧
    ∀ a, a ∉ st.newMsg.refs →
      (c.procMem impl st i).mem.cells.getD a [] = st.mem.cells.getD a [] := by
  cases h : c.fn (Part.Get (st.msg.view st.mem) ((st.msg.view st.mem).Get impl i)) with
  | ok y =>
    rw [procMem_ok impl c st i y h]
    exact ⟨rfl, rfl, Batch.Set_length _ _ _ _, fun a ha => Batch.Set_getD _ _ _ _ a ha⟩
  | error err =>
    rw [procMem_error impl c st i err h]
    exact ⟨rfl, rfl, rfl, fun _ _ => rfl⟩

/-- The loop on part objects keeps the two batches and the size of the memory and leaves
every part object alone that the working copy does not hold. -/
theorem foldMem_frame (impl : Outside) (c : Encode) (is : List Int) :
    ∀ st : MemRun,
      (is.foldl (c.procMem impl) st).msg = st.msg ∧
      (is.foldl (c.procMem impl) st).newMsg = st.newMsg ∧
      (is.foldl (c.procMem impl) st).mem.cells.length = st.mem.cells.length ∧
      ∀ a, a ∉ st.newMsg.refs →
        (is.foldl (c.procMem impl) st).mem.cells.getD a [] = st.mem.cells.getD a [] := by
  induction is with
  | nil => intro st; exact ⟨rfl, rfl, rfl, fun _ _ => rfl⟩
  | cons i rest ih =>
    intro st
    have h1 := procMem_frame impl c st i
    have h := ih (c.procMem impl st i)
    simp only [List.foldl_cons]
    refine ⟨h.1.trans h1.1, h.2.1.trans h1.2.1, h.2.2.1.trans h1.2.2.1, ?_⟩
    intro a ha
    rw [h.2.2.2 a (by rw [h1.2.1]; exact ha), h1.2.2.2 a ha]

/-- The parts of the copy are new part objects. -/
theorem Copy_fresh (mem : Memory) (b : Batch) :
    ∀ a ∈ (b.Copy mem).2.refs, mem.cells.length ≤ a ∧ a < (b.Copy mem).1.cells.length := by
  intro a ha
  simp only [Batch.Copy, List.mem_map, List.mem_range] at ha
  obtain ⟨k, hk, rfl⟩ := ha
  simp only [Batch.Copy, Batch.view, List.length_append, List.length_map]
  omega

/-- Copying leaves every part object that existed as it was. -/
theorem Copy_getD (mem : Memory) (b : Batch) (a : Nat) (ha : a < mem.cells.length) :
    (b.Copy mem).1.cells.getD a [] = mem.cells.getD a [] := by
  simp only [Batch.Copy, List.getD_eq_getElem?_getD, List.getElem?_append_left ha]


/-- Writing a part object leaves the contents of a batch alone that does not hold it. -/
theorem view_set_other (mem : Memory) (b : Batch) (r : Nat) (y : Bytes)
    (h : ∀ a ∈ b.refs, a ≠ r) : b.view ⟨mem.cells.set r y⟩ = b.view mem := by
  unfold Batch.view
  congr 1
  apply List.map_congr_left
  intro a ha
  have hne : r ≠ a := fun e => h a ha e.symm
  simp only [List.getD_eq_getElem?_getD, List.getElem?_set, hne, if_false]

/-- Writing the part object at position `k` of a batch of distinct parts sets position `k`
of its contents. -/
theorem view_set_held (mem : Memory) (b : Batch) (k r : Nat) (y : Bytes)
    (hnd : b.refs.Nodup) (hlt : ∀ a ∈ b.refs, a < mem.cells.length)
    (hk : b.refs[k]? = some r) :
    b.view ⟨mem.cells.set r y⟩ = ⟨(b.view mem).parts.set k y⟩ := by
  unfold Batch.view
  congr 1
  apply List.ext_getElem?
  intro j
  obtain ⟨hkl, hkr⟩ := List.getElem?_eq_some_iff.mp hk
  have hr : r < mem.cells.length := hlt r (List.getElem?_mem hk)
  rw [List.getElem?_set, List.getElem?_map, List.getElem?_map]
  by_cases hjk : k = j
  · subst hjk
    simp only [hk, Option.map_some', List.length_map, hkl, if_true,
      List.getD_eq_getElem?_getD, List.getElem?_set, hr, Option.getD_some]
  · simp only [hjk, if_false]
    cases hj : b.refs[j]? with
    | none => rfl
    | some a =>
      obtain ⟨hjl, hja⟩ := List.getElem?_eq_some_iff.mp hj
      have hne : r ≠ a := by
        intro e
        apply hjk
        have : b.refs[k] = b.refs[j] := by rw [hkr, hja, e]
        exact (List.Nodup.getElem_inj_iff hnd).mp this
      simp only [Option.map_some', List.getD_eq_getElem?_getD, List.getElem?_set, hne, if_false]

/-- One step on part objects stays in step with one step on contents. -/
theorem procMem_tracks (impl : Outside) (c : Encode) (L : Nat) (st : MemRun) (r : Run)
    (i : Int) (h : tracks L st r) : tracks L (c.procMem impl st i) (c.proc impl r i) := by
  obtain ⟨hmsg, hnew, hnd, hvm, hvn, hs, hl⟩ := h
  have hread : Part.Get (st.msg.view st.mem) ((st.msg.view st.mem).Get impl i)
      = Part.Get r.msg (r.msg.Get impl i) := by rw [hvm]
  cases hfn : c.fn (Part.Get r.msg (r.msg.Get impl i)) with
  | ok y =>
    rw [procMem_ok impl c st i y (by rw [hread]; exact hfn), proc_ok impl c r i y hfn]
    have hlen := Batch.Set_length st.mem st.newMsg ((st.newMsg.view st.mem).Get impl i) y
    refine ⟨hmsg, fun a ha => ⟨(hnew a ha).1, by rw [hlen]; exact (hnew a ha).2⟩, hnd, ?_, ?_,
      by simp only [hs], hl⟩
    · show st.msg.view (Batch.Set st.mem st.newMsg ((st.newMsg.view st.mem).Get impl i) y) = r.msg
      rw [← hvm]
      cases hslot : (st.newMsg.view st.mem).Get impl i with
      | detached _ => rfl
      | held k =>
        cases hk : st.newMsg.refs[k]? with
        | none => simp only [Batch.Set, hk]
        | some a =>
          simp only [Batch.Set, hk]
          apply view_set_other
          intro x hx e
          have h1 := hmsg x hx
          have h2 := (hnew a (List.getElem?_mem hk)).1
          omega
    · show st.newMsg.view (Batch.Set st.mem st.newMsg ((st.newMsg.view st.mem).Get impl i) y)
          = Part.Set r.newMsg (r.newMsg.Get impl i) y
      rw [← hvn]
      cases hslot : (st.newMsg.view st.mem).Get impl i with
      | detached _ => rfl
      | held k =>
        cases hk : st.newMsg.refs[k]? with
        | none =>
          simp only [Batch.Set, hk, Part.Set]
          have hle : (st.newMsg.view st.mem).parts.length ≤ k := by
            simp only [Batch.view, List.length_map]
            exact List.getElem?_eq_none_iff.mp hk
          rw [List.set_eq_of_length_le hle]
        | some a =>
          simp only [Batch.Set, hk, Part.Set]
          exact view_set_held st.mem st.newMsg k a y hnd (fun x hx => (hnew x hx).2) hk
  | error err =>
    rw [procMem_error impl c st i err (by rw [hread]; exact hfn), proc_error impl c r i err hfn]
    exact ⟨hmsg, hnew, hnd, hvm, hvn, by simp only [hs], by simp only [hl]⟩

/-- The loop on part objects stays in step with the loop on contents. -/
theorem foldMem_tracks (impl : Outside) (c : Encode) (L : Nat) (is : List Int) :
    ∀ (st : MemRun) (r : Run), tracks L st r →
      tracks L (is.foldl (c.procMem impl) st) (is.foldl (c.proc impl) r) := by
  induction is with
  | nil => intro st r h; exact h
  | cons i rest ih =>
    intro st r h
    exact ih _ _ (procMem_tracks impl c L st r i h)

/-- After `msg.Copy()` the call on part objects is in step with the call on contents. -/
theorem Copy_tracks (mem : Memory) (B : Batch) (stats : Stats) (log : List String)
    (hB : ∀ a ∈ B.refs, a < mem.cells.length) :
    tracks mem.cells.length
      { mem := (B.Copy mem).1, msg := B, newMsg := (B.Copy mem).2, stats := stats, log := log }
      { msg := B.view mem, newMsg := (B.view mem).Copy, stats := stats, log := log } := by
  refine ⟨hB, Copy_fresh mem B, ?_, ?_, ?_, rfl, rfl⟩
  · simp only [Batch.Copy]
    exact (List.nodup_range _).map (fun x y hxy => by simpa using hxy)
  · simp only [Batch.view, Batch.Copy]
    congr 1
    apply List.map_congr_left
    intro a ha
    simp only [List.getD_eq_getElem?_getD, List.getElem?_append_left (hB a ha)]
  · simp only [Batch.view, Batch.Copy, Message.Copy]
    congr 1
    apply List.ext_getElem?
    intro j
    simp only [List.getElem?_map]
    by_cases hj : j < B.refs.length
    · simp only [List.getElem?_range hj, Option.map_some', List.getD_eq_getElem?_getD,
        List.getElem?_append_right (Nat.le_add_right _ _), Nat.add_sub_cancel_left,
        List.getElem?_map, List.getElem?_eq_getElem hj, Option.getD_some]
    · have h1 : (List.range B.refs.length)[j]? = none := by
        apply List.getElem?_eq_none_iff.mpr; simp only [List.length_range]; omega
      have h2 : B.refs[j]? = none := List.getElem?_eq_none_iff.mpr (by omega)
      simp only [h1, h2, Option.map_none']


/-- The exits of `ProcessMessage` on part objects hand back the memory and the incoming
batch of the loop, and no batch or the working copy. -/
theorem ProcessMessageMem_exits (impl : Outside) (c : Encode) (stats : Stats)
    (log : List String) (mem : Memory) (B : Batch) :
    (c.ProcessMessageMem impl stats log mem B).mem = (c.loopedMem impl stats log mem B).mem ∧
    (c.ProcessMessageMem impl stats log mem B).msg = (c.loopedMem impl stats log mem B).msg ∧
    ∀ out ∈ (c.ProcessMessageMem impl stats log mem B).msgs,
      out = (c.loopedMem impl stats log mem B).newMsg := by
  unfold Encode.ProcessMessageMem
  by_cases h0 : ((c.loopedMem impl stats log mem B).newMsg.view
      (c.loopedMem impl stats log mem B).mem).Len = 0
  · simp only [h0, if_true, List.not_mem_nil, false_implies, implies_true, and_self]
  · simp only [h0, if_false, List.mem_singleton, imp_self, implies_true, and_self]

/-- The acknowledging exit of `ProcessMessage` on part objects. -/
theorem ProcessMessageMem_skipped (impl : Outside) (c : Encode) (stats : Stats)
    (log : List String) (mem : Memory) (B : Batch)
    (h : ((c.loopedMem impl stats log mem B).newMsg.view
      (c.loopedMem impl stats log mem B).mem).Len = 0) :
    c.ProcessMessageMem impl stats log mem B =
      { msgs := [], res := some NewAck,
        stats := { (c.loopedMem impl stats log mem B).stats with
                   mSkipped := (c.loopedMem impl stats log mem B).stats.mSkipped + 1 },
        log := (c.loopedMem impl stats log mem B).log,
        mem := (c.loopedMem impl stats log mem B).mem,
        msg := (c.loopedMem impl stats log mem B).msg } := by
  simp only [Encode.ProcessMessageMem, h, if_true]

/-- The sending exit of `ProcessMessage` on part objects. -/
theorem ProcessMessageMem_sent (impl : Outside) (c : Encode) (stats : Stats)
    (log : List String) (mem : Memory) (B : Batch)
    (h : ¬ ((c.loopedMem impl stats log mem B).newMsg.view
      (c.loopedMem impl stats log mem B).mem).Len = 0) :
    c.ProcessMessageMem impl stats log mem B =
      { msgs := [(c.loopedMem impl stats log mem B).newMsg], res := none,
        stats := { (c.loopedMem impl stats log mem B).stats with
                   mSent := (c.loopedMem impl stats log mem B).stats.mSent + 1,
                   mSentParts := (c.loopedMem impl stats log mem B).stats.mSentParts
                     + ((c.loopedMem impl stats log mem B).newMsg.view
                         (c.loopedMem impl stats log mem B).mem).Len },
        log := (c.loopedMem impl stats log mem B).log,
        mem := (c.loopedMem impl stats log mem B).mem,
        msg := (c.loopedMem impl stats log mem B).msg } := by
  simp only [Encode.ProcessMessageMem, h, if_false]

/-- The call on part objects returns batches that hold in memory what the call on contents
returns, with the same response, counters and log. -/
theorem ProcessMessageMem_refines (impl : Outside) (c : Encode) (stats : Stats)
    (log : List String) (mem : Memory) (B : Batch)
    (hB : ∀ a ∈ B.refs, a < mem.cells.length) :
    (c.ProcessMessageMem impl stats log mem B).msgs.map
        (Batch.view (c.ProcessMessageMem impl stats log mem B).mem)
      = (c.ProcessMessage impl stats log (B.view mem)).msgs ∧
    (c.ProcessMessageMem impl stats log mem B).res
      = (c.ProcessMessage impl stats log (B.view mem)).res ∧
    (c.ProcessMessageMem impl stats log mem B).stats
      = (c.ProcessMessage impl stats log (B.view mem)).stats ∧
    (c.ProcessMessageMem impl stats log mem B).log
      = (c.ProcessMessage impl stats log (B.view mem)).log := by
  have ht := foldMem_tracks impl c mem.cells.length (c.targets (B.view mem)) _ _
    (Copy_tracks mem B { stats with mCount := stats.mCount + 1 } log hB)
  obtain ⟨_, _, _, _, hvn, hs, hl⟩ := ht
  have hvn' : (c.loopedMem impl stats log mem B).newMsg.view (c.loopedMem impl stats log mem B).mem
      = (c.looped impl stats log (B.view mem)).newMsg := hvn
  have hs' : (c.loopedMem impl stats log mem B).stats
      = (c.looped impl stats log (B.view mem)).stats := hs
  have hl' : (c.loopedMem impl stats log mem B).log
      = (c.looped impl stats log (B.view mem)).log := hl
  have hL := looped_Len impl c stats log (B.view mem)
  by_cases h0 : (B.view mem).Len = 0
  · have h1 : ((c.loopedMem impl stats log mem B).newMsg.view
        (c.loopedMem impl stats log mem B).mem).Len = 0 := by rw [hvn', hL, h0]
    rw [ProcessMessage_skipped impl c stats log _ h0,
      ProcessMessageMem_skipped impl c stats log mem B h1]
    refine ⟨rfl, rfl, ?_, hl'⟩
    show ({ (c.loopedMem impl stats log mem B).stats with
        mSkipped := (c.loopedMem impl stats log mem B).stats.mSkipped + 1 } : Stats) = _
    rw [hs']
  · have h1 : ¬ ((c.loopedMem impl stats log mem B).newMsg.view
        (c.loopedMem impl stats log mem B).mem).Len = 0 := by rw [hvn', hL]; exact h0
    rw [ProcessMessage_sent impl c stats log _ h0,
      ProcessMessageMem_sent impl c stats log mem B h1]
    refine ⟨?_, rfl, ?_, hl'⟩
    · show [(c.loopedMem impl stats log mem B).newMsg.view (c.loopedMem impl stats log mem B).mem]
          = [(c.looped impl stats log (B.view mem)).newMsg]
      rw [hvn']
    · show ({ (c.loopedMem impl stats log mem B).stats with
          mSent := (c.loopedMem impl stats log mem B).stats.mSent + 1,
          mSentParts := (c.loopedMem impl stats log mem B).stats.mSentParts
            + ((c.loopedMem impl stats log mem B).newMsg.view
                (c.loopedMem impl stats log mem B).mem).Len } : Stats) = _
      rw [hs', hvn']

/-! ## The claims on the codec, the counters and the input batch, continued -/

/-- C11: `base64Encode` returns a result and a nil error for every byte sequence, the empty one
included; it never fails. -/
theorem C11_base64_never_fails (b : Bytes) :
    (∃ out, base64Encode b = Except.ok out) ∧
    (∀ err, base64Encode b ≠ Except.error err) ∧
    base64Encode [] = Except.ok [] := by
  refine ⟨⟨_, base64Encode_eq b⟩, ?_, rfl⟩
  intro err h
  rw [base64Encode_eq] at h
  cases h

/-- C17: `ProcessMessage` leaves the incoming batch as it was. On part objects in memory, with
`Copy` making one new part object per part as the specification has it: after
the call the caller's batch holds the same part objects, every part object
that existed before the call holds the bytes it held, and so the batch's
contents are what they were; the batch that comes back is made of part objects
that the incoming batch does not hold, so setting any of its parts afterwards
still leaves the contents of the incoming batch as they were. -/
theorem C17_input_unchanged (impl : Outside) (c : Encode) (stats : Stats) (log : List String)
    (mem : Memory) (B : Batch) (hB : ∀ a ∈ B.refs, a < mem.cells.length) :
    (c.ProcessMessageMem impl stats log mem B).msg = B ∧
    (∀ a, a < mem.cells.length →
      (c.ProcessMessageMem impl stats log mem B).mem.cells.getD a [] = mem.cells.getD a []) ∧
    B.view (c.ProcessMessageMem impl stats log mem B).mem = B.view mem ∧
    ∀ out ∈ (c.ProcessMessageMem impl stats log mem B).msgs,
      (∀ a ∈ out.refs, a ∉ B.refs) ∧
      ∀ (s : Slot) (bytes : Bytes),
        B.view (Batch.Set (c.ProcessMessageMem impl stats log mem B).mem out s bytes)
          = B.view mem := by
  obtain ⟨hmem, hmsg, hout⟩ := ProcessMessageMem_exits impl c stats log mem B
  have hf := foldMem_frame impl c (c.targets (B.view mem))
    { mem := (B.Copy mem).1, msg := B, newMsg := (B.Copy mem).2,
      stats := { stats with mCount := stats.mCount + 1 }, log := log }
  have hfresh := Copy_fresh mem B
  have hnew : (c.loopedMem impl stats log mem B).newMsg = (B.Copy mem).2 := hf.2.1
  have hcell : ∀ a, a < mem.cells.length →
      (c.ProcessMessageMem impl stats log mem B).mem.cells.getD a [] = mem.cells.getD a [] := by
    intro a ha
    rw [hmem]
    have := hf.2.2.2 a (fun hin => by have := (hfresh a hin).1; omega)
    exact this.trans (Copy_getD mem B a ha)
  have hview : B.view (c.ProcessMessageMem impl stats log mem B).mem = B.view mem := by
    unfold Batch.view
    congr 1
    apply List.map_congr_left
    intro a ha
    exact hcell a (hB a ha)
  have hdisj : ∀ out ∈ (c.ProcessMessageMem impl stats log mem B).msgs,
      ∀ a ∈ out.refs, a ∉ B.refs := by
    intro out ho a ha hin
    rw [hout out ho, hnew] at ha
    have h1 := (hfresh a ha).1
    have h2 := hB a hin
    omega
  refine ⟨hmsg.trans hf.1, hcell, hview, fun out ho => ⟨hdisj out ho, fun s bytes => ?_⟩⟩
  rw [← hview]
  unfold Batch.view
  congr 1
  apply List.map_congr_left
  intro a ha
  exact Batch.Set_getD _ out s bytes a (fun hin => hdisj out ho a hin ha)

/-- The scenario of C17: the batch "abc", "", "xyz" at the addresses 0, 1, 2 through the default
base64 stage. -/
theorem C17_input_unchanged_witness :
    (∀ a ∈ (Batch.mk [0, 1, 2]).refs, a < (Memory.mk [ascii "abc", [], ascii "xyz"]).cells.length) ∧
    ((base64Stage []).ProcessMessageMem emptyOutside Stats.zero []
        ⟨[ascii "abc", [], ascii "xyz"]⟩ ⟨[0, 1, 2]⟩).msgs = [⟨[3, 4, 5]⟩] ∧
    (Batch.mk [0, 1, 2]).view ((base64Stage []).ProcessMessageMem emptyOutside Stats.zero []
        ⟨[ascii "abc", [], ascii "xyz"]⟩ ⟨[0, 1, 2]⟩).mem
      = ⟨[ascii "abc", [], ascii "xyz"]⟩ ∧
    (Batch.mk [3, 4, 5]).view ((base64Stage []).ProcessMessageMem emptyOutside Stats.zero []
        ⟨[ascii "abc", [], ascii "xyz"]⟩ ⟨[0, 1, 2]⟩).mem
      = ⟨[ascii "YWJj", [], ascii "eHl6"]⟩ :=
  ⟨by decide, by decide,
   (C17_input_unchanged emptyOutside (base64Stage []) Stats.zero []
      ⟨[ascii "abc", [], ascii "xyz"]⟩ ⟨[0, 1, 2]⟩ (by decide)).2.2.1,
   by decide⟩

/-- Were the working copy to hold the part objects of the incoming batch (no copy made), the
step of the loop would overwrite the part that the caller holds. -/
theorem shared_part_overwritten :
    (Batch.mk [0]).view
        ((base64Stage []).procMem emptyOutside
          { mem := ⟨[ascii "abc"]⟩, msg := ⟨[0]⟩, newMsg := ⟨[0]⟩, stats := Stats.zero, log := [] }
          0).mem
      = ⟨[ascii "YWJj"]⟩ := by
  decide

/-- C18: one call of `ProcessMessage` moves exactly one of "success" and "error", by 1, for
each target index, so together they grow by the number of target indices: the
part count of the batch when the configured list is empty, the length of the
list otherwise. For a stage built by `NewEncode` the whole growth is in
"success" and "error" stays as it was. (This holds whether or not the indices
are in range.) -/
theorem C18_success_error_counts (impl : Outside) (c : Encode) (stats : Stats)
    (log : List String) (B : Message) :
    ((c.ProcessMessage impl stats log B).stats.mSucc
        + (c.ProcessMessage impl stats log B).stats.mErr
      = stats.mSucc + stats.mErr + (c.targets B).length) ∧
    (c.conf.Parts = [] → (c.targets B).length = B.Len) ∧
    (c.conf.Parts ≠ [] → (c.targets B).length = c.conf.Parts.length) ∧
    (∀ (st : Run) (i : Int),
      ((c.proc impl st i).stats.mSucc = st.stats.mSucc + 1 ∧
        (c.proc impl st i).stats.mErr = st.stats.mErr) ∨
      ((c.proc impl st i).stats.mSucc = st.stats.mSucc ∧
        (c.proc impl st i).stats.mErr = st.stats.mErr + 1)) ∧
    (∀ conf, NewEncode conf = Except.ok c →
      (c.ProcessMessage impl stats log B).stats.mSucc = stats.mSucc + (c.targets B).length ∧
      (c.ProcessMessage impl stats log B).stats.mErr = stats.mErr) := by
  have hf := fold_frame impl c (c.targets B)
    { msg := B, newMsg := B.Copy, stats := { stats with mCount := stats.mCount + 1 }, log := log }
  refine ⟨?_, ?_, ?_, ?_, ?_⟩
  · by_cases h0 : B.Len = 0
    · rw [ProcessMessage_skipped impl c stats log B h0]; exact hf.2.2.2.2.2.2
    · rw [ProcessMessage_sent impl c stats log B h0]; exact hf.2.2.2.2.2.2
  · intro h
    rw [targets_all c B h]
    simp
  · intro h
    rw [targets_listed c B h]
  · intro st i
    cases h : c.fn (Part.Get st.msg (st.msg.Get impl i)) with
    | ok y => left; rw [proc_ok impl c st i y h]; exact ⟨rfl, rfl⟩
    | error err => right; rw [proc_error impl c st i err h]; exact ⟨rfl, rfl⟩
  · intro conf hc
    obtain ⟨_, hc⟩ := NewEncode_ok conf c hc
    subst hc
    exact ProcessMessage_base64_stats impl conf.Parts stats log B

/-- The scenario of C18: the batch "abc", "", "xyz" through the default base64 stage counts three
successes and no error. -/
theorem C18_success_error_counts_witness :
    ((base64Stage []).ProcessMessage emptyOutside Stats.zero []
        ⟨[ascii "abc", [], ascii "xyz"]⟩).stats.mSucc = 3 ∧
    ((base64Stage []).ProcessMessage emptyOutside Stats.zero []
        ⟨[ascii "abc", [], ascii "xyz"]⟩).stats.mErr = 0 := by
  have h := (C18_success_error_counts emptyOutside (base64Stage []) Stats.zero []
    ⟨[ascii "abc", [], ascii "xyz"]⟩).2.2.2.2 NewEncodeConfig rfl
  exact ⟨h.1.trans (by decide), h.2⟩

/-! ## The claims on `ReplaceEnvVariables` -/

set_option maxRecDepth 8000 in
/-- C12, as stated, fails: the default `x$` holds no closing brace and no `${`, and the text
`{{B}}` behind the placeholder holds no `${` either, yet with `A` unset the
input `${A:x$}{{B}}` does not come back as `x${{B}}`, the default followed by
the text unchanged, but as `x${B}`: the dollar sign that ends the default and
the braces that follow it make a doubled-brace form for the second pass. -/
theorem C12_seam_counterexample :
    (ascii "A" ≠ [] ∧ (∀ c ∈ ascii "A", nameClass c = true) ∧
      ascii "x$" ≠ [] ∧ (∀ c ∈ ascii "x$", c ≠ 125) ∧
      (¬ ([36, 123] : Bytes) <:+: ascii "x$") ∧
      (¬ ([36, 123] : Bytes) <:+: [123, 123] ++ ascii "B" ++ [125, 125]) ∧
      envOf [] (ascii "A") = none) ∧
    ReplaceEnvVariables (envOf [])
        (withDefault (ascii "A") (ascii "x$") ++ ([123, 123] ++ ascii "B" ++ [125, 125])) true
      = some (ascii "x" ++ withoutDefault (ascii "B")) ∧
    ReplaceEnvVariables (envOf [])
        (withDefault (ascii "A") (ascii "x$") ++ ([123, 123] ++ ascii "B" ++ [125, 125])) true
      ≠ some (backslashN (ascii "x$") ++ ([123, 123] ++ ascii "B" ++ [125, 125])) := by
  decide

/-- C12, amended: for a name over `[0-9A-Za-z_.]`, a non-empty default `d` without a closing
brace, and text around the placeholder, where the text in front, the default
and the text behind hold no `${`, also not where one ends and the next begins,
an environment in which the name is unset or empty makes `ReplaceEnvVariables`
put the default, each line feed turned into a backslash and the letter n, in
place of `${NAME:d}` and leave the surrounding text as it is, in strict and in
non-strict mode. -/
theorem C12_default_substituted (env : Env) (strict : Bool) (pre name d post : Bytes)
    (hne : name ≠ []) (hname : ∀ c ∈ name, nameClass c = true)
    (hd : d ≠ []) (hbrace : ∀ c ∈ d, c ≠ 125)
    (hplain : ¬ ([36, 123] : Bytes) <:+: pre ++ d ++ post)
    (henv : env name = none ∨ env name = some []) :
    ReplaceEnvVariables env (pre ++ withDefault name d ++ post) strict
      = some (pre ++ backslashN d ++ post) := by
  rw [← noDB_iff_absent] at hplain
  have hpre : noDB pre = true := noDB_append_left _ _ (noDB_append_left _ _ hplain)
  have hpost : noDB post = true := noDB_append_right _ _ hplain
  have hdb : noDB d = true := noDB_append_right _ _ (noDB_append_left _ _ hplain)
  have hval : (if (env name).getD [] = [] then d else (env name).getD []) = d := by
    rcases henv with h | h <;> simp [h]
  have h1 : ReplaceAllFunc envRegex (pre ++ withDefault name d ++ post) (envReplace env strict)
      = some (pre ++ escapeNewlines d ++ post) := by
    rw [withDefault_eq]
    refine ReplaceAllFunc_one _ _ pre _ post _ hpre hpost ⟨_, rfl⟩
      (envRegex_find_default name d post hne hname hd hbrace hdb) ?_
    rw [envReplace_default env strict name d (nameClass_not_colon name hname), hval]
  have h2 := ReplaceAllFunc_noDB
    (Re.seq (lit 123) (Re.seq (Re.plus (Re.byte nameClass))
      (Re.seq defaultPart (Re.seq (lit 125) (lit 125)))))
    (fun content => some (expandEscaped content)) _ (noDB_escape pre d post hplain)
  rw [← escapeNewlines_eq]
  simp only [ReplaceEnvVariables, h1]
  exact h2

set_option maxRecDepth 8000 in
/-- The scenario of C12: `level: ${LOG_LEVEL:info}` with `LOG_LEVEL` unset becomes `level: info`,
in strict mode too; and a default of two lines comes out as one line with a
backslash and the letter n. -/
theorem C12_default_substituted_witness :
    (ascii "LOG_LEVEL" ≠ [] ∧ (∀ c ∈ ascii "LOG_LEVEL", nameClass c = true) ∧
      ascii "info" ≠ [] ∧ (∀ c ∈ ascii "info", c ≠ 125) ∧
      (¬ ([36, 123] : Bytes) <:+: ascii "level: " ++ ascii "info" ++ []) ∧
      (envOf [] (ascii "LOG_LEVEL") = none ∨ envOf [] (ascii "LOG_LEVEL") = some [])) ∧
    ReplaceEnvVariables (envOf []) (ascii "level: " ++ withDefault (ascii "LOG_LEVEL") (ascii "info")
      ++ []) true = some (ascii "level: info") ∧
    ReplaceEnvVariables (envOf []) ([] ++ withDefault (ascii "M") [105, 10, 106] ++ ascii ";") false
      = some [105, 92, 110, 106, 59] := by
  refine ⟨⟨by decide, by decide, by decide, by decide, by decide, Or.inl rfl⟩, ?_, ?_⟩
  · exact (C12_default_substituted (envOf []) true (ascii "level: ") (ascii "LOG_LEVEL")
      (ascii "info") [] (by decide) (by decide) (by decide) (by decide) (by decide)
      (Or.inl rfl)).trans (by decide)
  · exact (C12_default_substituted (envOf []) false [] (ascii "M") [105, 10, 106] (ascii ";")
      (by decide) (by decide) (by decide) (by decide) (by decide) (Or.inl rfl)).trans (by decide)

set_option maxRecDepth 8000 in
/-- C19, as stated, fails: around the placeholder stand the texts `$` and `{{B}}`, neither of
which holds a `${`, yet in non-strict mode with `A` unset the input
`$${A}{{B}}` does not come back as `${{B}}`, the surrounding text unchanged,
but as `${B}`: once the placeholder is gone the two texts make a doubled-brace
form for the second pass. -/
theorem C19_seam_counterexample :
    (ascii "A" ≠ [] ∧ (∀ c ∈ ascii "A", nameClass c = true) ∧
      (¬ ([36, 123] : Bytes) <:+: [36]) ∧
      (¬ ([36, 123] : Bytes) <:+: [123, 123] ++ ascii "B" ++ [125, 125]) ∧
      envOf [] (ascii "A") = none) ∧
    ReplaceEnvVariables (envOf [])
        ([36] ++ withoutDefault (ascii "A") ++ ([123, 123] ++ ascii "B" ++ [125, 125])) false
      = some (withoutDefault (ascii "B")) ∧
    ReplaceEnvVariables (envOf [])
        ([36] ++ withoutDefault (ascii "A") ++ ([123, 123] ++ ascii "B" ++ [125, 125])) false
      ≠ some ([36] ++ ([123, 123] ++ ascii "B" ++ [125, 125])) := by
  decide

/-- C19, amended: in non-strict mode, for a name over `[0-9A-Za-z_.]` that is unset or empty in
the environment, `ReplaceEnvVariables` puts the empty string in place of a
placeholder `${NAME}` without a default and leaves the text around it as it
is, where the text in front and the text behind hold no `${`, also not where
the one ends and the other begins. -/
theorem C19_unset_gives_empty (env : Env) (pre name post : Bytes)
    (hne : name ≠ []) (hname : ∀ c ∈ name, nameClass c = true)
    (hplain : ¬ ([36, 123] : Bytes) <:+: pre ++ post)
    (henv : env name = none ∨ env name = some []) :
    ReplaceEnvVariables env (pre ++ withoutDefault name ++ post) false = some (pre ++ post) := by
  rw [← noDB_iff_absent] at hplain
  have hpre : noDB pre = true := noDB_append_left _ _ hplain
  have hpost : noDB post = true := noDB_append_right _ _ hplain
  have h1 : ReplaceAllFunc envRegex (pre ++ withoutDefault name ++ post) (envReplace env false)
      = some (pre ++ [] ++ post) := by
    rw [withoutDefault_eq]
    refine ReplaceAllFunc_one _ _ pre _ post _ hpre hpost ⟨_, rfl⟩
      (envRegex_find_plain name post hne hname) ?_
    rw [envReplace_plain env false name hne (nameClass_not_colon name hname)]
    rcases henv with h | h <;> simp [h, escapeNewlines]
  have h2 := ReplaceAllFunc_noDB
    (Re.seq (lit 123) (Re.seq (Re.plus (Re.byte nameClass))
      (Re.seq defaultPart (Re.seq (lit 125) (lit 125)))))
    (fun content => some (expandEscaped content)) _ hplain
  simp only [ReplaceEnvVariables, h1, List.append_nil]
  exact h2

set_option maxRecDepth 8000 in
/-- The example of C19: `a${NAME}b` with `NAME` unset becomes `ab`. -/
theorem C19_unset_gives_empty_witness :
    (ascii "NAME" ≠ [] ∧ (∀ c ∈ ascii "NAME", nameClass c = true) ∧
      (¬ ([36, 123] : Bytes) <:+: ascii "a" ++ ascii "b") ∧
      (envOf [] (ascii "NAME") = none ∨ envOf [] (ascii "NAME") = some [])) ∧
    ReplaceEnvVariables (envOf []) (ascii "a" ++ withoutDefault (ascii "NAME") ++ ascii "b") false
      = some (ascii "ab") := by
  refine ⟨⟨by decide, by decide, by decide, Or.inl rfl⟩, ?_⟩
  exact (C19_unset_gives_empty (envOf []) (ascii "a") (ascii "NAME") (ascii "b")
    (by decide) (by decide) (by decide) (Or.inl rfl)).trans (by decide)

/-- C20: an input that does not contain the two bytes `${` comes back byte for byte, in every
environment and in both modes. -/
theorem C20_plain_text_unchanged (env : Env) (strict : Bool) (input : Bytes)
    (hplain : ¬ ([36, 123] : Bytes) <:+: input) :
    ReplaceEnvVariables env input strict = some input := by
  rw [← noDB_iff_absent] at hplain
  have h1 := ReplaceAllFunc_noDB
    (Re.seq (Re.plus (Re.byte nameClass)) (Re.seq defaultPart (lit 125)))
    (envReplace env strict) input hplain
  have h2 := ReplaceAllFunc_noDB
    (Re.seq (lit 123) (Re.seq (Re.plus (Re.byte nameClass))
      (Re.seq defaultPart (Re.seq (lit 125) (lit 125)))))
    (fun content => some (expandEscaped content)) input hplain
  have e1 : ReplaceAllFunc envRegex input (envReplace env strict) = some input := h1
  simp only [ReplaceEnvVariables, e1]
  exact h2

set_option maxRecDepth 8000 in
/-- An instance of C20: a text with dollar signs and an opening brace, but no `${`, in strict
mode. -/
theorem C20_plain_text_unchanged_witness :
    (¬ ([36, 123] : Bytes) <:+: ascii "cost: 5$ " ++ [123] ++ ascii " $") ∧
    ReplaceEnvVariables (envOf []) (ascii "cost: 5$ " ++ [123] ++ ascii " $") true
      = some (ascii "cost: 5$ " ++ [123] ++ ascii " $") :=
  ⟨by decide,
   C20_plain_text_unchanged (envOf []) true (ascii "cost: 5$ " ++ [123] ++ ascii " $") (by decide)⟩

set_option maxRecDepth 8000 in
/-- C14, as stated, fails: the default `x${B` holds no closing brace, yet the doubled-brace
form `${{A:x${B}}` does not come back as `${A:x${B}`. The placeholder `${B}`
inside it is substituted first, so the output follows the environment
(`${{A:x}` with `B` unset, `${{A:xv}` with `B` set to `v`), and strict mode
panics when `B` is unset. -/
theorem C14_escape_counterexample :
    (ascii "x" ++ [36, 123] ++ ascii "B" ≠ [] ∧
      ∀ c ∈ ascii "x" ++ [36, 123] ++ ascii "B", c ≠ 125) ∧
    ReplaceEnvVariables (envOf []) (doubled (ascii "A") (ascii "x" ++ [36, 123] ++ ascii "B")) false
      = some ([36, 123, 123] ++ ascii "A:x" ++ [125]) ∧
    ReplaceEnvVariables (envOf [(ascii "B", ascii "v")])
        (doubled (ascii "A") (ascii "x" ++ [36, 123] ++ ascii "B")) false
      = some ([36, 123, 123] ++ ascii "A:xv" ++ [125]) ∧
    ReplaceEnvVariables (envOf []) (doubled (ascii "A") (ascii "x" ++ [36, 123] ++ ascii "B")) true
      = none ∧
    ReplaceEnvVariables (envOf []) (doubled (ascii "A") (ascii "x" ++ [36, 123] ++ ascii "B")) false
      ≠ some (withDefault (ascii "A") (ascii "x" ++ [36, 123] ++ ascii "B")) := by
  decide

/-- C14, amended: for a name over `[0-9A-Za-z_.]` and a non-empty default `d` that holds no
closing brace and no `${`, between texts that hold no `${`,
`ReplaceEnvVariables` turns the doubled-brace form `${{NAME:d}}` into the
literal text `${NAME:d}` without any substitution: the output is the same in
every environment and in both modes. -/
theorem C14_escape_literal (env : Env) (strict : Bool) (pre name d post : Bytes)
    (hne : name ≠ []) (hname : ∀ c ∈ name, nameClass c = true)
    (hd : d ≠ []) (hbrace : ∀ c ∈ d, c ≠ 125)
    (hdb : ¬ ([36, 123] : Bytes) <:+: d)
    (hpre : ¬ ([36, 123] : Bytes) <:+: pre) (hpost : ¬ ([36, 123] : Bytes) <:+: post) :
    ReplaceEnvVariables env (pre ++ doubled name d ++ post) strict
      = some (pre ++ withDefault name d ++ post) := by
  rw [← noDB_iff_absent] at hdb hpre hpost
  have h1 : ReplaceAllFunc envRegex (pre ++ doubled name d ++ post) (envReplace env strict)
      = some (pre ++ doubled name d ++ post) := by
    rw [doubled_eq, List.append_assoc]
    have hs := ReplaceAllFunc_plain
      (Re.seq (Re.plus (Re.byte nameClass)) (Re.seq defaultPart (lit 125)))
      (envReplace env strict) pre
      (36 :: 123 :: 123 :: (name ++ 58 :: (d ++ [125, 125])) ++ post) hpre (by simp)
    have hk := ReplaceAllFunc_skip envRegex (envReplace env strict) 36
      (123 :: 123 :: (name ++ 58 :: (d ++ [125, 125])) ++ post) (envRegex_find_doubled _)
    have hr := ReplaceAllFunc_noDB
      (Re.seq (Re.plus (Re.byte nameClass)) (Re.seq defaultPart (lit 125)))
      (envReplace env strict) _ (noDB_doubled_tail name d post hname hdb hpost)
    have e : ReplaceAllFunc envRegex
        (pre ++ (36 :: 123 :: 123 :: (name ++ 58 :: (d ++ [125, 125])) ++ post))
        (envReplace env strict)
        = (ReplaceAllFunc envRegex
            (36 :: 123 :: 123 :: (name ++ 58 :: (d ++ [125, 125])) ++ post)
            (envReplace env strict)).map (fun out => pre ++ out) := hs
    rw [e]
    have e2 : ReplaceAllFunc envRegex
        (123 :: 123 :: (name ++ 58 :: (d ++ [125, 125])) ++ post) (envReplace env strict)
        = some (123 :: 123 :: (name ++ 58 :: (d ++ [125, 125])) ++ post) := hr
    rw [List.cons_append, hk, e2]
    rfl
  have h2 : ReplaceAllFunc escapedEnvRegex (pre ++ doubled name d ++ post)
      (fun content => some (expandEscaped content)) = some (pre ++ withDefault name d ++ post) := by
    rw [doubled_eq]
    refine ReplaceAllFunc_one _ _ pre _ post _ hpre hpost ⟨_, rfl⟩
      (escapedEnvRegex_find_default name d post hne hname hd hbrace hdb) ?_
    have e : (36 :: 123 :: 123 :: (name ++ 58 :: (d ++ [125, 125])) : Bytes)
        = 36 :: 123 :: ((123 :: (name ++ 58 :: (d ++ [125]))) ++ [125]) := by simp
    rw [e, expandEscaped_braced, withDefault_eq]
  simp only [ReplaceEnvVariables, h1]
  exact h2

set_option maxRecDepth 8000 in
/-- The scenario of C14: `literal: ${{BAR:baz}}` becomes `literal: ${BAR:baz}`, here with `BAR` set
and in strict mode. -/
theorem C14_escape_literal_witness :
    (ascii "BAR" ≠ [] ∧ (∀ c ∈ ascii "BAR", nameClass c = true) ∧
      ascii "baz" ≠ [] ∧ (∀ c ∈ ascii "baz", c ≠ 125) ∧
      (¬ ([36, 123] : Bytes) <:+: ascii "baz") ∧
      (¬ ([36, 123] : Bytes) <:+: ascii "literal: ") ∧ (¬ ([36, 123] : Bytes) <:+: [])) ∧
    ReplaceEnvVariables (envOf [(ascii "BAR", ascii "set")])
        (ascii "literal: " ++ doubled (ascii "BAR") (ascii "baz") ++ []) true
      = some (ascii "literal: " ++ withDefault (ascii "BAR") (ascii "baz") ++ []) :=
  ⟨⟨by decide, by decide, by decide, by decide, by decide, by decide, by decide⟩,
   C14_escape_literal (envOf [(ascii "BAR", ascii "set")]) true (ascii "literal: ") (ascii "BAR")
    (ascii "baz") [] (by decide) (by decide) (by decide) (by decide) (by decide) (by decide)
    (by decide)⟩

set_option maxRecDepth 8000 in
/-- C16: the code at the failing input. With `FOO` set to the non-empty value `${{X}}`, the
callback returns the value for the match `${FOO}`, but `ReplaceEnvVariables`
returns `${X}`: the doubled-brace pass runs over the substituted value too, so
the contents of the variable do not come back as they are. -/
theorem C16_value_rewritten :
    ([36, 123, 123] ++ ascii "X" ++ [125, 125] : Bytes) ≠ [] ∧
    envOf [(ascii "FOO", [36, 123, 123] ++ ascii "X" ++ [125, 125])] (ascii "FOO")
      = some ([36, 123, 123] ++ ascii "X" ++ [125, 125]) ∧
    backslashN ([36, 123, 123] ++ ascii "X" ++ [125, 125])
      = [36, 123, 123] ++ ascii "X" ++ [125, 125] ∧
    envReplace (envOf [(ascii "FOO", [36, 123, 123] ++ ascii "X" ++ [125, 125])]) false
        (withoutDefault (ascii "FOO"))
      = some ([36, 123, 123] ++ ascii "X" ++ [125, 125]) ∧
    ReplaceEnvVariables (envOf [(ascii "FOO", [36, 123, 123] ++ ascii "X" ++ [125, 125])])
        (withoutDefault (ascii "FOO")) false
      = some ([36, 123] ++ ascii "X" ++ [125]) ∧
    ReplaceEnvVariables (envOf [(ascii "FOO", [36, 123, 123] ++ ascii "X" ++ [125, 125])])
        (withoutDefault (ascii "FOO")) false
      ≠ some (backslashN ([36, 123, 123] ++ ascii "X" ++ [125, 125])) := by
  decide

/-- For a name that the environment sets to `v`, the input `${NAME}` gives `v` with its line
feeds escaped and then passed through the doubled-brace pass; where that text
holds no doubled-brace form it comes back as it is. -/
theorem value_then_second_pass (env : Env) (strict : Bool) (name v : Bytes)
    (hne : name ≠ []) (hname : ∀ c ∈ name, nameClass c = true)
    (hv : env name = some v) :
    ReplaceEnvVariables env (withoutDefault name) strict
      = ReplaceAllFunc escapedEnvRegex (escapeNewlines v)
          (fun content => some (expandEscaped content)) ∧
    (FindAll escapedEnvRegex (escapeNewlines v) = [] →
      ReplaceEnvVariables env (withoutDefault name) strict = some (escapeNewlines v)) := by
  have h1 : ReplaceAllFunc envRegex (withoutDefault name) (envReplace env strict)
      = some (escapeNewlines v) := by
    have := ReplaceAllFunc_one
      (Re.seq (Re.plus (Re.byte nameClass)) (Re.seq defaultPart (lit 125)))
      (envReplace env strict) [] (36 :: 123 :: (name ++ [125])) [] (escapeNewlines v) rfl rfl
      ⟨_, rfl⟩ (envRegex_find_plain name [] hne hname)
      (by rw [envReplace_plain env strict name hne (nameClass_not_colon name hname), hv])
    rw [withoutDefault_eq]
    simpa using this
  have h2 : ReplaceEnvVariables env (withoutDefault name) strict
      = ReplaceAllFunc escapedEnvRegex (escapeNewlines v)
          (fun content => some (expandEscaped content)) := by
    simp only [ReplaceEnvVariables, h1]
  refine ⟨h2, fun hesc => ?_⟩
  rw [h2]
  exact scanLoop_nil escapedEnvRegex _ _ _ hesc

set_option maxRecDepth 8000 in
/-- C13, as stated, fails: the input `${A:${B}}` contains the placeholder `${B}`, which has no
default and whose variable is unset, yet strict mode does not panic: the scan
takes the whole input as one placeholder, for `A` with the default `${B}`, and
the call returns that default, `${B}`, which is never looked up. -/
theorem C13_contains_counterexample :
    (withoutDefault (ascii "B") <:+: withDefault (ascii "A") (withoutDefault (ascii "B")) ∧
      ascii "B" ≠ [] ∧ (∀ c ∈ ascii "B", nameClass c = true) ∧
      envOf [] (ascii "B") = none) ∧
    FindAll envRegex (withDefault (ascii "A") (withoutDefault (ascii "B")))
      = [withDefault (ascii "A") (withoutDefault (ascii "B"))] ∧
    ReplaceEnvVariables (envOf []) (withDefault (ascii "A") (withoutDefault (ascii "B"))) true
      = some (withoutDefault (ascii "B")) ∧
    ReplaceEnvVariables (envOf []) (withDefault (ascii "A") (withoutDefault (ascii "B"))) true
      ≠ none := by
  decide

/-- C13, amended: in strict mode `ReplaceEnvVariables` panics, returning nothing, only if the
input contains a placeholder `${NAME}` without a default, its name over
`[0-9A-Za-z_.]`, whose variable is unset; it panics exactly when the scan hands
such a placeholder to the callback; it does panic when such a placeholder
follows a text without `${`, whatever follows the placeholder; a matched
placeholder makes the callback panic only if it is of that kind, so one with a
default or with a set variable never does; and in non-strict mode the call
never panics. -/
theorem C13_strict_panic (env : Env) (input : Bytes) :
    (ReplaceEnvVariables env input true = none →
      ∃ name, name ≠ [] ∧ (∀ c ∈ name, nameClass c = true) ∧
        withoutDefault name <:+: input ∧ env name = none) ∧
    (ReplaceEnvVariables env input true = none ↔
      ∃ name, withoutDefault name ∈ FindAll envRegex input ∧ (58 : Byte) ∉ name ∧
        env name = none) ∧
    (∀ pre name post, input = pre ++ withoutDefault name ++ post →
      ¬ ([36, 123] : Bytes) <:+: pre → name ≠ [] → (∀ c ∈ name, nameClass c = true) →
      env name = none → ReplaceEnvVariables env input true = none) ∧
    (∀ content ∈ FindAll envRegex input, envReplace env true content = none →
      ∃ name, content = withoutDefault name ∧ (58 : Byte) ∉ name ∧ env name = none) ∧
    ReplaceEnvVariables env input false ≠ none := by
  have hcb : ∀ content ∈ FindAll envRegex input, envReplace env true content = none →
      ∃ name, content = withoutDefault name ∧ (58 : Byte) ∉ name ∧ env name = none := by
    intro content hc hnone
    obtain ⟨mid, hmid, he⟩ := envRegex_match input content hc
    rw [he] at hnone
    have := (envReplace_strict_none env mid hmid).mp hnone
    exact ⟨mid, by rw [he, withoutDefault_eq], this.1, this.2⟩
  have hpass : ∀ strict, ReplaceEnvVariables env input strict = none ↔
      ReplaceAllFunc envRegex input (envReplace env strict) = none := by
    intro strict
    unfold ReplaceEnvVariables
    cases h1 : ReplaceAllFunc envRegex input (envReplace env strict) with
    | none => simp
    | some replaced =>
      simp only [reduceCtorEq, iff_false]
      exact pass2_some replaced
  refine ⟨?_, ?_, ?_, hcb, ?_⟩
  · intro h
    rw [hpass true] at h
    unfold ReplaceAllFunc at h
    rw [replaceLoop_none_iff] at h
    obtain ⟨content, hc, hnone⟩ := h
    obtain ⟨name, rest, hne, hname, hcont, hrest, hin⟩ := envRegex_match_full input content hc
    rw [hcont] at hnone
    have hmid : name ++ rest ≠ [] := by
      intro hh
      exact hne (List.append_eq_nil.mp hh).1
    obtain ⟨hcolon, hunset⟩ := (envReplace_strict_none env (name ++ rest) hmid).mp hnone
    have hr : rest = [] := by
      rcases hrest with hr | ⟨t, ht⟩
      · exact hr
      · exact absurd (by rw [ht]; simp) hcolon
    subst hr
    rw [List.append_nil] at hcont hunset
    refine ⟨name, hne, hname, ?_, hunset⟩
    rw [withoutDefault_eq, ← hcont]
    exact hin
  · rw [hpass true]
    unfold ReplaceAllFunc
    rw [replaceLoop_none_iff]
    constructor
    · rintro ⟨content, hc, hnone⟩
      obtain ⟨name, he, h1, h2⟩ := hcb content hc hnone
      exact ⟨name, by rw [← he]; exact hc, h1, h2⟩
    · rintro ⟨name, hc, h1, h2⟩
      refine ⟨withoutDefault name, hc, ?_⟩
      obtain ⟨mid, hmid, he⟩ := envRegex_match input _ hc
      have hnm : name = mid := by
        rw [withoutDefault_eq] at he
        simp only [List.cons.injEq, true_and] at he
        exact List.append_cancel_right he
      subst hnm
      rw [withoutDefault_eq]
      exact (envReplace_strict_none env name hmid).mpr ⟨h1, h2⟩
  · intro pre name post hin hpre hne hname hunset
    rw [← noDB_iff_absent] at hpre
    have hpre' : noDB pre = true := by simpa using hpre
    rw [hpass true, hin, withoutDefault_eq, List.append_assoc]
    have hrepl : envReplace env true (36 :: 123 :: (name ++ [125])) = none := by
      rw [envReplace_plain env true name hne (nameClass_not_colon name hname), hunset]
      rfl
    rw [envRegex, ReplaceAllFunc_plain _ _ pre _ hpre' (by simp), ← envRegex,
      ReplaceAllFunc_match envRegex _ (36 :: 123 :: (name ++ [125])) post
        (List.cons_ne_nil _ _) (envRegex_find_plain name post hne hname), hrepl]
    rfl
  · intro h
    rw [hpass false] at h
    unfold ReplaceAllFunc at h
    rw [replaceLoop_none_iff] at h
    obtain ⟨content, _, hnone⟩ := h
    exact envReplace_lenient env content hnone

set_option maxRecDepth 8000 in
/-- The scenario of C13: `value: ${FOO}` in strict mode with `FOO` unset panics, and the same input
in non-strict mode gives `value: `. -/
theorem C13_strict_panic_witness :
    ((¬ ([36, 123] : Bytes) <:+: ascii "value: ") ∧ ascii "FOO" ≠ [] ∧
      (∀ c ∈ ascii "FOO", nameClass c = true) ∧ envOf [] (ascii "FOO") = none) ∧
    ReplaceEnvVariables (envOf []) (ascii "value: " ++ withoutDefault (ascii "FOO") ++ []) true
      = none ∧
    ReplaceEnvVariables (envOf []) (ascii "value: " ++ withoutDefault (ascii "FOO") ++ []) false
      = some (ascii "value: ") :=
  ⟨⟨by decide, by decide, by decide, rfl⟩,
   (C13_strict_panic (envOf []) (ascii "value: " ++ withoutDefault (ascii "FOO") ++ [])).2.2.1
     (ascii "value: ") (ascii "FOO") [] rfl (by decide) (by decide) (by decide) rfl,
   by decide⟩

set_option maxRecDepth 8000 in
/-- C15: the code at the failing input. With `FOO` set to a line feed inside the letters `a` and
`b`, followed by `${{X}}`, the selected value of the placeholder in `k: ${FOO}`
is that value and the callback returns it with the line feed escaped; but what
stands in place of the placeholder in the output of `ReplaceEnvVariables` is
`a\nb${X}`, not the escaped value `a\nb${{X}}`: the doubled-brace pass runs
over the substituted text too. -/
theorem C15_value_rewritten :
    FindAll envRegex (ascii "k: " ++ withoutDefault (ascii "FOO")) = [withoutDefault (ascii "FOO")] ∧
    selectedValue (envOf [(ascii "FOO", ascii "a\nb" ++ [36, 123, 123] ++ ascii "X" ++ [125, 125])])
        (withoutDefault (ascii "FOO"))
      = ascii "a\nb" ++ [36, 123, 123] ++ ascii "X" ++ [125, 125] ∧
    backslashN (ascii "a\nb" ++ [36, 123, 123] ++ ascii "X" ++ [125, 125])
      = ascii "a\\nb" ++ [36, 123, 123] ++ ascii "X" ++ [125, 125] ∧
    envReplace (envOf [(ascii "FOO", ascii "a\nb" ++ [36, 123, 123] ++ ascii "X" ++ [125, 125])])
        false (withoutDefault (ascii "FOO"))
      = some (ascii "a\\nb" ++ [36, 123, 123] ++ ascii "X" ++ [125, 125]) ∧
    ReplaceEnvVariables
        (envOf [(ascii "FOO", ascii "a\nb" ++ [36, 123, 123] ++ ascii "X" ++ [125, 125])])
        (ascii "k: " ++ withoutDefault (ascii "FOO")) false
      = some (ascii "k: " ++ ascii "a\\nb" ++ [36, 123] ++ ascii "X" ++ [125]) ∧
    ReplaceEnvVariables
        (envOf [(ascii "FOO", ascii "a\nb" ++ [36, 123, 123] ++ ascii "X" ++ [125, 125])])
        (ascii "k: " ++ withoutDefault (ascii "FOO")) false
      ≠ some (ascii "k: " ++
          backslashN (ascii "a\nb" ++ [36, 123, 123] ++ ascii "X" ++ [125, 125])) := by
  decide

/-- The callback returns, for every placeholder that the scan matches, the selected value (the
value of the variable, or the default) with every line feed replaced by a
backslash and the letter n, unless strict mode panics. -/
theorem callback_escapes_selected (env : Env) (strict : Bool) (input : Bytes) :
    ∀ content ∈ FindAll envRegex input,
      envReplace env strict content = some (backslashN (selectedValue env content)) ∨
      (strict = true ∧ envReplace env strict content = none) := by
  intro content hc
  obtain ⟨mid, hmid, he⟩ := envRegex_match input content hc
  rw [← escapeNewlines_eq]
  apply envReplace_selected
  have : 0 < mid.length := List.length_pos.mpr hmid
  rw [he]
  simp only [List.length_cons, List.length_append, List.length_nil]; omega

/-- An input without a line feed gives an output without a line feed. -/
theorem newline_free_output (env : Env) (strict : Bool) (input out : Bytes)
    (hin : ∀ c ∈ input, c ≠ 10) (h : ReplaceEnvVariables env input strict = some out) :
    ∀ c ∈ out, c ≠ 10 := by
  unfold ReplaceEnvVariables at h
  cases h1 : ReplaceAllFunc envRegex input (envReplace env strict) with
  | none => rw [h1] at h; cases h
  | some replaced =>
    rw [h1] at h
    have hr : ∀ c ∈ replaced, c ≠ 10 :=
      replaceLoop_keeps envRegex (envReplace env strict) (fun c => c ≠ 10)
        (fun content r _ hcr => envReplace_keeps env strict content r hcr)
        input.length input replaced hin h1
    refine replaceLoop_keeps escapedEnvRegex (fun content => some (expandEscaped content))
      (fun c => c ≠ 10) ?_ replaced.length replaced out hr h
    intro content r hcont hr2
    simp only [Option.some.injEq] at hr2
    rw [← hr2]
    intro c hc
    simp only [expandEscaped, List.mem_cons] at hc
    rcases hc with hc | hc
    · rw [hc]; decide
    · exact hcont c (List.mem_of_mem_take (List.mem_of_mem_drop hc))

end Benthos
